import Mathlib

/-! # MIDI-out logger (`src/devices/imagedev/midiout.cpp`)

A shallow embedding of the Standard-MIDI-File logger of `midiout_device`:
the byte-stream decoder `log_proc_byte`, the event commit `log_finish_comand`,
the variable-length writer `log_write_varlen` and the file lifecycle
`log_start` / `log_end`.

Conventions.
* `uint8_t` / `uint32_t` values are `Nat`; every place where the C++ code can
  wrap carries an explicit `% 2 ^ 32`.
* `std::ofstream` is a record of an open flag, the file contents and the put
  position (`tellp`).  A write at the put position overwrites what is there
  and extends the file at its end; a write to a stream that is not open fails
  and changes nothing.
* The assignment to `m_log_file` in `log_start` destroys the stream held
  before; what its destructor flushes into the file just truncated is the
  argument `stale` of `log_start`, empty when that stream is absent or closed.
* `machine().time() - m_time_log_start`, converted by `as_ticks(LOG_RESOLUTION)`,
  is an input of `log_proc_byte`: the argument `tick`.
* `log_proc_byte` calls itself; the embedding carries a fuel argument that
  bounds the number of entries of the function.
-/

namespace Midiout

set_option maxRecDepth 8000

/-! ## Constants -/

/-- Table `MIDI_CMD_SIZE[0x08]`, statuses 80-F0 (`(uint32_t)-1` is `0xFFFFFFFF`). -/
def MIDI_CMD_SIZE : List Nat :=
  [0x02, 0x02, 0x02, 0x02, 0x01, 0x01, 0x02, 0xFFFFFFFF]

/-- Table `MIDI_CMD_XSIZE[0x10]`, statuses F0-FF. -/
def MIDI_CMD_XSIZE : List Nat :=
  [0xFFFFFFFF, 0x01, 0x02, 0x01, 0x00, 0x00, 0x00, 0xFFFFFFFF,
   0x00, 0x01, 0x00, 0x00, 0x00, 0x00, 0x00, 0x00]

/-- Constant `LOG_RESOLUTION`, ticks per second. -/
def LOG_RESOLUTION : Nat := 31250

/-- The text `"Device Reset"` as bytes (`devResetStr`). -/
def devResetStr : List Nat :=
  [0x44, 0x65, 0x76, 0x69, 0x63, 0x65, 0x20, 0x52, 0x65, 0x73, 0x65, 0x74]

/-! ## The output stream -/

/-- State of the `std::ofstream` behind `m_log_file`. -/
structure LogFile where
  is_open : Bool
  bytes : List Nat
  pos : Nat
  deriving DecidableEq, Repr

/-- Method `ofstream::put`: one byte at the put position. -/
def LogFile.put (f : LogFile) (b : Nat) : LogFile :=
  if f.is_open then
    { f with
      bytes := f.bytes.take f.pos ++ List.replicate (f.pos - f.bytes.length) 0
                 ++ [b] ++ f.bytes.drop (f.pos + 1)
      pos := f.pos + 1 }
  else f

/-- Method `ofstream::write`: the bytes one after the other. -/
def LogFile.write (f : LogFile) (bs : List Nat) : LogFile :=
  bs.foldl LogFile.put f

/-- Method `ofstream::seekp`. -/
def LogFile.seekp (f : LogFile) (p : Nat) : LogFile :=
  if f.is_open then { f with pos := p } else f

/-- Method `ofstream::close`. -/
def LogFile.close (f : LogFile) : LogFile :=
  { f with is_open := false }

/-! ## The device -/

/-- Ghost record of one event written by `log_finish_comand`. -/
structure Commit where
  /-- the value handed to `log_write_varlen` as delta-time -/
  delta : Nat
  /-- `m_event_tick` at the commit -/
  tick : Nat
  /-- `m_cmd_buf` at the commit -/
  msg : List Nat
  deriving DecidableEq, Repr

/-- The logging fields of `midiout_device`.  `m_log_file = none` is the null
`unique_ptr`.  `commits` is a ghost field: the history of the events written by
`log_finish_comand`, oldest first; no operation reads it. -/
structure Session where
  m_log_file : Option LogFile
  m_event_tick : Nat
  m_file_tick : Nat
  m_last_status : Nat
  m_cur_status : Nat
  m_cmd_buf : List Nat
  m_cmd_rem_bytes : Nat
  m_mid_track_start_pos : Nat
  commits : List Commit
  deriving DecidableEq, Repr

/-- The test `m_log_file && m_log_file->is_open()`. -/
def Session.sinkOpen (s : Session) : Bool :=
  match s.m_log_file with
  | some f => f.is_open
  | none => false

/-- Call `m_log_file->put(b)`. -/
def Session.fput (s : Session) (b : Nat) : Session :=
  { s with m_log_file := s.m_log_file.map fun f => f.put b }

/-- Call `m_log_file->write(bs, bs.size())`. -/
def Session.fwrite (s : Session) (bs : List Nat) : Session :=
  { s with m_log_file := s.m_log_file.map fun f => f.write bs }

/-- Call `m_log_file->tellp()`. -/
def Session.tellp (s : Session) : Nat :=
  match s.m_log_file with
  | some f => f.pos
  | none => 0

/-- Function `log_write_be16`. -/
def log_write_be16 (s : Session) (value : Nat) : Session :=
  (s.fput ((value >>> 8) &&& 0xFF)).fput ((value >>> 0) &&& 0xFF)

/-- Function `log_write_be32`. -/
def log_write_be32 (s : Session) (value : Nat) : Session :=
  (((s.fput ((value >>> 24) &&& 0xFF)).fput ((value >>> 16) &&& 0xFF)).fput
    ((value >>> 8) &&& 0xFF)).fput ((value >>> 0) &&& 0xFF)

/-- The `while (value > 0 && buf_pos > 0)` loop of `log_write_varlen`; returns
the final `buf_pos` and `buffer`. -/
def varlen_loop : Nat → Nat → List Nat → Nat × List Nat
  | 0, _, buffer => (0, buffer)
  | buf_pos + 1, value, buffer =>
    if value > 0 then
      varlen_loop buf_pos (value >>> 7) (buffer.set buf_pos (0x80 ||| (value &&& 0x7F)))
    else (buf_pos + 1, buffer)

/-- The bytes `log_write_varlen(value)` hands to `write`: the scratch buffer
from `buf_pos` to its end. -/
def varlen_bytes (value : Nat) : List Nat :=
  let buffer_size := 8
  let buffer := List.replicate buffer_size 0
  let buf_pos := buffer_size - 1
  let buffer := buffer.set buf_pos (0x00 ||| (value &&& 0x7F))
  let value := value >>> 7
  let r := varlen_loop buf_pos value buffer
  (r.2.drop r.1).take (buffer_size - r.1)

/-- Function `log_write_varlen`; the parameter is a `uint32_t`. -/
def log_write_varlen (s : Session) (value : Nat) : Session :=
  s.fwrite (varlen_bytes (value % 2 ^ 32))

/-- Function `log_start`.  `opened` tells whether the stream could be opened.
The assignment to `m_log_file` first opens the new stream, which truncates the
file, and then destroys the stream held before.  `stale` is what this leaves in
the file: nothing when the stream held before was absent or closed; when it
was still open, its destructor flushes the bytes it had buffered into the file
just truncated.  The new stream writes over these bytes from offset 0. -/
def log_start (s : Session) (opened : Bool) (stale : List Nat := []) : Session :=
  let s := { s with m_log_file := some { is_open := opened, bytes := stale, pos := 0 } }
  if !s.sinkOpen then s
  else
    -- write main header
    let s := s.fwrite [0x4D, 0x54, 0x68, 0x64]
    let s := log_write_be32 s 6
    let s := log_write_be16 s 0
    let s := log_write_be16 s 1
    let s := log_write_be16 s (LOG_RESOLUTION / 2)
    -- write track header
    let s := s.fwrite [0x4D, 0x54, 0x72, 0x6B]
    let s := log_write_be32 s 0
    { s with m_mid_track_start_pos := s.tellp % 2 ^ 32 }

/-- Function `log_finish_comand`. -/
def log_finish_comand (s : Session) : Session :=
  if s.m_cmd_buf.isEmpty then s
  else
    let delta := (s.m_event_tick + 2 ^ 32 - s.m_file_tick) % 2 ^ 32
    let c : Commit := { delta := delta, tick := s.m_event_tick, msg := s.m_cmd_buf }
    let s := log_write_varlen s delta
    let s := { s with m_file_tick := s.m_event_tick }
    let s :=
      if s.m_cmd_buf.headD 0 = 0xF0 ∨ s.m_cmd_buf.headD 0 = 0xF7 then
        -- special handling for SysEx command to insert length value
        let s := s.fput (s.m_cmd_buf.headD 0)
        let s := log_write_varlen s (s.m_cmd_buf.length - 1)
        s.fwrite s.m_cmd_buf.tail
      else
        s.fwrite s.m_cmd_buf
    { s with m_cmd_buf := [], commits := s.commits ++ [c] }

/-- Body of function `log_proc_byte`, one pass through it.  Both calls of
`log_proc_byte(data)` inside the function are its last statement on their path,
so a pass ends either by returning or by such a call: the result is the state
at that point and the flag "ends by calling `log_proc_byte(data)` again".
`tick` is the value of `event_time.as_ticks(LOG_RESOLUTION)` during the call;
`data` is a `uint8_t`. -/
def log_proc_byte_body (s : Session) (tick data : Nat) : Session × Bool :=
  if !s.sinkOpen then (s, false)
  else if s.m_cmd_rem_bytes = 0 then
    let s : Session := log_finish_comand s
    -- waiting for new command
    if data &&& 0x80 = 0 ∧ s.m_last_status = 0 then
      (s, false)  -- unable to determine event type
    else
      let cur_status := if data &&& 0x80 = 0 then s.m_last_status else data
      let last_status := if data &&& 0x80 ≠ 0 ∧ data < 0xF0 then data else s.m_last_status
      let cmd_rem_bytes :=
        if cur_status < 0xF0 then MIDI_CMD_SIZE.getD ((cur_status >>> 4) &&& 0x07) 0
        else MIDI_CMD_XSIZE.getD (cur_status &&& 0x0F) 0
      let s : Session :=
        { s with m_cur_status := cur_status, m_last_status := last_status,
                 m_cmd_rem_bytes := cmd_rem_bytes, m_event_tick := tick % 2 ^ 32 }
      if cur_status = 0xFF then
        -- device reset
        let s : Session := { s with m_cmd_buf := s.m_cmd_buf ++ [0xFF, 0x06] }
        let s : Session := log_finish_comand s
        let s : Session := log_write_varlen s devResetStr.length
        (s.fwrite devResetStr, false)
      else if cur_status ≥ 0xF1 ∧ cur_status ≠ 0xF7 then
        (s, false)  -- invalid for MIDI files
      else if data &&& 0x80 ≠ 0 then
        -- command byte - put it into the main buffer
        ({ s with m_cmd_buf := s.m_cmd_buf ++ [data] }, false)
      else
        -- do more processing for a parameter byte
        (s, true)
  else
    let cmd_rem_bytes := s.m_cmd_rem_bytes - 1
    -- SysEx commands
    let sysex : Prop := s.m_cur_status = 0xF0 ∨ s.m_cur_status = 0xF7
    if ¬ sysex ∧ s.m_cur_status ≥ 0xF1 then
      ({ s with m_cmd_rem_bytes := cmd_rem_bytes }, false)  -- invalid for MIDI files
    else
      -- terminate SysEx command when "command bit" is set
      let write_data : Bool := ¬ (sysex ∧ data &&& 0x80 ≠ 0 ∧ data ≠ 0xF7)
      let cmd_rem_bytes := if sysex ∧ data &&& 0x80 ≠ 0 then 0 else cmd_rem_bytes
      let cmd_buf := if write_data then s.m_cmd_buf ++ [data] else s.m_cmd_buf
      -- stop command processing after 8 KB
      let cmd_rem_bytes :=
        if write_data ∧ cmd_buf.length ≥ 0x2000 then 0 else cmd_rem_bytes
      let s : Session := { s with m_cmd_rem_bytes := cmd_rem_bytes, m_cmd_buf := cmd_buf }
      let s : Session := if cmd_rem_bytes = 0 then log_finish_comand s else s
      if !write_data then
        -- process command byte again, this time as a "new event"
        ({ s with m_cmd_rem_bytes := 0 }, true)
      else (s, false)

/-- Function `log_proc_byte` with a bound on the number of passes through its
body: every pass takes one unit of fuel, `none` means the fuel ran out. -/
def log_proc_byte_fuel : Nat → Session → Nat → Nat → Option Session
  | 0, _, _, _ => none
  | fuel + 1, s, tick, data =>
    if (log_proc_byte_body s tick data).2 then
      log_proc_byte_fuel fuel (log_proc_byte_body s tick data).1 tick data
    else some (log_proc_byte_body s tick data).1

/-- Function `log_proc_byte`: two passes through the body at most, the call
and one re-dispatch (`log_proc_byte_fuel_two` shows that the second pass never
asks for a third). -/
def log_proc_byte (s : Session) (tick data : Nat) : Session :=
  (log_proc_byte_fuel 2 s tick data).getD s

/-- Function `log_end`. -/
def log_end (s : Session) : Session :=
  if !s.sinkOpen then s
  else
    let s := log_finish_comand s
    let s := { s with m_cmd_buf := s.m_cmd_buf ++ [0xFF, 0x2F, 0x00] }
    let s := log_finish_comand s
    let trkSize := (s.tellp % 2 ^ 32 + 2 ^ 32 - s.m_mid_track_start_pos) % 2 ^ 32
    let s := { s with m_log_file := s.m_log_file.map fun f =>
                 f.seekp ((s.m_mid_track_start_pos + 2 ^ 32 - 4) % 2 ^ 32) }
    let s := log_write_be32 s trkSize
    { s with m_log_file := s.m_log_file.map LogFile.close }

/-- The device before any log was started: null `m_log_file`, zeroed fields. -/
def fresh : Session :=
  { m_log_file := none, m_event_tick := 0, m_file_tick := 0, m_last_status := 0,
    m_cur_status := 0, m_cmd_buf := [], m_cmd_rem_bytes := 0,
    m_mid_track_start_pos := 0, commits := [] }

/-- Feeding a stream of received bytes, each with the tick sampled at its
arrival, to `log_proc_byte`. -/
def feed (s : Session) (input : List (Nat × Nat)) : Session :=
  input.foldl (fun s tb => log_proc_byte s tb.1 tb.2) s

/-- Contents of the log file, empty when there is none. -/
def Session.fileBytes (s : Session) : List Nat :=
  match s.m_log_file with
  | some f => f.bytes
  | none => []

/-! ## Definitions used to state the properties -/

/-- An open stream holding `bytes` with the put position at the end of the
file: the state of the log stream all the time between `log_start` and the
seek of `log_end`. -/
def LogFile.atEnd (bytes : List Nat) : LogFile :=
  { is_open := true, bytes := bytes, pos := bytes.length }

/-- Reading a variable-length quantity back: base-128 groups, the most
significant group first, bit 7 of each byte ignored. -/
def varlen_decode (bs : List Nat) : Nat :=
  bs.foldl (fun acc b => acc * 128 + (b &&& 0x7F)) 0

/-- The continuation bytes `log_write_varlen` stores for the groups above the
lowest one, when `p` slots of the scratch buffer are left. -/
def varlen_high : Nat → Nat → List Nat
  | 0, _ => []
  | p + 1, v => if v > 0 then varlen_high p (v >>> 7) ++ [0x80 ||| (v &&& 0x7F)] else []

/-- The bytes one commit appends for a delta-time `delta` and a non-empty
command buffer `buf`: the delta-time, then the buffer, with the length of the
rest inserted after a leading F0 or F7. -/
def event_bytes (delta : Nat) (buf : List Nat) : List Nat :=
  varlen_bytes delta ++
    (if buf.headD 0 = 0xF0 ∨ buf.headD 0 = 0xF7 then
       buf.headD 0 :: (varlen_bytes ((buf.length - 1) % 2 ^ 32) ++ buf.tail)
     else buf)

/-- The state after the assignments of `m_cur_status`, `m_last_status`,
`m_cmd_rem_bytes` and `m_event_tick` at the head of the `m_cmd_rem_bytes == 0`
branch of `log_proc_byte`. -/
def new_command (s : Session) (tick data : Nat) : Session :=
  { s with
    m_cur_status := if data &&& 0x80 = 0 then s.m_last_status else data
    m_last_status := if data &&& 0x80 ≠ 0 ∧ data < 0xF0 then data else s.m_last_status
    m_cmd_rem_bytes :=
      if (if data &&& 0x80 = 0 then s.m_last_status else data) < 0xF0 then
        MIDI_CMD_SIZE.getD (((if data &&& 0x80 = 0 then s.m_last_status else data) >>> 4) &&& 0x07) 0
      else
        MIDI_CMD_XSIZE.getD ((if data &&& 0x80 = 0 then s.m_last_status else data) &&& 0x0F) 0
    m_event_tick := tick % 2 ^ 32 }

/-- The "device reset" path of `log_proc_byte`: FF 06 committed, then the
length and the text written. -/
def device_reset_event (s : Session) : Session :=
  (log_write_varlen (log_finish_comand { s with m_cmd_buf := s.m_cmd_buf ++ [0xFF, 0x06] })
    devResetStr.length).fwrite devResetStr

/-- The path of `log_proc_byte` that appends `data` to the command buffer and
commits when no byte is left to wait for or the buffer has reached 8 KB. -/
def push_byte (s : Session) (data : Nat) : Session :=
  if s.m_cmd_buf.length + 1 ≥ 0x2000 ∨ s.m_cmd_rem_bytes - 1 = 0 then
    log_finish_comand { s with m_cmd_rem_bytes := 0, m_cmd_buf := s.m_cmd_buf ++ [data] }
  else
    { s with m_cmd_rem_bytes := s.m_cmd_rem_bytes - 1, m_cmd_buf := s.m_cmd_buf ++ [data] }

/-- The `m_cmd_rem_bytes == 0` branch of `log_proc_byte` for a byte with bit 7
set, after its first `log_finish_comand`: device reset, discarded system
message, or a new command buffer holding the status byte. -/
def status_byte (s : Session) (tick data : Nat) : Session :=
  if data = 0xFF then device_reset_event (new_command s tick data)
  else if data ≥ 0xF1 ∧ data ≠ 0xF7 then new_command s tick data
  else { new_command s tick data with m_cmd_buf := s.m_cmd_buf ++ [data] }

/-- The whole of `log_proc_byte` on an open sink as one decision tree over the
paths `push_byte`, `status_byte`, `device_reset_event` and `new_command`
(`log_proc_byte_eq` proves it equal to `log_proc_byte`). -/
def log_proc_byte_tree (s : Session) (tick data : Nat) : Session :=
  if s.m_cmd_rem_bytes ≠ 0 then
    if s.m_cur_status = 0xF0 ∨ s.m_cur_status = 0xF7 then
      if data &&& 0x80 = 0 then push_byte s data
      else if data = 0xF7 then
        log_finish_comand { s with m_cmd_rem_bytes := 0, m_cmd_buf := s.m_cmd_buf ++ [data] }
      else status_byte (log_finish_comand { s with m_cmd_rem_bytes := 0 }) tick data
    else if s.m_cur_status ≥ 0xF1 then { s with m_cmd_rem_bytes := s.m_cmd_rem_bytes - 1 }
    else push_byte s data
  else if data &&& 0x80 = 0 then
    if s.m_last_status = 0 then log_finish_comand s
    else if s.m_last_status = 0xFF then
      device_reset_event (new_command (log_finish_comand s) tick data)
    else if s.m_last_status ≥ 0xF1 ∧ s.m_last_status ≠ 0xF7 then
      new_command (log_finish_comand s) tick data
    else push_byte (new_command (log_finish_comand s) tick data) data
  else status_byte (log_finish_comand s) tick data

/-- The states the device can be in: the fresh device, and every state reached
from it by calls of `log_start` (whether or not a log is open, and whatever
the stream destroyed by the assignment leaves in the file), `log_proc_byte`
(with any tick and any byte) and `log_end`. -/
inductive Reachable : Session → Prop
  | fresh : Reachable fresh
  | start (s : Session) (opened : Bool) (stale : List Nat) :
      Reachable s → Reachable (log_start s opened stale)
  | byte (s : Session) (tick data : Nat) :
      data < 256 → Reachable s → Reachable (log_proc_byte s tick data)
  | finish (s : Session) : Reachable s → Reachable (log_end s)

/-- The states the device is in when the stream destroyed by the assignment in
`log_start` never leaves more than the 22 bytes of a header in the file: it is
absent or closed, as when `call_load` and `call_unload` call `log_start` and
`log_end` in turn, or it has written its header and no event. -/
inductive Orderly : Session → Prop
  | fresh : Orderly fresh
  | start (s : Session) (opened : Bool) (stale : List Nat) :
      stale.length ≤ 22 → Orderly s → Orderly (log_start s opened stale)
  | byte (s : Session) (tick data : Nat) :
      data < 256 → Orderly s → Orderly (log_proc_byte s tick data)
  | finish (s : Session) : Orderly s → Orderly (log_end s)

/-- The command buffer is below 8 KB and no committed message was longer than
8 KB: what holds between any two calls. -/
def BufBounded (s : Session) : Prop :=
  s.m_cmd_buf.length < 0x2000 ∧ ∀ c ∈ s.commits, c.msg.length ≤ 0x2000

/-- The 22 bytes `log_start` writes: "MThd", length 6, format 0, one track,
division `LOG_RESOLUTION / 2`, "MTrk", length 0. -/
def smf_header : List Nat :=
  [0x4D, 0x54, 0x68, 0x64, 0x00, 0x00, 0x00, 0x06, 0x00, 0x00, 0x00, 0x01, 0x3D, 0x09,
   0x4D, 0x54, 0x72, 0x6B, 0x00, 0x00, 0x00, 0x00]

/-- Function `log_end` up to, and without, its `seekp`: the pending buffer and
the End-of-Track event committed, the length field not yet patched. -/
def log_end_unpatched (s : Session) : Session :=
  let s := log_finish_comand s
  log_finish_comand { s with m_cmd_buf := s.m_cmd_buf ++ [0xFF, 0x2F, 0x00] }

/-- Reading a big-endian number from bytes. -/
def be_decode (bs : List Nat) : Nat :=
  bs.foldl (fun acc b => acc * 256 + b) 0

/-- From `s` to `t` the log stream, when written at its end, only got bytes
appended, and the recorded start of the track data did not change. -/
def Appends (s t : Session) : Prop :=
  t.m_mid_track_start_pos = s.m_mid_track_start_pos ∧
  ∀ bytes, s.m_log_file = some (LogFile.atEnd bytes) →
    ∃ out, t.m_log_file = some (LogFile.atEnd (bytes ++ out))

/-- The time stamp of the last commit of a history, `prev` when it is empty. -/
def last_stamp : Nat → List Commit → Nat
  | prev, [] => prev
  | _, c :: cs => last_stamp c.tick cs

/-- Every commit of the history was made with `m_file_tick ≤ m_event_tick`, so
that the subtraction did not wrap, and its delta-time is its time stamp minus
the time stamp of the commit before it, `prev` for the first. -/
def deltas_ok : Nat → List Commit → Prop
  | _, [] => True
  | prev, c :: cs => prev ≤ c.tick ∧ c.delta = c.tick - prev ∧ deltas_ok c.tick cs

/-- What holds between two calls of `log_proc_byte` when the ticks sampled so
far are non-decreasing and at most `T`, with `T` below 2^32: the sink is open,
`m_file_tick ≤ m_event_tick ≤ T`, the history has exact deltas and
`m_file_tick` is the stamp of its last commit, and the decoder is at a message
boundary with an empty buffer, or inside a message with a non-empty buffer, or
skipping the data bytes of a discarded system message. -/
structure TickInv (s : Session) (T : Nat) : Prop where
  sink : s.sinkOpen = true
  bound : T < 2 ^ 32
  file_le : s.m_file_tick ≤ s.m_event_tick
  event_le : s.m_event_tick ≤ T
  chain : deltas_ok 0 s.commits
  file_eq : s.m_file_tick = last_stamp 0 s.commits
  shape :
    (s.m_cmd_rem_bytes = 0 ∧ s.m_cmd_buf = []) ∨
    (s.m_cmd_rem_bytes ≠ 0 ∧ s.m_cmd_buf ≠ [] ∧ (s.m_cur_status < 0xF1 ∨ s.m_cur_status = 0xF7)) ∨
    (s.m_cmd_rem_bytes ≠ 0 ∧ s.m_cmd_buf = [] ∧ 0xF1 ≤ s.m_cur_status ∧ s.m_cur_status ≠ 0xF7)

/-- How one call of `log_proc_byte`, for a byte that arrived at tick `t`, taking
`s` to `s'` and making the commits `new`, treats time stamps.
* `inflight`: a message in flight keeps the stamp it has: if this call commits
  it, that commit is the first of `new`, it carries `s.m_event_tick` and the
  buffered bytes; if not, `m_event_tick` is unchanged and the buffer only grew.
* `fresh_msg`, `later`: every other commit of this call is of a message whose
  first byte is this byte, and carries `t`.
* `started`: a message that is in flight afterwards and started with this
  byte is stamped `t`. -/
structure StampStep (s : Session) (t : Nat) (s' : Session) (new : List Commit) : Prop where
  commits_eq : s'.commits = s.commits ++ new
  inflight : s.m_cmd_buf ≠ [] →
    (∀ c, new.head? = some c → c.tick = s.m_event_tick ∧ s.m_cmd_buf <+: c.msg) ∧
    (new = [] → s'.m_event_tick = s.m_event_tick ∧ s.m_cmd_buf <+: s'.m_cmd_buf)
  later : s.m_cmd_buf ≠ [] → ∀ c ∈ new.tail, c.tick = t
  fresh_msg : s.m_cmd_buf = [] → ∀ c ∈ new, c.tick = t
  started : s'.m_cmd_buf ≠ [] → (s.m_cmd_buf = [] ∨ new ≠ []) → s'.m_event_tick = t

/-! ## Reading a Standard MIDI File -/

/-- Reading a variable-length quantity off the front of `bytes`: groups of 7
bits, most significant first, up to and with the first byte whose bit 7 is
clear; the value and the bytes after it.  `n` bounds the number of bytes. -/
def read_varlen_aux : Nat → Nat → List Nat → Option (Nat × List Nat)
  | 0, _, _ => none
  | _ + 1, _, [] => none
  | n + 1, acc, b :: bs =>
    if b < 0x80 then some (acc * 128 + b, bs) else read_varlen_aux n (acc * 128 + b % 128) bs

/-- Reading a variable-length quantity of a Standard MIDI File: at most four
bytes, so a value below 2^28. -/
def read_varlen (bytes : List Nat) : Option (Nat × List Nat) :=
  read_varlen_aux 4 0 bytes

/-- Number of data bytes of a channel-voice status byte in the MIDI protocol:
one for program change (Cn) and channel pressure (Dn), two for the others. -/
def voice_size (status : Nat) : Nat :=
  if status / 16 = 0xC ∨ status / 16 = 0xD then 1 else 2

/-- One event of a track off the front of `bytes`, `running` being the running
status in effect (0 for none).  A meta event is FF, a type, a variable-length
length and that many bytes; a SysEx event is F0 or F7, a variable-length
length and that many bytes; both cancel the running status.  A channel-voice
event is a status byte 80..EF, or none when a running status is in effect, and
exactly `voice_size` data bytes below 80.  The result is the running status
after the event, whether the event is End of Track (FF 2F 00), and the bytes
after the event. -/
def parse_event (running : Nat) (bytes : List Nat) : Option (Nat × Bool × List Nat) :=
  match bytes with
  | [] => none
  | b :: bs =>
    if b = 0xFF then
      match bs with
      | [] => none
      | ty :: bs2 =>
        match read_varlen bs2 with
        | none => none
        | some (len, bs3) =>
          if len ≤ bs3.length then some (0, decide (ty = 0x2F ∧ len = 0), bs3.drop len)
          else none
    else if b = 0xF0 ∨ b = 0xF7 then
      match read_varlen bs with
      | none => none
      | some (len, bs3) => if len ≤ bs3.length then some (0, false, bs3.drop len) else none
    else if 0x80 ≤ b ∧ b < 0xF0 then
      if voice_size b ≤ bs.length ∧ (bs.take (voice_size b)).all (· < 0x80) then
        some (b, false, bs.drop (voice_size b))
      else none
    else if b < 0x80 ∧ running ≠ 0 then
      if voice_size running ≤ (b :: bs).length ∧
          ((b :: bs).take (voice_size running)).all (· < 0x80) then
        some (running, false, (b :: bs).drop (voice_size running))
      else none
    else none

/-- Track data parses completely as (delta-time, event) pairs and the last
event is End of Track.  `eot` tells whether the event before was End of Track;
every pair takes one unit of fuel. -/
def parse_track : Nat → Nat → Bool → List Nat → Bool
  | _, _, eot, [] => eot
  | 0, _, _, _ :: _ => false
  | fuel + 1, running, _, b :: bs =>
    match read_varlen (b :: bs) with
    | none => false
    | some (_, rest) =>
      match parse_event running rest with
      | none => false
      | some (r, e, rest2) => parse_track fuel r e rest2

/-- A well-formed Format-0 Standard MIDI File: the MThd chunk of length 6 with
format 0, one track and a metrical division (bit 15 clear, not zero), the MTrk
tag, a length field that is the length of the track data, and track data that
parses completely, with delta-times and lengths of at most four bytes, and
ends with End of Track.  (A pair has at least two bytes, so the file length is
fuel enough.) -/
def smf_ok (file : List Nat) : Bool :=
  file.take 12 == [0x4D, 0x54, 0x68, 0x64, 0x00, 0x00, 0x00, 0x06, 0x00, 0x00, 0x00, 0x01] &&
  decide (file.getD 12 0 < 0x80 ∧ file.getD 12 0 * 256 + file.getD 13 0 ≠ 0) &&
  (file.drop 14).take 4 == [0x4D, 0x54, 0x72, 0x6B] &&
  decide (22 ≤ file.length) &&
  decide (be_decode ((file.drop 18).take 4) = file.length - 22) &&
  parse_track file.length 0 false (file.drop 22)

/-! ## Well-formed input -/

/-- A message as it arrives on the wire, every byte with the tick sampled at
its arrival: a channel-voice message with its status byte, a channel-voice
message under running status (data bytes only), a complete SysEx (F0, payload,
F7), or the single byte FF. -/
inductive Msg where
  | voice (tick : Nat) (status : Nat) (data : List (Nat × Nat))
  | running (data : List (Nat × Nat))
  | sysex (tick : Nat) (payload : List (Nat × Nat)) (tick_end : Nat)
  | reset (tick : Nat)

/-- The received bytes of a message. -/
def Msg.bytes : Msg → List (Nat × Nat)
  | .voice t st d => (t, st) :: d
  | .running d => d
  | .sysex t p te => (t, 0xF0) :: p ++ [(te, 0xF7)]
  | .reset t => [(t, 0xFF)]

/-- The received bytes of a sequence of messages. -/
def Msg.stream : List Msg → List (Nat × Nat)
  | [] => []
  | m :: ms => m.bytes ++ Msg.stream ms

/-- Track data `out` that `parse_track` reads through: with running status `r`
before it, it is a sequence of whole (delta-time, event) pairs after which the
running status is `r'`, whatever follows it. -/
def ReadsThrough (r r' : Nat) (out : List Nat) : Prop :=
  ∀ fuel e rest, (out ++ rest).length ≤ fuel →
    ∃ fuel' e', rest.length ≤ fuel' ∧
      parse_track fuel r e (out ++ rest) = parse_track fuel' r' e' rest

/-! ## The track as the sequence of commits -/

/-- The bytes a commit puts into the track: its delta-time and its event
(`event_bytes`), and after the FF 06 of a device reset the length and the text
that `log_proc_byte` writes behind it. -/
def Commit.written (c : Commit) : List Nat :=
  event_bytes c.delta c.msg ++
    (if c.msg = [0xFF, 0x06] then varlen_bytes devResetStr.length ++ devResetStr else [])

/-- The track data of a sequence of commits. -/
def track_data : List Commit → List Nat
  | [] => []
  | c :: cs => c.written ++ track_data cs

/-- Whether a commit is a complete event of a track, `r` being the running
status in effect before it in the track (0 for none), and the running status
after it: the delta-time fits four bytes; a channel-voice message has its
status byte 80..EF, or none when a running status is in effect, and exactly
`voice_size` data bytes, all below 80; a SysEx begins with F0 or F7 and, like
the meta events FF 06 and FF 2F 00, cancels the running status. -/
def event_ok (r : Nat) (c : Commit) : Option Nat :=
  if 2 ^ 28 ≤ c.delta then none
  else
    match c.msg with
    | [] => none
    | b :: d =>
      if b = 0xFF then (if d = [0x06] ∨ d = [0x2F, 0x00] then some 0 else none)
      else if b = 0xF0 ∨ b = 0xF7 then some 0
      else if 0x80 ≤ b ∧ b < 0xF0 then
        (if d.length = voice_size b ∧ d.all (· < 0x80) then some b else none)
      else if b < 0x80 ∧ r ≠ 0 then
        (if (b :: d).length = voice_size r ∧ (b :: d).all (· < 0x80) then some r else none)
      else none

/-- Every commit of the sequence is a complete event of a track. -/
def events_ok : Nat → List Commit → Bool
  | _, [] => true
  | r, c :: cs =>
    match event_ok r c with
    | none => false
    | some r' => events_ok r' cs

/-- From `s` to `t` the log stream, when written at its end, got exactly the
track data of the commits made, and the recorded start of the track data did
not change. -/
def Writes (s t : Session) : Prop :=
  t.m_mid_track_start_pos = s.m_mid_track_start_pos ∧
  ∀ bytes, s.m_log_file = some (LogFile.atEnd bytes) →
    ∃ new, t.commits = s.commits ++ new ∧
      t.m_log_file = some (LogFile.atEnd (bytes ++ track_data new))

/-! ## The decoder between two calls -/

/-- What holds of the decoder fields between any two calls: the running status
is none (0) or a channel-voice status 80..EF, and a non-empty command buffer is
being collected: bytes are still waited for and the current status is one that
is written (below F1, or F7). -/
def DecoderInv (s : Session) : Prop :=
  (s.m_last_status = 0 ∨ (0x80 ≤ s.m_last_status ∧ s.m_last_status < 0xF0)) ∧
  (s.m_cmd_buf ≠ [] →
    s.m_cmd_rem_bytes ≠ 0 ∧ (s.m_cur_status < 0xF1 ∨ s.m_cur_status = 0xF7))

/-- Bytes are waited for with an empty command buffer only while the data bytes
of a discarded system message F1, F2, F3 or F9 are skipped, one or two of
them. -/
def SkipInv (s : Session) : Prop :=
  s.m_cmd_buf = [] → s.m_cmd_rem_bytes ≠ 0 →
    (s.m_cur_status = 0xF1 ∨ s.m_cur_status = 0xF2 ∨ s.m_cur_status = 0xF3 ∨
      s.m_cur_status = 0xF9) ∧ s.m_cmd_rem_bytes ≤ 2

/-- The command buffer does not begin with FF: the only commit of FF 06 is the
one of a device reset. -/
def HeadInv (s : Session) : Prop :=
  s.m_cmd_buf.head? ≠ some 0xFF

/-! ## Messages passing through -/

/-- The tick of a message: the tick sampled at the arrival of its first byte,
as the `uint32_t` stored in `m_event_tick`. -/
def Msg.tick : Msg → Nat
  | .voice t _ _ => t % 2 ^ 32
  | .running d => (d.headD (0, 0)).1 % 2 ^ 32
  | .sysex t _ _ => t % 2 ^ 32
  | .reset t => t % 2 ^ 32

/-- The bytes of a message as received, without the ticks. -/
def Msg.wire (m : Msg) : List Nat :=
  m.bytes.map Prod.snd

/-- The bytes of a message as an event of the track: its own bytes, with the
variable-length quantity "length - 1" inserted after the F0 of a SysEx (and,
for the byte FF, the meta event that `log_proc_byte` writes for it). -/
def Msg.written : Msg → List Nat
  | .sysex t p te =>
      0xF0 :: (varlen_bytes ((Msg.sysex t p te).wire.length - 1) ++ (Msg.sysex t p te).wire.tail)
  | .reset _ => 0xFF :: 0x06 :: (varlen_bytes devResetStr.length ++ devResetStr)
  | m => m.wire

/-- The track data expected for a sequence of messages, `prev` being the tick
of the event before: for each message its delta-time, the `uint32_t`
difference of its tick and the tick of the message before, and its bytes. -/
def track_of : Nat → List Msg → List Nat
  | _, [] => []
  | prev, m :: ms =>
      varlen_bytes ((m.tick + 2 ^ 32 - prev) % 2 ^ 32) ++ m.written ++ track_of m.tick ms

/-- A sequence of well-formed messages, `r` being the last explicit
channel-voice status before it (0 for none): an explicit channel-voice message
has a status 80..EF and exactly `MIDI_CMD_SIZE[(status >> 4) & 7]` data bytes,
all below 80; a running-status message has the data bytes of the last explicit
channel-voice status, which a SysEx leaves in effect; a SysEx is F0, data bytes
below 80 and F7, at most 8192 bytes in all. -/
def passes_through : Nat → List Msg → Prop
  | _, [] => True
  | _, .voice _ st d :: ms =>
      0x80 ≤ st ∧ st < 0xF0 ∧ d.length = MIDI_CMD_SIZE.getD ((st >>> 4) &&& 0x07) 0 ∧
        (∀ x ∈ d, x.2 < 0x80) ∧ passes_through st ms
  | r, .running d :: ms =>
      r ≠ 0 ∧ d.length = MIDI_CMD_SIZE.getD ((r >>> 4) &&& 0x07) 0 ∧
        (∀ x ∈ d, x.2 < 0x80) ∧ passes_through r ms
  | r, .sysex t p te :: ms =>
      (Msg.sysex t p te).bytes.length ≤ 8192 ∧ (∀ x ∈ p, x.2 < 0x80) ∧ passes_through r ms
  | _, .reset _ :: _ => False

/-! # Theorems -/

/-! ## Writing at the end of the file -/

theorem LogFile.put_atEnd (bytes : List Nat) (b : Nat) :
    (LogFile.atEnd bytes).put b = LogFile.atEnd (bytes ++ [b]) := by
  simp [LogFile.put, LogFile.atEnd]

theorem LogFile.write_atEnd (bs bytes : List Nat) :
    (LogFile.atEnd bytes).write bs = LogFile.atEnd (bytes ++ bs) := by
  induction bs generalizing bytes with
  | nil => simp [LogFile.write]
  | cons b bs ih =>
    have h := ih (bytes ++ [b])
    simp only [LogFile.write, List.foldl_cons] at h ⊢
    rw [LogFile.put_atEnd, h]
    simp

/-! ## The variable-length quantity -/

theorem or_0x80_land_0x7F (v : Nat) : 0x80 ||| (v &&& 0x7F) = 128 + v % 128 := by
  have h : ∀ x : Fin 128, 0x80 ||| x.val = 128 + x.val := by decide
  have hm : v &&& 0x7F = v % 128 := Nat.and_pow_two_sub_one_eq_mod v 7
  rw [hm]
  exact h ⟨v % 128, Nat.mod_lt _ (by norm_num)⟩

theorem land_0x7F (v : Nat) : v &&& 0x7F = v % 128 :=
  Nat.and_pow_two_sub_one_eq_mod v 7

theorem drop_set_self (l : List Nat) (p a : Nat) (h : p < l.length) :
    (l.set p a).drop p = a :: l.drop (p + 1) := by
  have h2 : p < (l.set p a).length := by simpa using h
  rw [List.drop_eq_getElem_cons h2, List.getElem_set_self, List.drop_set]
  simp

theorem varlen_loop_drop (p v : Nat) (buffer : List Nat) (hp : p ≤ buffer.length) :
    (varlen_loop p v buffer).1 + (varlen_high p v).length = p ∧
    (varlen_loop p v buffer).2.length = buffer.length ∧
    (varlen_loop p v buffer).2.drop (varlen_loop p v buffer).1
      = varlen_high p v ++ buffer.drop p := by
  induction p generalizing v buffer with
  | zero => simp [varlen_loop, varlen_high]
  | succ p ih =>
    unfold varlen_loop varlen_high
    by_cases hv : v > 0
    · simp only [hv, if_true]
      have hlen : (buffer.set p (0x80 ||| (v &&& 0x7F))).length = buffer.length := by simp
      obtain ⟨h1, h2, h3⟩ := ih (v >>> 7) (buffer.set p (0x80 ||| (v &&& 0x7F)))
        (by rw [hlen]; omega)
      refine ⟨by simp; omega, by rw [h2, hlen], ?_⟩
      rw [h3, drop_set_self _ _ _ (by omega)]
      simp
    · simp [hv]

theorem shiftRight7 (w : Nat) : w >>> 7 = w / 128 := by
  rw [Nat.shiftRight_eq_div_pow]

theorem div128_lt (w p : Nat) (h : w < 128 ^ (p + 1)) : w / 128 < 128 ^ p := by
  have : 128 ^ (p + 1) = 128 ^ p * 128 := by rw [pow_succ]
  exact Nat.div_lt_of_lt_mul (by omega)

theorem varlen_bytes_eq (v : Nat) :
    varlen_bytes v = varlen_high 7 (v >>> 7) ++ [v &&& 0x7F] := by
  have h := varlen_loop_drop 7 (v >>> 7)
    ((List.replicate 8 0).set 7 (0x00 ||| (v &&& 0x7F))) (by simp)
  obtain ⟨h1, h2, h3⟩ := h
  simp only [varlen_bytes]
  rw [h3]
  have hl : (varlen_high 7 (v >>> 7)).length + 1
      = 8 - (varlen_loop (8 - 1) (v >>> 7)
          ((List.replicate 8 0).set (8 - 1) (0x00 ||| (v &&& 0x7F)))).1 := by
    simp only [Nat.reduceSub]; omega
  rw [← hl]
  simp [List.take_of_length_le]

theorem varlen_high_length (p q w : Nat) (h : w < 128 ^ q) :
    (varlen_high p w).length ≤ q := by
  induction p generalizing q w with
  | zero => simp [varlen_high]
  | succ p ih =>
    unfold varlen_high
    by_cases hw : w > 0
    · simp only [hw, if_true, List.length_append, List.length_singleton, shiftRight7]
      cases q with
      | zero => simp at h; omega
      | succ q =>
        have := ih q (w / 128) (div128_lt w q h)
        omega
    · simp [hw]

theorem varlen_high_bytes (p w : Nat) :
    ∀ b ∈ varlen_high p w, b &&& 0x80 = 0x80 ∧ b < 256 := by
  induction p generalizing w with
  | zero => simp [varlen_high]
  | succ p ih =>
    unfold varlen_high
    by_cases hw : w > 0
    · simp only [hw, if_true, List.mem_append, List.mem_singleton]
      rintro b (hb | hb)
      · exact ih _ b hb
      · have h : ∀ x : Fin 128, (128 + x.val) &&& 0x80 = 0x80 := by decide
        rw [hb, or_0x80_land_0x7F]
        exact ⟨h ⟨w % 128, Nat.mod_lt _ (by norm_num)⟩, by omega⟩
    · simp [hw]

theorem varlen_high_digits (p w : Nat) (h : w < 128 ^ p) :
    (varlen_high p w).map (· % 128) = (Nat.digits 128 w).reverse := by
  induction p generalizing w with
  | zero =>
    have : w = 0 := by simpa using h
    simp [varlen_high, this]
  | succ p ih =>
    unfold varlen_high
    by_cases hw : w > 0
    · have hd : Nat.digits 128 w = w % 128 :: Nat.digits 128 (w / 128) :=
        Nat.digits_def' (by norm_num) hw
      simp only [hw, if_true, List.map_append, shiftRight7, ih _ (div128_lt w p h), hd,
        List.reverse_cons, or_0x80_land_0x7F, List.map_cons, List.map_nil]
      congr 2
      omega
    · have : w = 0 := by omega
      simp [this]

theorem varlen_decode_append (hs : List Nat) (l : Nat) :
    varlen_decode (hs ++ [l]) = varlen_decode hs * 128 + l % 128 := by
  simp [varlen_decode, land_0x7F]

theorem varlen_decode_high (p w : Nat) (h : w < 128 ^ p) :
    varlen_decode (varlen_high p w) = w := by
  induction p generalizing w with
  | zero =>
    have : w = 0 := by simpa using h
    simp [varlen_high, this, varlen_decode]
  | succ p ih =>
    unfold varlen_high
    by_cases hw : w > 0
    · simp only [hw, if_true, varlen_decode_append, shiftRight7, ih _ (div128_lt w p h),
        or_0x80_land_0x7F]
      omega
    · have : w = 0 := by omega
      simp [this, varlen_decode]

theorem fwrite_atEnd (s : Session) (bytes bs : List Nat)
    (hf : s.m_log_file = some (LogFile.atEnd bytes)) :
    s.fwrite bs = { s with m_log_file := some (LogFile.atEnd (bytes ++ bs)) } := by
  simp [Session.fwrite, hf, LogFile.write_atEnd]

theorem fput_atEnd (s : Session) (bytes : List Nat) (b : Nat)
    (hf : s.m_log_file = some (LogFile.atEnd bytes)) :
    s.fput b = { s with m_log_file := some (LogFile.atEnd (bytes ++ [b])) } := by
  simp [Session.fput, hf, LogFile.put_atEnd]

theorem log_write_varlen_atEnd (s : Session) (bytes : List Nat) (v : Nat)
    (hf : s.m_log_file = some (LogFile.atEnd bytes)) :
    log_write_varlen s v
      = { s with m_log_file := some (LogFile.atEnd (bytes ++ varlen_bytes (v % 2 ^ 32))) } := by
  simp [log_write_varlen, fwrite_atEnd s bytes _ hf]

/-- C4: for a 32-bit value `v`, `log_write_varlen` appends the standard MIDI
variable-length quantity of `v`: the base-128 digits of `v`, most significant
first and without a leading zero digit (the byte 00 for `v = 0`), bit 7 set in
every byte but the last and clear in the last; the bytes decode to `v`, there
are between one and five of them, and the loop leaves `buf_pos > 0`, so it
stops because the value is used up. -/
theorem log_write_varlen_standard (s : Session) (bytes : List Nat) (v : Nat)
    (hf : s.m_log_file = some (LogFile.atEnd bytes)) (hv : v < 2 ^ 32) :
    log_write_varlen s v
      = { s with m_log_file := some (LogFile.atEnd (bytes ++ varlen_bytes v)) } ∧
    (varlen_bytes v).map (· % 128)
      = (if v = 0 then [0] else (Nat.digits 128 v).reverse) ∧
    (∀ b ∈ (varlen_bytes v).dropLast, b &&& 0x80 = 0x80 ∧ b < 256) ∧
    (∃ l, (varlen_bytes v).getLast? = some l ∧ l &&& 0x80 = 0) ∧
    varlen_decode (varlen_bytes v) = v ∧
    1 ≤ (varlen_bytes v).length ∧ (varlen_bytes v).length ≤ 5 ∧
    0 < (varlen_loop 7 (v >>> 7) ((List.replicate 8 0).set 7 (0x00 ||| (v &&& 0x7F)))).1 := by
  have hw : v / 128 < 128 ^ 4 := by omega
  have hw7 : v / 128 < 128 ^ 7 := by omega
  have hlen := varlen_high_length 7 4 (v / 128) hw
  have hloop := (varlen_loop_drop 7 (v >>> 7)
    ((List.replicate 8 0).set 7 (0x00 ||| (v &&& 0x7F))) (by simp)).1
  rw [shiftRight7] at hloop
  refine ⟨?_, ?_, ?_, ?_, ?_, ?_, ?_, ?_⟩
  · rw [log_write_varlen_atEnd s bytes v hf, Nat.mod_eq_of_lt hv]
  · rw [varlen_bytes_eq, shiftRight7, List.map_append, varlen_high_digits 7 _ hw7, land_0x7F]
    by_cases h0 : v = 0
    · simp [h0]
    · have hd : Nat.digits 128 v = v % 128 :: Nat.digits 128 (v / 128) :=
        Nat.digits_def' (by norm_num) (by omega)
      rw [if_neg h0, hd]
      simp
  · rw [varlen_bytes_eq, List.dropLast_concat]
    exact varlen_high_bytes 7 _
  · refine ⟨v &&& 0x7F, by rw [varlen_bytes_eq]; simp, ?_⟩
    have h : ∀ x : Fin 128, x.val &&& 0x80 = 0 := by decide
    rw [land_0x7F]
    exact h ⟨v % 128, Nat.mod_lt _ (by norm_num)⟩
  · rw [varlen_bytes_eq, varlen_decode_append, shiftRight7, varlen_decode_high 7 _ hw7,
      land_0x7F]
    omega
  · rw [varlen_bytes_eq]; simp
  · rw [varlen_bytes_eq, shiftRight7]; simp; omega
  · rw [shiftRight7]; omega

/-- Witness for C4: the value 8191 is written as BF 7F. -/
theorem log_write_varlen_standard_witness :
    log_write_varlen { fresh with m_log_file := some (LogFile.atEnd [1, 2]) } 8191
      = { fresh with m_log_file := some (LogFile.atEnd ([1, 2] ++ varlen_bytes 8191)) } ∧
    varlen_bytes 8191 = [0xBF, 0x7F] :=
  ⟨(log_write_varlen_standard { fresh with m_log_file := some (LogFile.atEnd [1, 2]) }
      [1, 2] 8191 rfl (by norm_num)).1, by decide⟩

/-! ## One pass through `log_proc_byte`, case by case -/

theorem land_0x80_eq_zero (d : Nat) (h : d < 256) : d &&& 0x80 = 0 ↔ d < 128 := by
  have key : ∀ x : Fin 256, x.val &&& 0x80 = 0 ↔ x.val < 128 := by decide
  exact key ⟨d, h⟩

theorem sinkOpen_atEnd (s : Session) (bytes : List Nat)
    (hf : s.m_log_file = some (LogFile.atEnd bytes)) : s.sinkOpen = true := by
  simp [Session.sinkOpen, hf, LogFile.atEnd]

theorem log_finish_comand_nil (s : Session) (hb : s.m_cmd_buf = []) :
    log_finish_comand s = s := by
  simp [log_finish_comand, hb]

theorem log_finish_comand_cons (s : Session) (bytes : List Nat) (b : Nat) (rest : List Nat)
    (hf : s.m_log_file = some (LogFile.atEnd bytes)) (hb : s.m_cmd_buf = b :: rest) :
    log_finish_comand s =
      { s with
        m_log_file := some (LogFile.atEnd (bytes ++
          event_bytes ((s.m_event_tick + 2 ^ 32 - s.m_file_tick) % 2 ^ 32) (b :: rest)))
        m_file_tick := s.m_event_tick
        m_cmd_buf := []
        commits := s.commits ++
          [{ delta := (s.m_event_tick + 2 ^ 32 - s.m_file_tick) % 2 ^ 32,
             tick := s.m_event_tick, msg := b :: rest }] } := by
  obtain ⟨lf, et, ft, last, cur, buf, rem, start, cs⟩ := s
  simp only at hf hb
  subst hf hb
  by_cases h : b = 0xF0 ∨ b = 0xF7
  · simp [log_finish_comand, log_write_varlen, Session.fwrite, Session.fput, LogFile.write_atEnd,
      LogFile.put_atEnd, event_bytes, h]
  · simp [log_finish_comand, log_write_varlen, Session.fwrite, Session.fput, LogFile.write_atEnd,
      LogFile.put_atEnd, event_bytes, h]

theorem log_proc_byte_fuel_succ (n : Nat) (s : Session) (tick data : Nat) (r : Session)
    (h : log_proc_byte_fuel n s tick data = some r) :
    log_proc_byte_fuel (n + 1) s tick data = some r := by
  induction n generalizing s r with
  | zero => simp [log_proc_byte_fuel] at h
  | succ n ih =>
    unfold log_proc_byte_fuel at h ⊢
    split_ifs at h ⊢ <;> first | exact h | exact ih _ _ h


theorem LogFile.write_append (f : LogFile) (a b : List Nat) :
    (f.write a).write b = f.write (a ++ b) := by
  simp [LogFile.write, List.foldl_append]

theorem LogFile.put_eq_write (f : LogFile) (b : Nat) : f.put b = f.write [b] := by
  simp [LogFile.write]

theorem log_finish_comand_eq (s : Session) :
    log_finish_comand s =
      if s.m_cmd_buf = [] then s
      else
        { s with
          m_log_file := s.m_log_file.map fun f => f.write
            (event_bytes ((s.m_event_tick + 2 ^ 32 - s.m_file_tick) % 2 ^ 32) s.m_cmd_buf)
          m_file_tick := s.m_event_tick
          m_cmd_buf := []
          commits := s.commits ++
            [{ delta := (s.m_event_tick + 2 ^ 32 - s.m_file_tick) % 2 ^ 32,
               tick := s.m_event_tick, msg := s.m_cmd_buf }] } := by
  obtain ⟨lf, et, ft, last, cur, buf, rem, start, cs⟩ := s
  cases buf with
  | nil => simp [log_finish_comand]
  | cons b rest =>
    by_cases h : b = 0xF0 ∨ b = 0xF7
    · simp [log_finish_comand, log_write_varlen, Session.fwrite, Session.fput,
        LogFile.put_eq_write, LogFile.write_append, event_bytes, h, Option.map_map,
        Function.comp_def]
    · simp [log_finish_comand, log_write_varlen, Session.fwrite, Session.fput,
        LogFile.put_eq_write, LogFile.write_append, event_bytes, h, Option.map_map,
        Function.comp_def]

@[simp] theorem log_finish_comand_last (s : Session) :
    (log_finish_comand s).m_last_status = s.m_last_status := by
  rw [log_finish_comand_eq]; split_ifs <;> rfl

@[simp] theorem log_finish_comand_cur (s : Session) :
    (log_finish_comand s).m_cur_status = s.m_cur_status := by
  rw [log_finish_comand_eq]; split_ifs <;> rfl

@[simp] theorem log_finish_comand_rem (s : Session) :
    (log_finish_comand s).m_cmd_rem_bytes = s.m_cmd_rem_bytes := by
  rw [log_finish_comand_eq]; split_ifs <;> rfl

@[simp] theorem log_finish_comand_start (s : Session) :
    (log_finish_comand s).m_mid_track_start_pos = s.m_mid_track_start_pos := by
  rw [log_finish_comand_eq]; split_ifs <;> rfl

@[simp] theorem log_finish_comand_event_tick (s : Session) :
    (log_finish_comand s).m_event_tick = s.m_event_tick := by
  rw [log_finish_comand_eq]; split_ifs <;> rfl

@[simp] theorem log_finish_comand_buf (s : Session) :
    (log_finish_comand s).m_cmd_buf = [] := by
  rw [log_finish_comand_eq]; split_ifs with h
  · exact h
  · rfl

theorem body_closed (s : Session) (tick data : Nat) (ho : s.sinkOpen = false) :
    log_proc_byte_body s tick data = (s, false) := by
  simp [log_proc_byte_body, ho]

theorem body_skip (s : Session) (tick data : Nat) (ho : s.sinkOpen = true)
    (hrem : s.m_cmd_rem_bytes ≠ 0)
    (hx : ¬ (s.m_cur_status = 0xF0 ∨ s.m_cur_status = 0xF7)) (hc : s.m_cur_status ≥ 0xF1) :
    log_proc_byte_body s tick data
      = ({ s with m_cmd_rem_bytes := s.m_cmd_rem_bytes - 1 }, false) := by
  simp [log_proc_byte_body, ho, hrem, hx, hc]

theorem body_push (s : Session) (tick data : Nat) (ho : s.sinkOpen = true)
    (hrem : s.m_cmd_rem_bytes ≠ 0)
    (hx : (¬ (s.m_cur_status = 0xF0 ∨ s.m_cur_status = 0xF7) ∧ s.m_cur_status < 0xF1) ∨
          ((s.m_cur_status = 0xF0 ∨ s.m_cur_status = 0xF7) ∧ data &&& 0x80 = 0)) :
    log_proc_byte_body s tick data = (push_byte s data, false) := by
  rcases hx with ⟨hx, hc⟩ | ⟨hx, hd⟩
  · have hc2 : ¬ (241 ≤ s.m_cur_status) := by omega
    simp only [log_proc_byte_body, push_byte, ho, hrem, hx, hc2]
    simp
    split_ifs <;> first | rfl | (exfalso; omega) | simp_all
  · simp only [log_proc_byte_body, push_byte, ho, hrem, hx, hd]
    simp
    split_ifs <;> first | rfl | (exfalso; omega) | simp_all

theorem body_term (s : Session) (tick data : Nat) (ho : s.sinkOpen = true)
    (hrem : s.m_cmd_rem_bytes ≠ 0)
    (hx : s.m_cur_status = 0xF0 ∨ s.m_cur_status = 0xF7) (hd : data = 0xF7) :
    log_proc_byte_body s tick data
      = (log_finish_comand { s with m_cmd_rem_bytes := 0, m_cmd_buf := s.m_cmd_buf ++ [data] },
         false) := by
  subst hd
  simp [log_proc_byte_body, ho, hrem, hx]

theorem body_abort (s : Session) (tick data : Nat) (ho : s.sinkOpen = true)
    (hrem : s.m_cmd_rem_bytes ≠ 0)
    (hx : s.m_cur_status = 0xF0 ∨ s.m_cur_status = 0xF7)
    (hd : data &&& 0x80 ≠ 0) (hd7 : data ≠ 0xF7) :
    log_proc_byte_body s tick data
      = (log_finish_comand { s with m_cmd_rem_bytes := 0 }, true) := by
  simp [log_proc_byte_body, ho, hrem, hx, hd, hd7]
  simp only [log_finish_comand_eq]
  split_ifs with h <;> simp [h]

theorem body_unknown (s : Session) (tick data : Nat) (ho : s.sinkOpen = true)
    (hrem : s.m_cmd_rem_bytes = 0)
    (hd : data &&& 0x80 = 0) (hl : s.m_last_status = 0) :
    log_proc_byte_body s tick data = (log_finish_comand s, false) := by
  simp [log_proc_byte_body, ho, hrem, hd, hl]

theorem body_reset (s : Session) (tick data : Nat) (ho : s.sinkOpen = true)
    (hrem : s.m_cmd_rem_bytes = 0)
    (hu : ¬ (data &&& 0x80 = 0 ∧ s.m_last_status = 0))
    (hc : (if data &&& 0x80 = 0 then s.m_last_status else data) = 0xFF) :
    log_proc_byte_body s tick data
      = (device_reset_event (new_command (log_finish_comand s) tick data), false) := by
  simp [log_proc_byte_body, ho, hrem, hu, hc, new_command, device_reset_event]

theorem body_discard (s : Session) (tick data : Nat) (ho : s.sinkOpen = true)
    (hrem : s.m_cmd_rem_bytes = 0)
    (hu : ¬ (data &&& 0x80 = 0 ∧ s.m_last_status = 0))
    (hc : (if data &&& 0x80 = 0 then s.m_last_status else data) ≠ 0xFF)
    (hc1 : (if data &&& 0x80 = 0 then s.m_last_status else data) ≥ 0xF1)
    (hc7 : (if data &&& 0x80 = 0 then s.m_last_status else data) ≠ 0xF7) :
    log_proc_byte_body s tick data
      = (new_command (log_finish_comand s) tick data, false) := by
  simp [log_proc_byte_body, ho, hrem, hu, hc, new_command, hc1, hc7]

theorem body_command (s : Session) (tick data : Nat) (ho : s.sinkOpen = true)
    (hrem : s.m_cmd_rem_bytes = 0) (hd : data &&& 0x80 ≠ 0)
    (hc : data ≠ 0xFF) (hc1 : ¬ (data ≥ 0xF1 ∧ data ≠ 0xF7)) :
    log_proc_byte_body s tick data
      = ({ new_command (log_finish_comand s) tick data with m_cmd_buf := [data] }, false) := by
  simp [log_proc_byte_body, ho, hrem, hd, hc, hc1, new_command]

theorem body_running (s : Session) (tick data : Nat) (ho : s.sinkOpen = true)
    (hrem : s.m_cmd_rem_bytes = 0) (hd : data &&& 0x80 = 0)
    (hl : s.m_last_status ≠ 0) (hc : s.m_last_status ≠ 0xFF)
    (hc1 : ¬ (s.m_last_status ≥ 0xF1 ∧ s.m_last_status ≠ 0xF7)) :
    log_proc_byte_body s tick data = (new_command (log_finish_comand s) tick data, true) := by
  simp [log_proc_byte_body, ho, hrem, hd, hc, hc1, hl, new_command]

theorem LogFile.write_is_open (f : LogFile) (bs : List Nat) :
    (f.write bs).is_open = f.is_open := by
  induction bs generalizing f with
  | nil => rfl
  | cons b bs ih =>
    simp only [LogFile.write, List.foldl_cons] at ih ⊢
    rw [ih]
    unfold LogFile.put
    split_ifs <;> simp_all

@[simp] theorem log_finish_comand_sinkOpen (s : Session) :
    (log_finish_comand s).sinkOpen = s.sinkOpen := by
  rw [log_finish_comand_eq]
  split_ifs
  · rfl
  · cases h : s.m_log_file <;> simp [Session.sinkOpen, h, LogFile.write_is_open]

theorem cmd_size_ne_zero (c : Nat) : MIDI_CMD_SIZE.getD ((c >>> 4) &&& 0x07) 0 ≠ 0 := by
  have h : (c >>> 4) &&& 0x07 < 8 := Nat.lt_succ_of_le Nat.and_le_right
  have key : ∀ i : Fin 8, MIDI_CMD_SIZE.getD i.val 0 ≠ 0 := by decide
  exact key ⟨_, h⟩

theorem log_proc_byte_done (s r : Session) (tick data : Nat)
    (h : log_proc_byte_body s tick data = (r, false)) :
    log_proc_byte_fuel 2 s tick data = some r := by
  simp [log_proc_byte_fuel, h]

theorem log_proc_byte_again (s s1 r : Session) (tick data : Nat)
    (h : log_proc_byte_body s tick data = (s1, true))
    (h1 : log_proc_byte_body s1 tick data = (r, false)) :
    log_proc_byte_fuel 2 s tick data = some r := by
  simp [log_proc_byte_fuel, h, h1]

theorem body_status (s : Session) (tick data : Nat) (ho : s.sinkOpen = true)
    (hrem : s.m_cmd_rem_bytes = 0) (hd : data &&& 0x80 ≠ 0) :
    log_proc_byte_body s tick data = (status_byte (log_finish_comand s) tick data, false) := by
  unfold status_byte
  have hu : ¬ (data &&& 0x80 = 0 ∧ s.m_last_status = 0) := fun h => hd h.1
  split_ifs with h1 h2
  · exact body_reset s tick data ho hrem hu (by simp [hd, h1])
  · exact body_discard s tick data ho hrem hu (by simp [hd, h1]) (by simp [hd, h2.1])
      (by simp [hd, h2.2])
  · rw [body_command s tick data ho hrem hd h1 h2]
    simp

theorem log_proc_byte_fuel_tree (s : Session) (tick data : Nat) (ho : s.sinkOpen = true) :
    log_proc_byte_fuel 2 s tick data = some (log_proc_byte_tree s tick data) := by
  unfold log_proc_byte_tree
  split_ifs with hrem hx hd hd7 hc hd hl hlf hl1
  · exact log_proc_byte_done _ _ _ _ (body_push s tick data ho hrem (Or.inr ⟨hx, hd⟩))
  · exact log_proc_byte_done _ _ _ _ (body_term s tick data ho hrem hx hd7)
  · refine log_proc_byte_again _ _ _ _ _ (body_abort s tick data ho hrem hx hd hd7) ?_
    have h := body_status (log_finish_comand { s with m_cmd_rem_bytes := 0 }) tick data
      (by rw [log_finish_comand_sinkOpen]; exact ho) (by rw [log_finish_comand_rem]) hd
    rw [log_finish_comand_nil _ (log_finish_comand_buf _)] at h
    exact h
  · exact log_proc_byte_done _ _ _ _ (body_skip s tick data ho hrem hx hc)
  · exact log_proc_byte_done _ _ _ _
      (body_push s tick data ho hrem (Or.inl ⟨hx, by omega⟩))
  · exact log_proc_byte_done _ _ _ _ (body_unknown s tick data ho (by simpa using hrem) hd hl)
  · exact log_proc_byte_done _ _ _ _
      (body_reset s tick data ho (by simpa using hrem) (by simp [hl]) (by simp [hd, hlf]))
  · exact log_proc_byte_done _ _ _ _
      (body_discard s tick data ho (by simpa using hrem) (by simp [hl]) (by simp [hd, hlf])
        (by simp [hd, hl1.1]) (by simp [hd, hl1.2]))
  · have hrem0 : s.m_cmd_rem_bytes = 0 := by simpa using hrem
    refine log_proc_byte_again _ _ _ _ _
      (body_running s tick data ho hrem0 hd hl hlf hl1) ?_
    have hcur : (new_command (log_finish_comand s) tick data).m_cur_status
        = s.m_last_status := by simp [new_command, hd]
    have hr : (new_command (log_finish_comand s) tick data).m_cmd_rem_bytes ≠ 0 := by
      simp only [new_command, hd, if_true, log_finish_comand_last]
      split_ifs with h240
      · exact cmd_size_ne_zero _
      · have h7 : s.m_last_status = 0xF0 ∨ s.m_last_status = 0xF7 := by omega
        rcases h7 with h7 | h7 <;> rw [h7] <;> decide
    apply body_push _ _ _ _ hr
    · rw [hcur]
      by_cases hx : s.m_last_status = 0xF0 ∨ s.m_last_status = 0xF7
      · exact Or.inr ⟨hx, hd⟩
      · exact Or.inl ⟨hx, by omega⟩
    · show (log_finish_comand s).sinkOpen = true
      rw [log_finish_comand_sinkOpen]; exact ho
  · exact log_proc_byte_done _ _ _ _ (body_status s tick data ho (by simpa using hrem) hd)

theorem log_proc_byte_eq (s : Session) (tick data : Nat) (ho : s.sinkOpen = true) :
    log_proc_byte s tick data = log_proc_byte_tree s tick data := by
  simp [log_proc_byte, log_proc_byte_fuel_tree s tick data ho]

/-- Two passes through the body are always enough: `log_proc_byte` is total. -/
theorem log_proc_byte_fuel_two (s : Session) (tick data : Nat) :
    log_proc_byte_fuel 2 s tick data = some (log_proc_byte s tick data) := by
  by_cases ho : s.sinkOpen = true
  · rw [log_proc_byte_eq s tick data ho, log_proc_byte_fuel_tree s tick data ho]
  · simp [log_proc_byte, log_proc_byte_fuel, body_closed s tick data (by simpa using ho)]

theorem log_proc_byte_closed (s : Session) (tick data : Nat) (ho : s.sinkOpen = false) :
    log_proc_byte s tick data = s := by
  simp [log_proc_byte, log_proc_byte_fuel, body_closed s tick data ho]

/-! ## Effect of the paths on a file written at its end -/

theorem log_finish_comand_atEnd (s : Session) (bytes : List Nat)
    (hf : s.m_log_file = some (LogFile.atEnd bytes)) (hne : s.m_cmd_buf ≠ []) :
    log_finish_comand s =
      { s with
        m_log_file := some (LogFile.atEnd (bytes ++
          event_bytes ((s.m_event_tick + 2 ^ 32 - s.m_file_tick) % 2 ^ 32) s.m_cmd_buf))
        m_file_tick := s.m_event_tick
        m_cmd_buf := []
        commits := s.commits ++
          [{ delta := (s.m_event_tick + 2 ^ 32 - s.m_file_tick) % 2 ^ 32,
             tick := s.m_event_tick, msg := s.m_cmd_buf }] } := by
  rw [log_finish_comand_eq, if_neg hne]
  simp [hf, LogFile.write_atEnd]

theorem device_reset_event_atEnd (s : Session) (bytes : List Nat)
    (hf : s.m_log_file = some (LogFile.atEnd bytes)) (hb : s.m_cmd_buf = []) :
    device_reset_event s =
      { s with
        m_log_file := some (LogFile.atEnd (bytes ++
          (varlen_bytes ((s.m_event_tick + 2 ^ 32 - s.m_file_tick) % 2 ^ 32)
            ++ [0xFF, 0x06] ++ varlen_bytes 12 ++ devResetStr)))
        m_file_tick := s.m_event_tick
        m_cmd_buf := []
        commits := s.commits ++
          [{ delta := (s.m_event_tick + 2 ^ 32 - s.m_file_tick) % 2 ^ 32,
             tick := s.m_event_tick, msg := [0xFF, 0x06] }] } := by
  obtain ⟨lf, et, ft, last, cur, buf, rem, start, cs⟩ := s
  simp only at hf hb
  subst hf hb
  simp [device_reset_event, log_finish_comand, log_write_varlen, Session.fwrite,
    LogFile.write_atEnd, devResetStr]

theorem cmd_size_voice (st : Nat) (h1 : 0x80 ≤ st) (h2 : st < 0xF0) :
    MIDI_CMD_SIZE.getD ((st >>> 4) &&& 0x07) 0 = 1 ∨
    MIDI_CMD_SIZE.getD ((st >>> 4) &&& 0x07) 0 = 2 := by
  have key : ∀ x : Fin 256, 0x80 ≤ x.val → x.val < 0xF0 →
      MIDI_CMD_SIZE.getD ((x.val >>> 4) &&& 0x07) 0 = 1 ∨
      MIDI_CMD_SIZE.getD ((x.val >>> 4) &&& 0x07) 0 = 2 := by decide
  exact key ⟨st, by omega⟩ h1 h2

theorem feed_cons (s : Session) (x : Nat × Nat) (xs : List (Nat × Nat)) :
    feed s (x :: xs) = feed (log_proc_byte s x.1 x.2) xs := rfl

theorem feed_nil (s : Session) : feed s [] = s := rfl

theorem feed_append (s : Session) (xs ys : List (Nat × Nat)) :
    feed s (xs ++ ys) = feed (feed s xs) ys := by
  simp [feed, List.foldl_append]

theorem status_byte_command (s : Session) (tick data : Nat) (hbuf : s.m_cmd_buf = [])
    (hd : 0x80 ≤ data) (hd2 : data < 0xF1 ∨ data = 0xF7) :
    status_byte s tick data =
      { s with
        m_cur_status := data
        m_last_status := if data < 0xF0 then data else s.m_last_status
        m_cmd_rem_bytes :=
          if data < 0xF0 then MIDI_CMD_SIZE.getD ((data >>> 4) &&& 0x07) 0 else 0xFFFFFFFF
        m_event_tick := tick % 2 ^ 32
        m_cmd_buf := [data] } := by
  have hbit : ¬ (data &&& 0x80 = 0) := by
    rw [land_0x80_eq_zero data (by omega)]; omega
  have hff : data ≠ 0xFF := by omega
  have hdis : ¬ (data ≥ 0xF1 ∧ data ≠ 0xF7) := by omega
  simp only [status_byte, hbit, hff, hdis, new_command, hbuf]
  simp
  refine ⟨by simp [hbit], ?_⟩
  by_cases h240 : data < 0xF0
  · simp [h240]
  · have h7 : data = 0xF0 ∨ data = 0xF7 := by omega
    rcases h7 with h7 | h7 <;> subst h7 <;> decide

/-- A status byte 80..EF, F0 or F7 at a message boundary opens a new command
buffer. -/
theorem step_status (s : Session) (bytes : List Nat) (tick data : Nat)
    (hf : s.m_log_file = some (LogFile.atEnd bytes))
    (hrem : s.m_cmd_rem_bytes = 0) (hbuf : s.m_cmd_buf = [])
    (hd : 0x80 ≤ data) (hd2 : data < 0xF1 ∨ data = 0xF7) :
    log_proc_byte s tick data =
      { s with
        m_cur_status := data
        m_last_status := if data < 0xF0 then data else s.m_last_status
        m_cmd_rem_bytes :=
          if data < 0xF0 then MIDI_CMD_SIZE.getD ((data >>> 4) &&& 0x07) 0 else 0xFFFFFFFF
        m_event_tick := tick % 2 ^ 32
        m_cmd_buf := [data] } := by
  have hbit : ¬ (data &&& 0x80 = 0) := by
    rw [land_0x80_eq_zero data (by omega)]; omega
  rw [log_proc_byte_eq s tick _ (sinkOpen_atEnd s bytes hf)]
  simp only [log_proc_byte_tree, hrem, hbit, log_finish_comand_nil s hbuf, ne_eq,
    not_true_eq_false, if_false]
  exact status_byte_command s tick data hbuf hd hd2

theorem log_proc_byte_push (s : Session) (tick data : Nat) (ho : s.sinkOpen = true)
    (hrem : s.m_cmd_rem_bytes ≠ 0) (hd : data < 256)
    (hx : s.m_cur_status < 0xF0 ∨
          ((s.m_cur_status = 0xF0 ∨ s.m_cur_status = 0xF7) ∧ data < 0x80)) :
    log_proc_byte s tick data = push_byte s data := by
  rw [log_proc_byte_eq s tick _ ho]
  rcases hx with hx | ⟨hx, hlt⟩
  · have h1 : ¬ (s.m_cur_status = 0xF0 ∨ s.m_cur_status = 0xF7) := by omega
    have h2 : ¬ (s.m_cur_status ≥ 0xF1) := by omega
    simp only [log_proc_byte_tree, hrem, h1, h2, ne_eq, not_false_eq_true, if_true, if_false]
  · have hbit : data &&& 0x80 = 0 := (land_0x80_eq_zero data hd).2 hlt
    simp only [log_proc_byte_tree, hrem, hx, hbit, ne_eq, not_false_eq_true, if_true]

/-- A byte that is appended to the command buffer without completing it. -/
theorem step_push (s : Session) (tick data : Nat) (ho : s.sinkOpen = true)
    (hrem : 2 ≤ s.m_cmd_rem_bytes) (hlen : s.m_cmd_buf.length + 1 < 0x2000) (hd : data < 256)
    (hx : s.m_cur_status < 0xF0 ∨
          ((s.m_cur_status = 0xF0 ∨ s.m_cur_status = 0xF7) ∧ data < 0x80)) :
    log_proc_byte s tick data =
      { s with m_cmd_rem_bytes := s.m_cmd_rem_bytes - 1, m_cmd_buf := s.m_cmd_buf ++ [data] } := by
  rw [log_proc_byte_push s tick data ho (by omega) hd hx, push_byte, if_neg (by omega)]

/-- A byte that is appended to the command buffer and completes it, because it
is the last byte expected or because the buffer reaches 8 KB. -/
theorem step_push_commit (s : Session) (bytes : List Nat) (tick data : Nat)
    (hf : s.m_log_file = some (LogFile.atEnd bytes))
    (hrem : s.m_cmd_rem_bytes ≠ 0)
    (hlast : s.m_cmd_rem_bytes = 1 ∨ 0x2000 ≤ s.m_cmd_buf.length + 1) (hd : data < 256)
    (hx : s.m_cur_status < 0xF0 ∨
          ((s.m_cur_status = 0xF0 ∨ s.m_cur_status = 0xF7) ∧ data < 0x80)) :
    log_proc_byte s tick data =
      { s with
        m_log_file := some (LogFile.atEnd (bytes ++
          event_bytes ((s.m_event_tick + 2 ^ 32 - s.m_file_tick) % 2 ^ 32)
            (s.m_cmd_buf ++ [data])))
        m_file_tick := s.m_event_tick
        m_cmd_rem_bytes := 0
        m_cmd_buf := []
        commits := s.commits ++
          [{ delta := (s.m_event_tick + 2 ^ 32 - s.m_file_tick) % 2 ^ 32,
             tick := s.m_event_tick, msg := s.m_cmd_buf ++ [data] }] } := by
  rw [log_proc_byte_push s tick data (sinkOpen_atEnd s bytes hf) hrem hd hx, push_byte,
    if_pos (by omega)]
  rw [log_finish_comand_atEnd
    { s with m_cmd_rem_bytes := 0, m_cmd_buf := s.m_cmd_buf ++ [data] } bytes hf (by simp)]

/-- The terminator F7 closes a SysEx buffer. -/
theorem step_term (s : Session) (bytes : List Nat) (tick : Nat)
    (hf : s.m_log_file = some (LogFile.atEnd bytes))
    (hrem : s.m_cmd_rem_bytes ≠ 0)
    (hx : s.m_cur_status = 0xF0 ∨ s.m_cur_status = 0xF7) :
    log_proc_byte s tick 0xF7 =
      { s with
        m_log_file := some (LogFile.atEnd (bytes ++
          event_bytes ((s.m_event_tick + 2 ^ 32 - s.m_file_tick) % 2 ^ 32)
            (s.m_cmd_buf ++ [0xF7])))
        m_file_tick := s.m_event_tick
        m_cmd_rem_bytes := 0
        m_cmd_buf := []
        commits := s.commits ++
          [{ delta := (s.m_event_tick + 2 ^ 32 - s.m_file_tick) % 2 ^ 32,
             tick := s.m_event_tick, msg := s.m_cmd_buf ++ [0xF7] }] } := by
  rw [log_proc_byte_eq s tick _ (sinkOpen_atEnd s bytes hf)]
  have h1 : log_proc_byte_tree s tick 0xF7 = log_finish_comand
      { s with m_cmd_rem_bytes := 0, m_cmd_buf := s.m_cmd_buf ++ [0xF7] } := by
    simp [log_proc_byte_tree, hrem, hx]
  rw [h1, log_finish_comand_atEnd
    { s with m_cmd_rem_bytes := 0, m_cmd_buf := s.m_cmd_buf ++ [0xF7] } bytes hf (by simp)]

/-- A status byte other than F7 arriving inside a SysEx closes the SysEx
without the byte and starts a new command with it. -/
theorem step_abort (s : Session) (bytes : List Nat) (tick data : Nat)
    (hf : s.m_log_file = some (LogFile.atEnd bytes))
    (hrem : s.m_cmd_rem_bytes ≠ 0) (hne : s.m_cmd_buf ≠ [])
    (hx : s.m_cur_status = 0xF0 ∨ s.m_cur_status = 0xF7)
    (hd : 0x80 ≤ data) (hd2 : data < 0xF1) :
    log_proc_byte s tick data =
      { s with
        m_log_file := some (LogFile.atEnd (bytes ++
          event_bytes ((s.m_event_tick + 2 ^ 32 - s.m_file_tick) % 2 ^ 32) s.m_cmd_buf))
        m_file_tick := s.m_event_tick
        commits := s.commits ++
          [{ delta := (s.m_event_tick + 2 ^ 32 - s.m_file_tick) % 2 ^ 32,
             tick := s.m_event_tick, msg := s.m_cmd_buf }]
        m_cur_status := data
        m_last_status := if data < 0xF0 then data else s.m_last_status
        m_cmd_rem_bytes :=
          if data < 0xF0 then MIDI_CMD_SIZE.getD ((data >>> 4) &&& 0x07) 0 else 0xFFFFFFFF
        m_event_tick := tick % 2 ^ 32
        m_cmd_buf := [data] } := by
  have hbit : ¬ (data &&& 0x80 = 0) := by
    rw [land_0x80_eq_zero data (by omega)]; omega
  have h7 : data ≠ 0xF7 := by omega
  rw [log_proc_byte_eq s tick _ (sinkOpen_atEnd s bytes hf)]
  simp only [log_proc_byte_tree, hrem, hx, hbit, h7, ne_eq, not_false_eq_true, if_true, if_false]
  rw [status_byte_command _ tick data (log_finish_comand_buf _) hd (Or.inl hd2),
    log_finish_comand_atEnd { s with m_cmd_rem_bytes := 0 } bytes hf hne]

/-- A data byte at a message boundary with a running status in effect is
collected under that status, with no status byte in the buffer. -/
theorem step_running (s : Session) (bytes : List Nat) (tick data : Nat)
    (hf : s.m_log_file = some (LogFile.atEnd bytes))
    (hrem : s.m_cmd_rem_bytes = 0) (hbuf : s.m_cmd_buf = [])
    (hd : data < 0x80) (hl : 0x80 ≤ s.m_last_status) (hl2 : s.m_last_status < 0xF0) :
    log_proc_byte s tick data =
      push_byte
        { s with
          m_cur_status := s.m_last_status
          m_cmd_rem_bytes := MIDI_CMD_SIZE.getD ((s.m_last_status >>> 4) &&& 0x07) 0
          m_event_tick := tick % 2 ^ 32 } data := by
  have hbit : data &&& 0x80 = 0 := (land_0x80_eq_zero data (by omega)).2 hd
  have h0 : s.m_last_status ≠ 0 := by omega
  have hff : s.m_last_status ≠ 0xFF := by omega
  have hdis : ¬ (s.m_last_status ≥ 0xF1 ∧ s.m_last_status ≠ 0xF7) := by omega
  rw [log_proc_byte_eq s tick _ (sinkOpen_atEnd s bytes hf)]
  simp only [log_proc_byte_tree, hrem, hbit, h0, hff, hdis, log_finish_comand_nil s hbuf, ne_eq,
    not_true_eq_false, if_false, if_true, new_command, hl2]
  simp

theorem event_bytes_plain (delta : Nat) (buf : List Nat)
    (h : buf.headD 0 ≠ 0xF0 ∧ buf.headD 0 ≠ 0xF7) :
    event_bytes delta buf = varlen_bytes delta ++ buf := by
  unfold event_bytes
  rw [if_neg (not_or.mpr h)]

theorem event_bytes_sysex (delta b : Nat) (rest : List Nat) (h : b = 0xF0 ∨ b = 0xF7) :
    event_bytes delta (b :: rest)
      = varlen_bytes delta ++ b :: (varlen_bytes (rest.length % 2 ^ 32) ++ rest) := by
  unfold event_bytes
  rw [if_pos (by simpa using h)]
  simp

theorem push_byte_commit (s : Session) (bytes : List Nat) (data : Nat)
    (hf : s.m_log_file = some (LogFile.atEnd bytes))
    (hlast : s.m_cmd_rem_bytes = 1 ∨ 0x2000 ≤ s.m_cmd_buf.length + 1) :
    push_byte s data =
      { s with
        m_log_file := some (LogFile.atEnd (bytes ++
          event_bytes ((s.m_event_tick + 2 ^ 32 - s.m_file_tick) % 2 ^ 32)
            (s.m_cmd_buf ++ [data])))
        m_file_tick := s.m_event_tick
        m_cmd_rem_bytes := 0
        m_cmd_buf := []
        commits := s.commits ++
          [{ delta := (s.m_event_tick + 2 ^ 32 - s.m_file_tick) % 2 ^ 32,
             tick := s.m_event_tick, msg := s.m_cmd_buf ++ [data] }] } := by
  rw [push_byte, if_pos (by omega)]
  rw [log_finish_comand_atEnd
    { s with m_cmd_rem_bytes := 0, m_cmd_buf := s.m_cmd_buf ++ [data] } bytes hf (by simp)]

theorem push_byte_more (s : Session) (data : Nat)
    (hrem : 2 ≤ s.m_cmd_rem_bytes) (hlen : s.m_cmd_buf.length + 1 < 0x2000) :
    push_byte s data =
      { s with m_cmd_rem_bytes := s.m_cmd_rem_bytes - 1, m_cmd_buf := s.m_cmd_buf ++ [data] } := by
  rw [push_byte, if_neg (by omega)]

/-- C1 (running-status omission): from a message boundary (in particular on a
freshly opened session), a channel-voice status byte `st` in 80..EF, then its
data bytes `dts`, then a second group `dts'` of data bytes with no status byte
commit exactly two events; the first is written as its delta-time, `st` and
the data bytes, the second as its delta-time and the bytes of `dts'` alone. -/
theorem running_status_omission (s : Session) (bytes : List Nat) (st t0 : Nat)
    (dts dts' : List (Nat × Nat))
    (hf : s.m_log_file = some (LogFile.atEnd bytes))
    (hrem : s.m_cmd_rem_bytes = 0) (hbuf : s.m_cmd_buf = [])
    (hst : 0x80 ≤ st ∧ st ≤ 0xEF)
    (hn : dts.length = MIDI_CMD_SIZE.getD ((st >>> 4) &&& 0x07) 0)
    (hn' : dts'.length = MIDI_CMD_SIZE.getD ((st >>> 4) &&& 0x07) 0)
    (hd : ∀ x ∈ dts, x.2 < 0x80) (hd' : ∀ x ∈ dts', x.2 < 0x80) :
    feed s ((t0, st) :: dts ++ dts') =
      { s with
        m_log_file := some (LogFile.atEnd (bytes ++
          (varlen_bytes ((t0 % 2 ^ 32 + 2 ^ 32 - s.m_file_tick) % 2 ^ 32)
            ++ st :: dts.map Prod.snd
            ++ varlen_bytes
                (((dts'.headD (0, 0)).1 % 2 ^ 32 + 2 ^ 32 - t0 % 2 ^ 32) % 2 ^ 32)
            ++ dts'.map Prod.snd)))
        m_event_tick := (dts'.headD (0, 0)).1 % 2 ^ 32
        m_file_tick := (dts'.headD (0, 0)).1 % 2 ^ 32
        m_cur_status := st
        m_last_status := st
        m_cmd_rem_bytes := 0
        m_cmd_buf := []
        commits := s.commits ++
          [{ delta := (t0 % 2 ^ 32 + 2 ^ 32 - s.m_file_tick) % 2 ^ 32, tick := t0 % 2 ^ 32,
             msg := st :: dts.map Prod.snd },
           { delta := ((dts'.headD (0, 0)).1 % 2 ^ 32 + 2 ^ 32 - t0 % 2 ^ 32) % 2 ^ 32,
             tick := (dts'.headD (0, 0)).1 % 2 ^ 32, msg := dts'.map Prod.snd }] } := by
  obtain ⟨lf, et, ft, last, cur, buf, rem, start, cs⟩ := s
  simp only at hf hrem hbuf
  subst hf hrem hbuf
  have hst240 : st < 0xF0 := by omega
  rcases cmd_size_voice st hst.1 hst240 with hsz | hsz
  · rw [hsz] at hn hn'
    obtain ⟨⟨ta, a⟩, rfl⟩ := List.length_eq_one.mp hn
    obtain ⟨⟨tc, c⟩, rfl⟩ := List.length_eq_one.mp hn'
    have ha : a < 0x80 := hd (ta, a) (by simp)
    have hc : c < 0x80 := hd' (tc, c) (by simp)
    simp only [feed_cons, feed_nil, List.cons_append, List.nil_append]
    rw [step_status _ bytes t0 st rfl rfl rfl hst.1 (by omega)]
    simp only [hst240, if_true, hsz]
    rw [step_push_commit _ bytes ta a rfl (by simp) (Or.inl rfl) (by omega) (Or.inl hst240)]
    simp only []
    rw [step_running _ _ tc c rfl rfl rfl hc hst.1 hst240]
    simp only [hsz]
    rw [push_byte_commit _ _ c rfl (Or.inl rfl)]
    rw [event_bytes_plain _ _ (by simp; omega), event_bytes_plain _ _ (by simp; omega)]
    simp
  · rw [hsz] at hn hn'
    obtain ⟨⟨ta, a⟩, ⟨tb, b⟩, rfl⟩ := List.length_eq_two.mp hn
    obtain ⟨⟨tc, c⟩, ⟨te, e⟩, rfl⟩ := List.length_eq_two.mp hn'
    have ha : a < 0x80 := hd (ta, a) (by simp)
    have hb : b < 0x80 := hd (tb, b) (by simp)
    have hc : c < 0x80 := hd' (tc, c) (by simp)
    have he : e < 0x80 := hd' (te, e) (by simp)
    simp only [feed_cons, feed_nil, List.cons_append, List.nil_append]
    rw [step_status _ bytes t0 st rfl rfl rfl hst.1 (by omega)]
    simp only [hst240, if_true, hsz]
    rw [step_push _ ta a (by simp [Session.sinkOpen, LogFile.atEnd]) (by simp) (by simp)
      (by omega) (Or.inl hst240)]
    simp only []
    rw [step_push_commit _ bytes tb b rfl (by simp) (Or.inl rfl) (by omega) (Or.inl hst240)]
    simp only []
    rw [step_running _ _ tc c rfl rfl rfl hc hst.1 hst240]
    simp only [hsz]
    rw [push_byte_more _ c (by simp) (by simp)]
    simp only []
    rw [step_push_commit _ _ te e rfl (by simp) (Or.inl rfl) (by omega) (Or.inl hst240)]
    rw [event_bytes_plain _ _ (by simp; omega), event_bytes_plain _ _ (by simp; omega)]
    simp

/-- Data bytes inside a SysEx are collected as long as the buffer stays below
8 KB. -/
theorem feed_sysex_data (p : List (Nat × Nat)) (s : Session) (ho : s.sinkOpen = true)
    (hx : s.m_cur_status = 0xF0 ∨ s.m_cur_status = 0xF7)
    (hrem : p.length + 1 ≤ s.m_cmd_rem_bytes)
    (hlen : s.m_cmd_buf.length + p.length < 0x2000)
    (hp : ∀ x ∈ p, x.2 < 0x80) :
    feed s p =
      { s with m_cmd_rem_bytes := s.m_cmd_rem_bytes - p.length,
               m_cmd_buf := s.m_cmd_buf ++ p.map Prod.snd } := by
  induction p generalizing s with
  | nil => simp [feed_nil]
  | cons x p ih =>
    have hx2 : x.2 < 0x80 := hp x (by simp)
    simp only [List.length_cons] at hrem hlen
    rw [feed_cons, step_push s x.1 x.2 ho (by omega) (by omega) (by omega) (Or.inr ⟨hx, hx2⟩)]
    rw [ih { s with m_cmd_rem_bytes := s.m_cmd_rem_bytes - 1,
                    m_cmd_buf := s.m_cmd_buf ++ [x.2] } ho hx
      (by simp only []; omega) (by simp; omega) (fun y hy => hp y (by simp [hy]))]
    simp
    omega

/-- C2 (SysEx length): from a message boundary, F0, a payload `p` of at most
8190 data bytes and F7 commit exactly one event, written as its delta-time,
F0, the variable-length quantity `|p| + 1`, the payload and F7. -/
theorem sysex_length (s : Session) (bytes : List Nat) (t0 t1 : Nat) (p : List (Nat × Nat))
    (hf : s.m_log_file = some (LogFile.atEnd bytes))
    (hrem : s.m_cmd_rem_bytes = 0) (hbuf : s.m_cmd_buf = [])
    (hp : ∀ x ∈ p, x.2 < 0x80) (hlen : p.length ≤ 8190) :
    feed s ((t0, 0xF0) :: p ++ [(t1, 0xF7)]) =
      { s with
        m_log_file := some (LogFile.atEnd (bytes ++
          (varlen_bytes ((t0 % 2 ^ 32 + 2 ^ 32 - s.m_file_tick) % 2 ^ 32)
            ++ [0xF0] ++ varlen_bytes (p.length + 1) ++ p.map Prod.snd ++ [0xF7])))
        m_event_tick := t0 % 2 ^ 32
        m_file_tick := t0 % 2 ^ 32
        m_cur_status := 0xF0
        m_cmd_rem_bytes := 0
        m_cmd_buf := []
        commits := s.commits ++
          [{ delta := (t0 % 2 ^ 32 + 2 ^ 32 - s.m_file_tick) % 2 ^ 32, tick := t0 % 2 ^ 32,
             msg := 0xF0 :: p.map Prod.snd ++ [0xF7] }] } := by
  obtain ⟨lf, et, ft, last, cur, buf, rem, start, cs⟩ := s
  simp only at hf hrem hbuf
  subst hf hrem hbuf
  rw [List.cons_append, feed_cons, feed_append]
  rw [step_status _ bytes t0 0xF0 rfl rfl rfl (by norm_num) (by norm_num)]
  simp only [Nat.lt_irrefl, if_false]
  rw [feed_sysex_data p _ (by simp [Session.sinkOpen, LogFile.atEnd]) (Or.inl rfl)
    (by simp; omega) (by simp; omega) hp]
  simp only [feed_cons, feed_nil]
  rw [step_term _ bytes t1 rfl (by simp; omega) (Or.inl rfl)]
  simp only [List.cons_append, List.nil_append, List.append_assoc]
  rw [event_bytes_sysex _ _ _ (Or.inl rfl)]
  have hmod : (p.map Prod.snd ++ [0xF7]).length % 2 ^ 32 = p.length + 1 := by
    simp; omega
  rw [hmod]

/-- C3 (SysEx early abort): from a message boundary, F0, a payload `p` of at
most 8190 data bytes and then a channel-voice status byte `st` close the SysEx
when `st` arrives, written as its delta-time, F0, the variable-length quantity
`|p|` and the payload without `st`, and start a new message with `st`:
`m_cur_status = m_last_status = st`, `m_cmd_buf = [st]` and `m_cmd_rem_bytes`
the table entry of `st`. -/
theorem sysex_early_abort (s : Session) (bytes : List Nat) (t0 t1 st : Nat)
    (p : List (Nat × Nat))
    (hf : s.m_log_file = some (LogFile.atEnd bytes))
    (hrem : s.m_cmd_rem_bytes = 0) (hbuf : s.m_cmd_buf = [])
    (hp : ∀ x ∈ p, x.2 < 0x80) (hlen : p.length ≤ 8190)
    (hst : 0x80 ≤ st ∧ st ≤ 0xEF) :
    feed s ((t0, 0xF0) :: p ++ [(t1, st)]) =
      { s with
        m_log_file := some (LogFile.atEnd (bytes ++
          (varlen_bytes ((t0 % 2 ^ 32 + 2 ^ 32 - s.m_file_tick) % 2 ^ 32)
            ++ [0xF0] ++ varlen_bytes p.length ++ p.map Prod.snd)))
        m_event_tick := t1 % 2 ^ 32
        m_file_tick := t0 % 2 ^ 32
        m_cur_status := st
        m_last_status := st
        m_cmd_rem_bytes := MIDI_CMD_SIZE.getD ((st >>> 4) &&& 0x07) 0
        m_cmd_buf := [st]
        commits := s.commits ++
          [{ delta := (t0 % 2 ^ 32 + 2 ^ 32 - s.m_file_tick) % 2 ^ 32, tick := t0 % 2 ^ 32,
             msg := 0xF0 :: p.map Prod.snd }] } := by
  obtain ⟨lf, et, ft, last, cur, buf, rem, start, cs⟩ := s
  simp only at hf hrem hbuf
  subst hf hrem hbuf
  rw [List.cons_append, feed_cons, feed_append]
  rw [step_status _ bytes t0 0xF0 rfl rfl rfl (by norm_num) (by norm_num)]
  simp only [Nat.lt_irrefl, if_false]
  rw [feed_sysex_data p _ (by simp [Session.sinkOpen, LogFile.atEnd]) (Or.inl rfl)
    (by simp; omega) (by simp; omega) hp]
  simp only [feed_cons, feed_nil]
  rw [step_abort _ bytes t1 st rfl (by simp; omega) (by simp) (Or.inl rfl) hst.1 (by omega)]
  simp only [List.cons_append, List.nil_append]
  rw [event_bytes_sysex _ _ _ (Or.inl rfl)]
  have hmod : (p.map Prod.snd).length % 2 ^ 32 = p.length := by
    simp; omega
  have h240 : st < 0xF0 := by omega
  rw [hmod]
  simp [h240]

/-- Witness for C1: 90 3C 40 3E 50 is written as 00 90 3C 40, 0A 3E 50. -/
theorem running_status_omission_witness :
    (feed (log_start fresh true)
        [(0, 0x90), (1, 0x3C), (2, 0x40), (10, 0x3E), (11, 0x50)]).fileBytes
      = (log_start fresh true).fileBytes ++ [0x00, 0x90, 0x3C, 0x40, 0x0A, 0x3E, 0x50] := by
  have h := running_status_omission (log_start fresh true) (log_start fresh true).fileBytes
    0x90 0 [(1, 0x3C), (2, 0x40)] [(10, 0x3E), (11, 0x50)]
    (by decide) (by decide) (by decide) (by decide) (by decide) (by decide) (by decide)
    (by decide)
  simp only [List.cons_append, List.nil_append] at h
  rw [h]
  decide

/-- Witness for C2: F0 43 12 00 F7 is written as F0 04 43 12 00 F7. -/
theorem sysex_length_witness :
    (feed (log_start fresh true)
        [(5, 0xF0), (6, 0x43), (7, 0x12), (8, 0x00), (9, 0xF7)]).fileBytes
      = (log_start fresh true).fileBytes ++ [0x05, 0xF0, 0x04, 0x43, 0x12, 0x00, 0xF7] := by
  have h := sysex_length (log_start fresh true) (log_start fresh true).fileBytes 5 9
    [(6, 0x43), (7, 0x12), (8, 0x00)] (by decide) (by decide) (by decide) (by decide)
    (by decide)
  simp only [List.cons_append, List.nil_append] at h
  rw [h]
  decide

/-- Witness for C3: F0 43 90 writes F0 01 43 and leaves 90 as the new command. -/
theorem sysex_early_abort_witness :
    feed (log_start fresh true) [(5, 0xF0), (6, 0x43), (7, 0x90)] =
      { log_start fresh true with
        m_log_file := some (LogFile.atEnd
          ((log_start fresh true).fileBytes ++ [0x05, 0xF0, 0x01, 0x43]))
        m_event_tick := 7
        m_file_tick := 5
        m_cur_status := 0x90
        m_last_status := 0x90
        m_cmd_rem_bytes := 2
        m_cmd_buf := [0x90]
        commits := [{ delta := 5, tick := 5, msg := [0xF0, 0x43] }] } := by
  have h := sysex_early_abort (log_start fresh true) (log_start fresh true).fileBytes 5 7 0x90
    [(6, 0x43)] (by decide) (by decide) (by decide) (by decide) (by decide) (by decide)
  simp only [List.cons_append, List.nil_append] at h
  rw [h]
  decide

/-- C5 (event commit): on a sink written at its end, `log_finish_comand` does
nothing when the command buffer is empty (nothing written, `m_file_tick`
unchanged); otherwise it appends the variable-length quantity of
`m_event_tick - m_file_tick` followed by the buffer, a leading F0 or F7 being
followed by the variable-length count of the remaining bytes; afterwards
`m_file_tick = m_event_tick` and the buffer is empty. -/
theorem log_finish_comand_commit (s : Session) (bytes : List Nat)
    (hf : s.m_log_file = some (LogFile.atEnd bytes)) (hlen : s.m_cmd_buf.length ≤ 2 ^ 32) :
    (s.m_cmd_buf = [] → log_finish_comand s = s) ∧
    (∀ b rest, s.m_cmd_buf = b :: rest →
      log_finish_comand s =
        { s with
          m_log_file := some (LogFile.atEnd (bytes ++
            (varlen_bytes ((s.m_event_tick + 2 ^ 32 - s.m_file_tick) % 2 ^ 32) ++
              (if b = 0xF0 ∨ b = 0xF7 then b :: (varlen_bytes rest.length ++ rest)
               else b :: rest))))
          m_file_tick := s.m_event_tick
          m_cmd_buf := []
          commits := s.commits ++
            [{ delta := (s.m_event_tick + 2 ^ 32 - s.m_file_tick) % 2 ^ 32,
               tick := s.m_event_tick, msg := b :: rest }] }) := by
  refine ⟨log_finish_comand_nil s, ?_⟩
  intro b rest hb
  rw [log_finish_comand_cons s bytes b rest hf hb]
  have hr : rest.length % 2 ^ 32 = rest.length := by
    rw [hb] at hlen
    simp only [List.length_cons] at hlen
    exact Nat.mod_eq_of_lt (by omega)
  by_cases h : b = 0xF0 ∨ b = 0xF7
  · rw [event_bytes_sysex _ _ _ h, hr, if_pos h]
  · rw [event_bytes_plain _ _ (by simpa using h), if_neg h]

/-- Witness for C5: a pending SysEx F0 43 F7 stamped 300 after a commit at 100
is written as 81 48 (delta 200), F0 02 43 F7. -/
theorem log_finish_comand_commit_witness :
    log_finish_comand
        { fresh with m_log_file := some (LogFile.atEnd [1, 2]), m_event_tick := 300,
                     m_file_tick := 100, m_cmd_buf := [0xF0, 0x43, 0xF7] } =
      { fresh with m_log_file := some (LogFile.atEnd [1, 2, 0x81, 0x48, 0xF0, 0x02, 0x43, 0xF7]),
                   m_event_tick := 300, m_file_tick := 300, m_cmd_buf := [],
                   commits := [{ delta := 200, tick := 300, msg := [0xF0, 0x43, 0xF7] }] } := by
  rw [(log_finish_comand_commit
    { fresh with m_log_file := some (LogFile.atEnd [1, 2]), m_event_tick := 300,
                 m_file_tick := 100, m_cmd_buf := [0xF0, 0x43, 0xF7] } [1, 2] rfl
    (by decide)).2 0xF0 [0x43, 0xF7] rfl]
  decide

/-- C8, amended (device reset): at a message boundary with the sink open, the
byte FF writes exactly the delta-time followed by FF 06, the variable-length
length 12 and the 12 bytes of the text "Device Reset"; no data byte is
collected afterwards: `m_cmd_rem_bytes = 0`, the buffer is empty and
`m_last_status` is unchanged. -/
theorem device_reset (s : Session) (bytes : List Nat) (tick : Nat)
    (hf : s.m_log_file = some (LogFile.atEnd bytes))
    (hrem : s.m_cmd_rem_bytes = 0) (hbuf : s.m_cmd_buf = []) :
    log_proc_byte s tick 0xFF =
      { s with
        m_log_file := some (LogFile.atEnd (bytes ++
          (varlen_bytes ((tick % 2 ^ 32 + 2 ^ 32 - s.m_file_tick) % 2 ^ 32)
            ++ [0xFF, 0x06] ++ varlen_bytes 12 ++ devResetStr)))
        m_event_tick := tick % 2 ^ 32
        m_file_tick := tick % 2 ^ 32
        m_cur_status := 0xFF
        commits := s.commits ++
          [{ delta := (tick % 2 ^ 32 + 2 ^ 32 - s.m_file_tick) % 2 ^ 32,
             tick := tick % 2 ^ 32, msg := [0xFF, 0x06] }] } := by
  rw [log_proc_byte_eq s tick _ (sinkOpen_atEnd s bytes hf)]
  have h1 : log_proc_byte_tree s tick 0xFF = device_reset_event (new_command s tick 0xFF) := by
    simp [log_proc_byte_tree, hrem, status_byte, log_finish_comand_nil s hbuf]
  rw [h1, device_reset_event_atEnd _ bytes (by simp [new_command, hf]) (by simp [new_command, hbuf])]
  obtain ⟨lf, et, ft, last, cur, buf, rem, start, cs⟩ := s
  simp only at hf hrem hbuf
  subst hf hrem hbuf
  simp [new_command]
  decide


/-- Witness for C8, amended: FF at tick 5 on a freshly started log appends
05 FF 06 0C "Device Reset". -/
theorem device_reset_witness :
    (log_proc_byte (log_start fresh true) 5 0xFF).fileBytes
      = (log_start fresh true).fileBytes ++
          [0x05, 0xFF, 0x06, 0x0C, 0x44, 0x65, 0x76, 0x69, 0x63, 0x65, 0x20, 0x52, 0x65, 0x73,
           0x65, 0x74] := by
  rw [device_reset (log_start fresh true) (log_start fresh true).fileBytes 5 (by decide)
    (by decide) (by decide)]
  decide

/-- Counterexample to C8 as stated: on a freshly started log (sink open, at a
message boundary) the bytes written for FF are not the delta-time, FF 06, the
length 13 and the text; the text has 12 bytes and the length written is 12. -/
theorem device_reset_length_13_counterexample :
    (log_start fresh true).sinkOpen = true ∧
    (log_start fresh true).m_cmd_rem_bytes = 0 ∧
    (log_start fresh true).m_cmd_buf = [] ∧
    devResetStr.length = 12 ∧
    (log_proc_byte (log_start fresh true) 0 0xFF).fileBytes
      ≠ (log_start fresh true).fileBytes ++
          (varlen_bytes 0 ++ [0xFF, 0x06] ++ varlen_bytes 13 ++ devResetStr) ∧
    (log_proc_byte (log_start fresh true) 0 0xFF).fileBytes
      = (log_start fresh true).fileBytes ++
          (varlen_bytes 0 ++ [0xFF, 0x06] ++ varlen_bytes 12 ++ devResetStr) := by
  decide

/-! ## The 8 KB bound -/

theorem log_finish_comand_commits (s : Session) :
    (log_finish_comand s).commits =
      if s.m_cmd_buf = [] then s.commits
      else s.commits ++
        [{ delta := (s.m_event_tick + 2 ^ 32 - s.m_file_tick) % 2 ^ 32,
           tick := s.m_event_tick, msg := s.m_cmd_buf }] := by
  rw [log_finish_comand_eq]; split_ifs <;> rfl

theorem BufBounded.after_finish (s : Session) (hb : s.m_cmd_buf.length ≤ 0x2000)
    (hc : ∀ c ∈ s.commits, c.msg.length ≤ 0x2000) : BufBounded (log_finish_comand s) := by
  refine ⟨by simp, ?_⟩
  rw [log_finish_comand_commits]
  split_ifs
  · exact hc
  · intro c hmem
    rcases List.mem_append.mp hmem with h | h
    · exact hc c h
    · rw [List.mem_singleton.mp h]; exact hb

theorem BufBounded.after_new_command (s : Session) (tick data : Nat) (h : BufBounded s) :
    BufBounded (new_command s tick data) := h

theorem BufBounded.after_device_reset_event (s : Session) (h : BufBounded s) (hb : s.m_cmd_buf = []) :
    BufBounded (device_reset_event s) := by
  have h1 := BufBounded.after_finish { s with m_cmd_buf := s.m_cmd_buf ++ [0xFF, 0x06] }
    (by simp [hb]) h.2
  exact h1

theorem BufBounded.after_status_byte (s : Session) (tick data : Nat) (h : BufBounded s)
    (hb : s.m_cmd_buf = []) : BufBounded (status_byte s tick data) := by
  unfold Midiout.status_byte
  split_ifs
  · exact BufBounded.after_device_reset_event _ (h.after_new_command s tick data) hb
  · exact h.after_new_command s tick data
  · exact ⟨by simp [hb], h.2⟩

theorem BufBounded.after_push_byte (s : Session) (data : Nat) (h : BufBounded s) :
    BufBounded (push_byte s data) := by
  unfold Midiout.push_byte
  split_ifs with hc
  · exact BufBounded.after_finish _ (by have := h.1; simp; omega) h.2
  · exact ⟨by simp; omega, h.2⟩

theorem BufBounded.after_log_proc_byte (s : Session) (tick data : Nat) (h : BufBounded s) :
    BufBounded (log_proc_byte s tick data) := by
  by_cases ho : s.sinkOpen = true
  · have hF : ∀ x : Session, BufBounded x → BufBounded (log_finish_comand x) :=
      fun x hx => BufBounded.after_finish x (Nat.le_of_lt hx.1) hx.2
    rw [log_proc_byte_eq s tick data ho]
    unfold log_proc_byte_tree
    split_ifs
    · exact h.after_push_byte s data
    · exact BufBounded.after_finish _ (by have := h.1; simp; omega) h.2
    · exact BufBounded.after_status_byte _ tick data (hF _ h) (log_finish_comand_buf _)
    · exact h
    · exact h.after_push_byte s data
    · exact hF s h
    · exact BufBounded.after_device_reset_event _ ((hF s h).after_new_command _ tick data)
        (log_finish_comand_buf _)
    · exact (hF s h).after_new_command _ tick data
    · exact BufBounded.after_push_byte _ data ((hF s h).after_new_command _ tick data)
    · exact BufBounded.after_status_byte _ tick data (hF s h) (log_finish_comand_buf _)
  · rw [log_proc_byte_closed s tick data (by simpa using ho)]
    exact h

theorem BufBounded.after_log_start (s : Session) (opened : Bool) (stale : List Nat)
    (h : BufBounded s) : BufBounded (log_start s opened stale) := by
  unfold Midiout.log_start
  dsimp only
  split_ifs <;> exact h

theorem BufBounded.after_log_end (s : Session) (h : BufBounded s) : BufBounded (log_end s) := by
  unfold Midiout.log_end
  split_ifs
  · exact h
  · have h1 := BufBounded.after_finish s (Nat.le_of_lt h.1) h.2
    have h2 := BufBounded.after_finish
      { log_finish_comand s with m_cmd_buf := (log_finish_comand s).m_cmd_buf ++ [0xFF, 0x2F, 0x00] }
      (by simp) h1.2
    exact h2

theorem BufBounded.of_reachable (s : Session) (h : Reachable s) : BufBounded s := by
  induction h with
  | fresh => exact ⟨by decide, by simp [fresh]⟩
  | start s opened stale _ ih => exact ih.after_log_start s opened stale
  | byte s tick data _ _ ih => exact ih.after_log_proc_byte s tick data
  | finish s _ ih => exact ih.after_log_end s

theorem feed_sysex_open (s : Session) (bytes : List Nat) (t0 : Nat) (q : List (Nat × Nat))
    (hf : s.m_log_file = some (LogFile.atEnd bytes))
    (hrem : s.m_cmd_rem_bytes = 0) (hbuf : s.m_cmd_buf = [])
    (hq : ∀ x ∈ q, x.2 < 0x80) (hlen : q.length < 8191) :
    feed s ((t0, 0xF0) :: q) =
      { s with
        m_cur_status := 0xF0
        m_cmd_rem_bytes := 0xFFFFFFFF - q.length
        m_event_tick := t0 % 2 ^ 32
        m_cmd_buf := 0xF0 :: q.map Prod.snd } := by
  obtain ⟨lf, et, ft, last, cur, buf, rem, start, cs⟩ := s
  simp only at hf hrem hbuf
  subst hf hrem hbuf
  rw [feed_cons, step_status _ bytes t0 0xF0 rfl rfl rfl (by norm_num) (by norm_num)]
  simp only [Nat.lt_irrefl, if_false]
  rw [feed_sysex_data q _ (by simp [Session.sinkOpen, LogFile.atEnd]) (Or.inl rfl)
    (by simp; omega) (by simp; omega) hq]
  simp

/-- C10 (overflow cap): in every reachable state the command buffer holds at
most 8192 bytes, and no committed message was longer; a SysEx begun by F0 at a
message boundary and followed by data bytes with no terminator is not
committed while fewer than 8191 data bytes have arrived, and is committed on
the arrival of data byte 8191, when the buffer reaches 8192 bytes, written as
its delta-time, F0, the variable-length quantity 8191 and the 8191 bytes;
further bytes are decoded from the message boundary this leaves. -/
theorem overflow_cap (r : Session) (hr : Reachable r)
    (s : Session) (bytes : List Nat) (t0 : Nat) (p : List (Nat × Nat))
    (hf : s.m_log_file = some (LogFile.atEnd bytes))
    (hrem : s.m_cmd_rem_bytes = 0) (hbuf : s.m_cmd_buf = [])
    (hp : ∀ x ∈ p, x.2 < 0x80) (hlen : p.length = 8191) :
    (r.m_cmd_buf.length ≤ 8192 ∧ ∀ c ∈ r.commits, c.msg.length ≤ 8192) ∧
    (∀ k, k < 8191 →
      feed s ((t0, 0xF0) :: p.take k) =
        { s with
          m_cur_status := 0xF0
          m_cmd_rem_bytes := 0xFFFFFFFF - k
          m_event_tick := t0 % 2 ^ 32
          m_cmd_buf := 0xF0 :: (p.take k).map Prod.snd }) ∧
    feed s ((t0, 0xF0) :: p) =
      { s with
        m_log_file := some (LogFile.atEnd (bytes ++
          (varlen_bytes ((t0 % 2 ^ 32 + 2 ^ 32 - s.m_file_tick) % 2 ^ 32)
            ++ [0xF0] ++ varlen_bytes 8191 ++ p.map Prod.snd)))
        m_event_tick := t0 % 2 ^ 32
        m_file_tick := t0 % 2 ^ 32
        m_cur_status := 0xF0
        m_cmd_rem_bytes := 0
        m_cmd_buf := []
        commits := s.commits ++
          [{ delta := (t0 % 2 ^ 32 + 2 ^ 32 - s.m_file_tick) % 2 ^ 32, tick := t0 % 2 ^ 32,
             msg := 0xF0 :: p.map Prod.snd }] } ∧
    (∀ rest, feed s ((t0, 0xF0) :: p ++ rest) = feed (feed s ((t0, 0xF0) :: p)) rest) := by
  have hb := BufBounded.of_reachable r hr
  obtain ⟨lf, et, ft, last, cur, buf, rem, start, cs⟩ := s
  simp only at hf hrem hbuf
  subst hf hrem hbuf
  refine ⟨⟨Nat.le_of_lt hb.1, hb.2⟩, ?_, ?_, fun rest => ?_⟩
  · intro k hk
    rw [feed_sysex_open _ bytes t0 (p.take k) rfl rfl rfl
      (fun x hx => hp x (List.mem_of_mem_take hx)) (by simp; omega)]
    simp
    omega
  · have hne : p ≠ [] := by
      intro h; rw [h] at hlen; simp at hlen
    have hsplit : p = p.dropLast ++ [p.getLast hne] := (List.dropLast_append_getLast hne).symm
    have hq : (p.dropLast).length = 8190 := by simp [hlen]
    have hx : (p.getLast hne).2 < 0x80 := hp _ (List.getLast_mem hne)
    have hqd : ∀ x ∈ p.dropLast, x.2 < 0x80 := fun x hx => hp x (List.mem_of_mem_dropLast hx)
    have hmap : p.map Prod.snd = (p.dropLast).map Prod.snd ++ [(p.getLast hne).2] := by
      conv_lhs => rw [hsplit]
      simp
    rw [hmap]
    conv_lhs => rw [hsplit, ← List.cons_append, feed_append]
    rw [feed_sysex_open _ bytes t0 p.dropLast rfl rfl rfl hqd (by omega)]
    simp only [feed_cons, feed_nil]
    rw [step_push_commit _ bytes _ _ rfl (by simp; omega) (Or.inr (by simp; omega)) (by omega)
      (Or.inr ⟨Or.inl rfl, hx⟩)]
    simp only [List.cons_append]
    rw [event_bytes_sysex _ _ _ (Or.inl rfl)]
    have hmod : ((p.dropLast).map Prod.snd ++ [(p.getLast hne).2]).length % 2 ^ 32 = 8191 := by
      simp [hlen]
    rw [hmod]
    simp
  · rw [feed_append]

/-- Witness for C10: F0 followed by 8191 data bytes 01 on a freshly started log
is committed as one message of 8192 bytes, and not before the last byte. -/
theorem overflow_cap_witness :
    (feed (log_start fresh true) ((0, 0xF0) :: List.replicate 8191 (1, 0x01))).commits
      = [{ delta := 0, tick := 0, msg := 0xF0 :: List.replicate 8191 0x01 }] ∧
    (feed (log_start fresh true) ((0, 0xF0) :: (List.replicate 8191 (1, 0x01)).take 8190)).commits
      = [] := by
  have h := overflow_cap (log_start fresh true) (Reachable.start _ _ [] Reachable.fresh)
    (log_start fresh true) (log_start fresh true).fileBytes 0 (List.replicate 8191 (1, 0x01))
    (by decide) (by decide) (by decide)
    (fun x hx => by rw [(List.mem_replicate.mp hx).2]; decide) (List.length_replicate _ _)
  refine ⟨?_, ?_⟩
  · rw [h.2.2.1]
    show ([] : List Commit) ++ _ = _
    rw [List.map_replicate]
    rfl
  · rw [h.2.1 8190 (by norm_num)]
    rfl

/-! ## The file between `log_start` and `log_end` -/

theorem log_start_open (s : Session) :
    log_start s true =
      { s with m_log_file := some (LogFile.atEnd smf_header), m_mid_track_start_pos := 22 } := by
  simp [log_start, Session.sinkOpen, Session.fwrite, Session.fput, log_write_be32,
    log_write_be16, LogFile.write, LogFile.put, Session.tellp, LogFile.atEnd, smf_header,
    LOG_RESOLUTION]
  decide

theorem LogFile.put_overlay (w st : List Nat) (b : Nat) :
    LogFile.put { is_open := true, bytes := w ++ st.drop w.length, pos := w.length } b =
      { is_open := true, bytes := (w ++ [b]) ++ st.drop (w ++ [b]).length,
        pos := (w ++ [b]).length } := by
  simp [LogFile.put, List.drop_append_eq_append_drop, List.take_append_eq_append_take]

theorem LogFile.write_overlay (bs w st : List Nat) :
    LogFile.write { is_open := true, bytes := w ++ st.drop w.length, pos := w.length } bs =
      { is_open := true, bytes := (w ++ bs) ++ st.drop (w ++ bs).length,
        pos := (w ++ bs).length } := by
  induction bs generalizing w with
  | nil => simp [LogFile.write]
  | cons b bs ih =>
    have h := ih (w ++ [b])
    simp only [LogFile.write, List.foldl_cons] at h ⊢
    rw [LogFile.put_overlay, h]
    simp

/-- The header covers what the destroyed stream left in the file when that is
at most 22 bytes: the new log starts as on an empty file. -/
theorem log_start_stale (s : Session) (stale : List Nat) (hst : stale.length ≤ 22) :
    log_start s true stale = log_start s true := by
  rw [log_start_open]
  have h := LogFile.write_overlay smf_header [] stale
  simp only [List.nil_append, List.length_nil, List.drop_zero] at h
  have e : log_start s true stale =
      { s with m_log_file := some (LogFile.write { is_open := true, bytes := stale, pos := 0 }
                 smf_header),
               m_mid_track_start_pos :=
                 (LogFile.write { is_open := true, bytes := stale, pos := 0 } smf_header).pos
                   % 2 ^ 32 } := by
    have h6 : (6 : Nat) &&& 255 = 6 := by decide
    have h61 : (61 : Nat) &&& 255 = 61 := by decide
    have h9 : (15625 : Nat) &&& 255 = 9 := by decide
    simp [log_start, Session.sinkOpen, Session.fwrite, Session.fput, log_write_be32,
      log_write_be16, Session.tellp, LogFile.write, smf_header, LOG_RESOLUTION, h6, h61, h9]
  have hl : smf_header.length = 22 := rfl
  rw [e, h, hl, List.drop_eq_nil_of_le hst, List.append_nil]
  rfl

theorem Appends.refl (s : Session) : Appends s s :=
  ⟨rfl, fun bytes h => ⟨[], by simpa using h⟩⟩

theorem Appends.trans {s t u : Session} (h1 : Appends s t) (h2 : Appends t u) : Appends s u := by
  refine ⟨h2.1.trans h1.1, fun bytes h => ?_⟩
  obtain ⟨o1, ho1⟩ := h1.2 bytes h
  obtain ⟨o2, ho2⟩ := h2.2 _ ho1
  exact ⟨o1 ++ o2, by simpa using ho2⟩

theorem Appends.of_finish (s : Session) : Appends s (log_finish_comand s) := by
  refine ⟨by simp, fun bytes h => ?_⟩
  rw [log_finish_comand_eq]
  split_ifs
  · exact ⟨[], by simpa using h⟩
  · exact ⟨event_bytes ((s.m_event_tick + 2 ^ 32 - s.m_file_tick) % 2 ^ 32) s.m_cmd_buf,
      by simp only [h, Option.map_some', LogFile.write_atEnd]⟩

theorem Appends.of_frame (s t : Session) (hf : t.m_log_file = s.m_log_file)
    (hs : t.m_mid_track_start_pos = s.m_mid_track_start_pos) : Appends s t :=
  ⟨hs, fun bytes h => ⟨[], by rw [hf, h]; simp⟩⟩

theorem Appends.of_fwrite (s : Session) (bs : List Nat) : Appends s (s.fwrite bs) :=
  ⟨rfl, fun bytes h => ⟨bs, by rw [fwrite_atEnd s bytes bs h]⟩⟩

theorem Appends.of_device_reset_event (s : Session) : Appends s (device_reset_event s) := by
  unfold Midiout.device_reset_event log_write_varlen
  exact (Appends.of_frame s { s with m_cmd_buf := s.m_cmd_buf ++ [0xFF, 0x06] } rfl rfl).trans
    ((Appends.of_finish _).trans ((Appends.of_fwrite _ _).trans (Appends.of_fwrite _ _)))

theorem Appends.of_new_command (s : Session) (tick data : Nat) :
    Appends s (new_command s tick data) :=
  Appends.of_frame _ _ rfl rfl

theorem Appends.of_status_byte (s : Session) (tick data : Nat) :
    Appends s (status_byte s tick data) := by
  unfold Midiout.status_byte
  split_ifs
  · exact (Appends.of_new_command s tick data).trans (Appends.of_device_reset_event _)
  · exact Appends.of_new_command s tick data
  · exact Appends.of_frame _ _ rfl rfl

theorem Appends.of_push_byte (s : Session) (data : Nat) : Appends s (push_byte s data) := by
  unfold Midiout.push_byte
  split_ifs
  · exact (Appends.of_frame s
      { s with m_cmd_rem_bytes := 0, m_cmd_buf := s.m_cmd_buf ++ [data] } rfl rfl).trans
      (Appends.of_finish _)
  · exact Appends.of_frame _ _ rfl rfl

theorem Appends.of_log_proc_byte (s : Session) (tick data : Nat) :
    Appends s (log_proc_byte s tick data) := by
  by_cases ho : s.sinkOpen = true
  · rw [log_proc_byte_eq s tick data ho]
    unfold log_proc_byte_tree
    split_ifs
    · exact Appends.of_push_byte s data
    · exact (Appends.of_frame s
        { s with m_cmd_rem_bytes := 0, m_cmd_buf := s.m_cmd_buf ++ [data] } rfl rfl).trans
        (Appends.of_finish _)
    · exact (Appends.of_frame s { s with m_cmd_rem_bytes := 0 } rfl rfl).trans
        ((Appends.of_finish _).trans (Appends.of_status_byte _ tick data))
    · exact Appends.of_frame _ _ rfl rfl
    · exact Appends.of_push_byte s data
    · exact Appends.of_finish s
    · exact (Appends.of_finish s).trans
        ((Appends.of_new_command _ tick data).trans (Appends.of_device_reset_event _))
    · exact (Appends.of_finish s).trans (Appends.of_new_command _ tick data)
    · exact (Appends.of_finish s).trans
        ((Appends.of_new_command _ tick data).trans (Appends.of_push_byte _ data))
    · exact (Appends.of_finish s).trans (Appends.of_status_byte _ tick data)
  · rw [log_proc_byte_closed s tick data (by simpa using ho)]
    exact Appends.refl s

theorem Appends.of_feed (input : List (Nat × Nat)) (s : Session) : Appends s (feed s input) := by
  induction input generalizing s with
  | nil => exact Appends.refl s
  | cons x xs ih => exact (Appends.of_log_proc_byte s x.1 x.2).trans (ih _)

theorem Appends.of_log_end_unpatched (s : Session) : Appends s (log_end_unpatched s) := by
  unfold Midiout.log_end_unpatched
  exact (Appends.of_finish s).trans ((Appends.of_frame _
    { log_finish_comand s with
      m_cmd_buf := (log_finish_comand s).m_cmd_buf ++ [0xFF, 0x2F, 0x00] } rfl rfl).trans
    (Appends.of_finish _))

theorem LogFile.write_inside (bs B : List Nat) (p : Nat) (h : p + bs.length ≤ B.length) :
    ({ is_open := true, bytes := B, pos := p } : LogFile).write bs =
      { is_open := true, bytes := B.take p ++ bs ++ B.drop (p + bs.length),
        pos := p + bs.length } := by
  induction bs generalizing B p with
  | nil => simp [LogFile.write]
  | cons b bs ih =>
    simp only [List.length_cons] at h
    have hput : ({ is_open := true, bytes := B, pos := p } : LogFile).put b =
        { is_open := true, bytes := B.take p ++ [b] ++ B.drop (p + 1), pos := p + 1 } := by
      have h0 : p - B.length = 0 := by omega
      simp [LogFile.put, h0]
    have hw : ({ is_open := true, bytes := B, pos := p } : LogFile).write (b :: bs) =
        (({ is_open := true, bytes := B, pos := p } : LogFile).put b).write bs := rfl
    have hlt : (B.take p).length = p := by simp; omega
    rw [hw, hput, ih _ _ (by simp; omega)]
    have e1 : (B.take p ++ [b] ++ B.drop (p + 1)).take (p + 1) = B.take p ++ [b] := by
      rw [List.take_append_of_le_length (by simp; omega)]
      rw [List.take_of_length_le (by simp)]
    have e2 : (B.take p ++ [b] ++ B.drop (p + 1)).drop (p + 1 + bs.length)
        = B.drop (p + (bs.length + 1)) := by
      rw [List.drop_append_eq_append_drop]
      have hl : (B.take p ++ [b]).length = p + 1 := by simp; omega
      rw [List.drop_of_length_le (by rw [hl]; omega), hl]
      simp
      congr 1
      omega
    rw [e1, e2]
    simp
    omega

theorem land_0xFF (v : Nat) : v &&& 0xFF = v % 256 :=
  Nat.and_pow_two_sub_one_eq_mod v 8

theorem log_write_be32_eq (s : Session) (v : Nat) :
    log_write_be32 s v =
      s.fwrite [v / 2 ^ 24 % 256, v / 2 ^ 16 % 256, v / 2 ^ 8 % 256, v % 256] := by
  simp [log_write_be32, Session.fput, Session.fwrite, LogFile.write, land_0xFF,
    Nat.shiftRight_eq_div_pow, Option.map_map, Function.comp_def]

theorem be_decode_be32 (v : Nat) (h : v < 2 ^ 32) :
    be_decode [v / 2 ^ 24 % 256, v / 2 ^ 16 % 256, v / 2 ^ 8 % 256, v % 256] = v := by
  simp only [be_decode, List.foldl_cons, List.foldl_nil]
  omega

/-- The tail of `log_end`: the track size computed, the seek, the length
written and the stream closed. -/
theorem log_end_tail (U : Session) (B : List Nat)
    (hu : U.m_log_file = some (LogFile.atEnd B))
    (hs : U.m_mid_track_start_pos = 22) (hB : 22 ≤ B.length) :
    ({ log_write_be32
          { U with m_log_file := U.m_log_file.map fun f =>
              f.seekp ((U.m_mid_track_start_pos + 2 ^ 32 - 4) % 2 ^ 32) }
          ((U.tellp % 2 ^ 32 + 2 ^ 32 - U.m_mid_track_start_pos) % 2 ^ 32) with
       m_log_file := (log_write_be32
          { U with m_log_file := U.m_log_file.map fun f =>
              f.seekp ((U.m_mid_track_start_pos + 2 ^ 32 - 4) % 2 ^ 32) }
          ((U.tellp % 2 ^ 32 + 2 ^ 32 - U.m_mid_track_start_pos) % 2 ^ 32)).m_log_file.map
            LogFile.close } : Session) =
      { U with
        m_log_file := some
          { is_open := false
            bytes := B.take 18 ++
              [(B.length % 2 ^ 32 + 2 ^ 32 - 22) % 2 ^ 32 / 2 ^ 24 % 256,
               (B.length % 2 ^ 32 + 2 ^ 32 - 22) % 2 ^ 32 / 2 ^ 16 % 256,
               (B.length % 2 ^ 32 + 2 ^ 32 - 22) % 2 ^ 32 / 2 ^ 8 % 256,
               (B.length % 2 ^ 32 + 2 ^ 32 - 22) % 2 ^ 32 % 256] ++ B.drop 22
            pos := 22 } } := by
  obtain ⟨lf, et, ft, last, cur, buf, rem, start, cs⟩ := U
  simp only at hu hs
  subst hu hs
  simp only [Session.tellp, LogFile.atEnd, log_write_be32_eq, Session.fwrite,
    Option.map_some', LogFile.seekp, if_true]
  rw [show (22 + 2 ^ 32 - 4) % 2 ^ 32 = 18 by norm_num]
  rw [LogFile.write_inside _ _ _ (by simp; omega)]
  simp [LogFile.close]

theorem log_end_patch (s : Session) (B : List Nat) (ho : s.sinkOpen = true)
    (hu : (log_end_unpatched s).m_log_file = some (LogFile.atEnd B))
    (hs : s.m_mid_track_start_pos = 22) (hB : 22 ≤ B.length) :
    log_end s =
      { log_end_unpatched s with
        m_log_file := some
          { is_open := false
            bytes := B.take 18 ++
              [(B.length % 2 ^ 32 + 2 ^ 32 - 22) % 2 ^ 32 / 2 ^ 24 % 256,
               (B.length % 2 ^ 32 + 2 ^ 32 - 22) % 2 ^ 32 / 2 ^ 16 % 256,
               (B.length % 2 ^ 32 + 2 ^ 32 - 22) % 2 ^ 32 / 2 ^ 8 % 256,
               (B.length % 2 ^ 32 + 2 ^ 32 - 22) % 2 ^ 32 % 256] ++ B.drop 22
            pos := 22 } } := by
  have hs2 : (log_end_unpatched s).m_mid_track_start_pos = 22 := by
    rw [(Appends.of_log_end_unpatched s).1, hs]
  rw [← log_end_tail (log_end_unpatched s) B hu hs2 hB]
  simp [log_end, ho, log_end_unpatched]

/-- C6, amended (track-length round trip): when the stream destroyed by
`log_start` leaves at most the 22 bytes of a header in the file (`stale`: the
stream is absent or closed, or it has written its header and no event), for
every byte sequence fed between `log_start` and `log_end`, if the finished
file is shorter than 2^32 bytes, the four bytes at offsets 18..21, the four
bytes before `m_mid_track_start_pos = 22`, read as a big-endian number, give
the file length minus 22; and the patch changes no other byte: the finished
file has the length of the file before the seek, the same first 18 bytes and
the same bytes from offset 22 on. -/
theorem track_length_round_trip (s0 s : Session) (stale : List Nat) (input : List (Nat × Nat))
    (hst : stale.length ≤ 22)
    (hs : s = feed (log_start s0 true stale) input)
    (hsize : (log_end s).fileBytes.length < 2 ^ 32) :
    s.m_mid_track_start_pos = 22 ∧
    22 ≤ (log_end s).fileBytes.length ∧
    be_decode (((log_end s).fileBytes.drop 18).take 4) = (log_end s).fileBytes.length - 22 ∧
    (∀ b ∈ ((log_end s).fileBytes.drop 18).take 4, b < 256) ∧
    (log_end s).fileBytes.length = (log_end_unpatched s).fileBytes.length ∧
    (log_end s).fileBytes.take 18 = (log_end_unpatched s).fileBytes.take 18 ∧
    (log_end s).fileBytes.drop 22 = (log_end_unpatched s).fileBytes.drop 22 := by
  rw [log_start_stale s0 stale hst] at hs
  have h0 := log_start_open s0
  have hA : Appends (log_start s0 true) s := hs ▸ Appends.of_feed input _
  have hstart : s.m_mid_track_start_pos = 22 := by rw [hA.1, h0]
  obtain ⟨o1, ho1⟩ := hA.2 smf_header (by rw [h0])
  obtain ⟨o2, ho2⟩ := (Appends.of_log_end_unpatched s).2 _ ho1
  have hopen : s.sinkOpen = true := sinkOpen_atEnd s _ ho1
  have hB : 22 ≤ (smf_header ++ o1 ++ o2).length := by simp [smf_header]
  have hend := log_end_patch s _ hopen ho2 hstart hB
  have hpre : (log_end_unpatched s).fileBytes = smf_header ++ o1 ++ o2 := by
    simp [Session.fileBytes, ho2, LogFile.atEnd]
  rw [hend] at hsize ⊢
  rw [hpre]
  generalize smf_header ++ o1 ++ o2 = B at hB hsize ⊢
  simp only [Session.fileBytes] at hsize ⊢
  have hlen : (B.take 18 ++
      [(B.length % 2 ^ 32 + 2 ^ 32 - 22) % 2 ^ 32 / 2 ^ 24 % 256,
       (B.length % 2 ^ 32 + 2 ^ 32 - 22) % 2 ^ 32 / 2 ^ 16 % 256,
       (B.length % 2 ^ 32 + 2 ^ 32 - 22) % 2 ^ 32 / 2 ^ 8 % 256,
       (B.length % 2 ^ 32 + 2 ^ 32 - 22) % 2 ^ 32 % 256] ++ B.drop 22).length = B.length := by
    simp; omega
  rw [hlen] at hsize ⊢
  have htrk : (B.length % 2 ^ 32 + 2 ^ 32 - 22) % 2 ^ 32 = B.length - 22 := by omega
  have h18 : (B.take 18).length = 18 := by simp; omega
  refine ⟨hstart, hB, ?_, ?_, rfl, ?_, ?_⟩
  · rw [List.append_assoc, List.drop_append_of_le_length (by omega),
      List.drop_of_length_le (by omega), List.nil_append]
    simp only [List.cons_append, List.nil_append, List.take_succ_cons, List.take_zero]
    rw [htrk]
    exact be_decode_be32 _ (by omega)
  · rw [List.append_assoc, List.drop_append_of_le_length (by omega),
      List.drop_of_length_le (by omega), List.nil_append]
    simp only [List.cons_append, List.nil_append, List.take_succ_cons, List.take_zero]
    intro b hb
    simp only [List.mem_cons, List.mem_singleton, List.not_mem_nil, or_false] at hb
    rcases hb with h | h | h | h <;> rw [h] <;> exact Nat.mod_lt _ (by norm_num)
  · rw [List.append_assoc, List.take_append_of_le_length (by omega),
      List.take_of_length_le (by omega)]
  · rw [List.drop_append_eq_append_drop, List.drop_of_length_le (by simp)]
    simp [h18]

/-- Witness for C6: a log is started while a log that holds only its header is
open; after 90 3C 40 and close, the file is the header with the length field
00 00 00 08 followed by the 8 bytes of track data. -/
theorem track_length_round_trip_witness :
    (log_end (feed (log_start (log_start fresh true) true smf_header)
        [(0, 0x90), (1, 0x3C), (2, 0x40)])).fileBytes
      = [0x4D, 0x54, 0x68, 0x64, 0x00, 0x00, 0x00, 0x06, 0x00, 0x00, 0x00, 0x01, 0x3D, 0x09,
         0x4D, 0x54, 0x72, 0x6B, 0x00, 0x00, 0x00, 0x08,
         0x00, 0x90, 0x3C, 0x40, 0x00, 0xFF, 0x2F, 0x00] ∧
    be_decode (((log_end (feed (log_start (log_start fresh true) true smf_header)
        [(0, 0x90), (1, 0x3C), (2, 0x40)])).fileBytes.drop 18).take 4)
      = (log_end (feed (log_start (log_start fresh true) true smf_header)
          [(0, 0x90), (1, 0x3C), (2, 0x40)])).fileBytes.length - 22 :=
  ⟨by decide,
   (track_length_round_trip (log_start fresh true) _ smf_header
      [(0, 0x90), (1, 0x3C), (2, 0x40)] (by decide) rfl (by decide)).2.2.1⟩

/-! ## Time stamps and delta-times -/

theorem last_stamp_append (prev : Nat) (xs ys : List Commit) :
    last_stamp prev (xs ++ ys) = last_stamp (last_stamp prev xs) ys := by
  induction xs generalizing prev with
  | nil => rfl
  | cons c cs ih => simp [last_stamp, ih]

theorem deltas_ok_append (prev : Nat) (xs ys : List Commit) :
    deltas_ok prev (xs ++ ys) ↔ deltas_ok prev xs ∧ deltas_ok (last_stamp prev xs) ys := by
  induction xs generalizing prev with
  | nil => simp [deltas_ok, last_stamp]
  | cons c cs ih => simp [deltas_ok, last_stamp, ih, and_assoc]

theorem log_finish_comand_ne_nil (s : Session) (hne : s.m_cmd_buf ≠ []) :
    log_finish_comand s =
      { s with
        m_log_file := s.m_log_file.map fun f => f.write
          (event_bytes ((s.m_event_tick + 2 ^ 32 - s.m_file_tick) % 2 ^ 32) s.m_cmd_buf)
        m_file_tick := s.m_event_tick
        m_cmd_buf := []
        commits := s.commits ++
          [{ delta := (s.m_event_tick + 2 ^ 32 - s.m_file_tick) % 2 ^ 32,
             tick := s.m_event_tick, msg := s.m_cmd_buf }] } := by
  rw [log_finish_comand_eq, if_neg hne]

/-- A commit made with `m_file_tick ≤ m_event_tick < 2^32` extends a history
with exact deltas by one more exact delta. -/
theorem deltas_ok_commit (cs : List Commit) (et ft : Nat) (msg : List Nat)
    (hc : deltas_ok 0 cs) (hf : ft = last_stamp 0 cs) (hle : ft ≤ et) (hlt : et < 2 ^ 32) :
    deltas_ok 0 (cs ++ [{ delta := (et + 2 ^ 32 - ft) % 2 ^ 32, tick := et, msg := msg }]) ∧
    et = last_stamp 0 (cs ++ [{ delta := (et + 2 ^ 32 - ft) % 2 ^ 32, tick := et, msg := msg }]) := by
  refine ⟨(deltas_ok_append 0 cs _).2 ⟨hc, ?_⟩, by simp [last_stamp_append, last_stamp]⟩
  rw [← hf]
  simp only [deltas_ok, and_true]
  exact ⟨hle, by omega⟩

theorem TickInv.mono {s : Session} {T : Nat} (t : Nat) (h : TickInv s T) (hT : T ≤ t)
    (ht : t < 2 ^ 32) : TickInv s t :=
  { h with bound := ht, event_le := Nat.le_trans h.event_le hT }

/-- The state is unchanged apart from `m_cmd_rem_bytes`: no commit, no stamp
touched. -/
theorem StampStep.idle (s s' : Session) (t : Nat) (hc : s'.commits = s.commits)
    (he : s'.m_event_tick = s.m_event_tick) (hb : s'.m_cmd_buf = s.m_cmd_buf) :
    StampStep s t s' [] :=
  { commits_eq := by simp [hc]
    inflight := fun _ => ⟨by simp, fun _ => ⟨he, by simp [hb]⟩⟩
    later := fun _ => by simp
    fresh_msg := fun _ => by simp
    started := fun h1 h2 => by
      rcases h2 with h2 | h2
      · exact absurd (hb ▸ h2) h1
      · exact absurd rfl h2 }

theorem tick_skip (s : Session) (T t : Nat) (h : TickInv s T) (hT : T ≤ t) (ht : t < 2 ^ 32)
    (hx : ¬ (s.m_cur_status = 0xF0 ∨ s.m_cur_status = 0xF7)) (hc : s.m_cur_status ≥ 0xF1) :
    StampStep s t { s with m_cmd_rem_bytes := s.m_cmd_rem_bytes - 1 } [] ∧
    TickInv { s with m_cmd_rem_bytes := s.m_cmd_rem_bytes - 1 } t := by
  refine ⟨StampStep.idle _ _ _ rfl rfl rfl, ?_⟩
  have hm := h.mono t hT ht
  refine { hm with shape := ?_ }
  have hbuf : s.m_cmd_buf = [] := by
    rcases h.shape with h1 | ⟨_, _, h1⟩ | h1
    · exact h1.2
    · omega
    · exact h1.2.1
  by_cases h0 : s.m_cmd_rem_bytes - 1 = 0
  · exact Or.inl ⟨h0, hbuf⟩
  · exact Or.inr (Or.inr ⟨h0, hbuf, hc, fun h7 => hx (Or.inr h7)⟩)

theorem tick_unknown (s : Session) (T t : Nat) (h : TickInv s T) (hT : T ≤ t)
    (ht : t < 2 ^ 32) (hrem : s.m_cmd_rem_bytes = 0) :
    StampStep s t (log_finish_comand s) [] ∧ TickInv (log_finish_comand s) t := by
  have hbuf : s.m_cmd_buf = [] := by
    rcases h.shape with h1 | h1 | h1
    · exact h1.2
    · exact absurd hrem h1.1
    · exact h1.2.1
  rw [log_finish_comand_nil s hbuf]
  exact ⟨StampStep.idle _ _ _ rfl rfl rfl, h.mono t hT ht⟩

/-- A commit of a non-empty buffer in a state with no wrap pending. -/
theorem tick_commit (x : Session) (T : Nat) (hne : x.m_cmd_buf ≠ [])
    (hs : x.sinkOpen = true) (hb : T < 2 ^ 32)
    (hle : x.m_file_tick ≤ x.m_event_tick) (hev : x.m_event_tick ≤ T)
    (hch : deltas_ok 0 x.commits) (hfe : x.m_file_tick = last_stamp 0 x.commits)
    (hrem : x.m_cmd_rem_bytes = 0) :
    (log_finish_comand x).commits = x.commits ++
      [{ delta := (x.m_event_tick + 2 ^ 32 - x.m_file_tick) % 2 ^ 32,
         tick := x.m_event_tick, msg := x.m_cmd_buf }] ∧
    TickInv (log_finish_comand x) T := by
  have hc := deltas_ok_commit x.commits x.m_event_tick x.m_file_tick x.m_cmd_buf hch hfe hle
    (by omega)
  have hcm : (log_finish_comand x).commits = x.commits ++
      [{ delta := (x.m_event_tick + 2 ^ 32 - x.m_file_tick) % 2 ^ 32,
         tick := x.m_event_tick, msg := x.m_cmd_buf }] := by
    rw [log_finish_comand_commits, if_neg hne]
  refine ⟨hcm, ?_⟩
  exact
    { sink := by rw [log_finish_comand_sinkOpen]; exact hs
      bound := hb
      file_le := by rw [log_finish_comand_ne_nil x hne]
      event_le := by rw [log_finish_comand_event_tick]; exact hev
      chain := by rw [hcm]; exact hc.1
      file_eq := by
        rw [hcm, ← hc.2, log_finish_comand_ne_nil x hne]
      shape := Or.inl ⟨by rw [log_finish_comand_rem]; exact hrem, log_finish_comand_buf x⟩ }

/-- The path `push_byte` from a state with no wrap pending: either the byte is
just appended, or the buffer with the byte is committed under the stamp the
state had. -/
theorem tick_push (x : Session) (d T : Nat) (hs : x.sinkOpen = true) (hb : T < 2 ^ 32)
    (hle : x.m_file_tick ≤ x.m_event_tick) (hev : x.m_event_tick ≤ T)
    (hch : deltas_ok 0 x.commits) (hfe : x.m_file_tick = last_stamp 0 x.commits)
    (hcur : x.m_cur_status < 0xF1 ∨ x.m_cur_status = 0xF7) :
    TickInv (push_byte x d) T ∧
    (((push_byte x d).commits = x.commits ∧ (push_byte x d).m_event_tick = x.m_event_tick ∧
        (push_byte x d).m_cmd_buf = x.m_cmd_buf ++ [d]) ∨
     ((push_byte x d).commits = x.commits ++
        [{ delta := (x.m_event_tick + 2 ^ 32 - x.m_file_tick) % 2 ^ 32,
           tick := x.m_event_tick, msg := x.m_cmd_buf ++ [d] }] ∧
        (push_byte x d).m_cmd_buf = [])) := by
  unfold push_byte
  split_ifs with hc
  · have h := tick_commit { x with m_cmd_rem_bytes := 0, m_cmd_buf := x.m_cmd_buf ++ [d] } T
      (by simp) hs hb hle hev hch hfe rfl
    exact ⟨h.2, Or.inr ⟨h.1, log_finish_comand_buf _⟩⟩
  · refine ⟨?_, Or.inl ⟨rfl, rfl, rfl⟩⟩
    exact
      { sink := hs, bound := hb, file_le := hle, event_le := hev, chain := hch, file_eq := hfe
        shape := Or.inr (Or.inl ⟨by simp only []; omega, by simp, hcur⟩) }

@[simp] theorem fwrite_sinkOpen (s : Session) (bs : List Nat) :
    (s.fwrite bs).sinkOpen = s.sinkOpen := by
  cases h : s.m_log_file <;> simp [Session.fwrite, Session.sinkOpen, h, LogFile.write_is_open]

theorem new_command_reset_rem (x : Session) (t : Nat) :
    (new_command x t 0xFF).m_cmd_rem_bytes = 0 := by
  simp [new_command]
  decide

/-- The path `device_reset_event` from a state with an empty buffer and no
wrap pending: one commit, stamped with the state's `m_event_tick`. -/
theorem tick_reset (y : Session) (T : Nat) (hs : y.sinkOpen = true) (hb : T < 2 ^ 32)
    (hbuf : y.m_cmd_buf = [])
    (hle : y.m_file_tick ≤ y.m_event_tick) (hev : y.m_event_tick ≤ T)
    (hch : deltas_ok 0 y.commits) (hfe : y.m_file_tick = last_stamp 0 y.commits)
    (hrem : y.m_cmd_rem_bytes = 0) :
    TickInv (device_reset_event y) T ∧
    (device_reset_event y).commits = y.commits ++
      [{ delta := (y.m_event_tick + 2 ^ 32 - y.m_file_tick) % 2 ^ 32,
         tick := y.m_event_tick, msg := [0xFF, 0x06] }] ∧
    (device_reset_event y).m_cmd_buf = [] := by
  have h := tick_commit { y with m_cmd_buf := y.m_cmd_buf ++ [0xFF, 0x06] } T
    (by simp) hs hb hle hev hch hfe hrem
  have hi := h.2
  refine ⟨?_, ?_, log_finish_comand_buf _⟩
  · exact
      { sink := by
          simp only [device_reset_event, log_write_varlen, fwrite_sinkOpen]
          exact hi.sink
        bound := hb
        file_le := hi.file_le
        event_le := hi.event_le
        chain := hi.chain
        file_eq := hi.file_eq
        shape := hi.shape }
  · have := h.1
    simp only [hbuf, List.nil_append] at this
    simp only [device_reset_event, log_write_varlen, Session.fwrite, hbuf, List.nil_append]
    exact this

/-- The path `status_byte` from a state with an empty buffer and no wrap
pending: every commit it makes, and the message it leaves in flight, is
stamped with the tick of this byte. -/
theorem tick_status (x : Session) (t d : Nat) (hs : x.sinkOpen = true) (ht : t < 2 ^ 32)
    (hbuf : x.m_cmd_buf = []) (hd : d &&& 0x80 ≠ 0)
    (hle : x.m_file_tick ≤ x.m_event_tick) (hev : x.m_event_tick ≤ t)
    (hch : deltas_ok 0 x.commits) (hfe : x.m_file_tick = last_stamp 0 x.commits) :
    TickInv (status_byte x t d) t ∧
    ∃ new, (status_byte x t d).commits = x.commits ++ new ∧ (∀ c ∈ new, c.tick = t) ∧
      ((status_byte x t d).m_cmd_buf ≠ [] → (status_byte x t d).m_event_tick = t) := by
  have hmod : t % 2 ^ 32 = t := Nat.mod_eq_of_lt ht
  have het : (new_command x t d).m_event_tick = t := hmod
  have hft : (new_command x t d).m_file_tick = x.m_file_tick := rfl
  unfold status_byte
  split_ifs with hff hdis
  · -- device reset
    subst hff
    have h := tick_reset (new_command x t 0xFF) t hs ht hbuf (by rw [het, hft]; omega)
      (by rw [het]) hch hfe (new_command_reset_rem x t)
    refine ⟨h.1, _, h.2.1, ?_, fun hne => absurd h.2.2 hne⟩
    intro c hc
    rw [List.mem_singleton.mp hc]
    exact het
  · -- discarded system message
    refine ⟨?_, [], by simp [new_command], by simp, fun hne => absurd hbuf hne⟩
    exact
      { sink := hs, bound := ht
        file_le := by rw [het, hft]; omega
        event_le := by rw [het]
        chain := hch, file_eq := hfe
        shape := by
          by_cases h0 : (new_command x t d).m_cmd_rem_bytes = 0
          · exact Or.inl ⟨h0, hbuf⟩
          · refine Or.inr (Or.inr ⟨h0, hbuf, ?_, ?_⟩)
            · simp only [new_command, hd, if_false]; exact hdis.1
            · simp only [new_command, hd, if_false]; exact hdis.2 }
  · -- a new command
    refine ⟨?_, [], by simp [new_command], by simp, fun _ => het⟩
    exact
      { sink := hs, bound := ht
        file_le := by show (new_command x t d).m_file_tick ≤ (new_command x t d).m_event_tick
                      rw [het, hft]; omega
        event_le := by show (new_command x t d).m_event_tick ≤ t
                       rw [het]
        chain := hch, file_eq := hfe
        shape := by
          refine Or.inr (Or.inl ⟨?_, by simp, ?_⟩)
          · simp only [new_command, hd, if_false]
            split_ifs with h240
            · exact cmd_size_ne_zero d
            · have h7 : d = 0xF0 ∨ d = 0xF7 := by omega
              rcases h7 with h7 | h7 <;> rw [h7] <;> decide
          · simp only [new_command, hd, if_false]
            omega }

theorem TickInv.buf_nil {s : Session} {T : Nat} (h : TickInv s T)
    (hrem : s.m_cmd_rem_bytes = 0) : s.m_cmd_buf = [] := by
  rcases h.shape with h1 | h1 | h1
  · exact h1.2
  · exact absurd hrem h1.1
  · exact h1.2.1

theorem TickInv.buf_ne_nil {s : Session} {T : Nat} (h : TickInv s T)
    (hrem : s.m_cmd_rem_bytes ≠ 0) (hc : s.m_cur_status < 0xF1 ∨ s.m_cur_status = 0xF7) :
    s.m_cmd_buf ≠ [] ∧ (s.m_cur_status < 0xF1 ∨ s.m_cur_status = 0xF7) := by
  rcases h.shape with h1 | h1 | ⟨_, _, h1, h2⟩
  · exact absurd h1.1 hrem
  · exact ⟨h1.2.1, hc⟩
  · omega

/-- A later byte of a message in flight that goes down the path `push_byte`. -/
theorem tick_step_push (s : Session) (T t d : Nat) (h : TickInv s T) (hT : T ≤ t)
    (ht : t < 2 ^ 32) (hrem : s.m_cmd_rem_bytes ≠ 0)
    (hc : s.m_cur_status < 0xF1 ∨ s.m_cur_status = 0xF7) :
    ∃ new, StampStep s t (push_byte s d) new ∧ TickInv (push_byte s d) t := by
  obtain ⟨hne, hcur⟩ := h.buf_ne_nil hrem hc
  obtain ⟨hi, hp | hp⟩ := tick_push s d t h.sink ht h.file_le (Nat.le_trans h.event_le hT)
    h.chain h.file_eq hcur
  · refine ⟨[], ?_, hi⟩
    exact
      { commits_eq := by simp [hp.1]
        inflight := fun _ => ⟨by simp, fun _ => ⟨hp.2.1, by simp [hp.2.2]⟩⟩
        later := fun _ => by simp
        fresh_msg := fun _ => by simp
        started := fun _ h2 => by
          rcases h2 with h2 | h2
          · exact absurd h2 hne
          · exact absurd rfl h2 }
  · refine ⟨[⟨(s.m_event_tick + 2 ^ 32 - s.m_file_tick) % 2 ^ 32, s.m_event_tick,
      s.m_cmd_buf ++ [d]⟩], ?_, hi⟩
    exact
      { commits_eq := hp.1
        inflight := fun _ => ⟨fun c hc => by
          simp only [List.head?_cons, Option.some.injEq] at hc
          subst hc
          exact ⟨rfl, by simp⟩, fun h0 => by simp at h0⟩
        later := fun _ => by simp
        fresh_msg := fun h0 => absurd h0 hne
        started := fun h1 _ => absurd hp.2 h1 }

/-- The terminator F7 of a SysEx in flight. -/
theorem tick_step_term (s : Session) (T t d : Nat) (h : TickInv s T) (hT : T ≤ t)
    (ht : t < 2 ^ 32) (hrem : s.m_cmd_rem_bytes ≠ 0)
    (hc : s.m_cur_status = 0xF0 ∨ s.m_cur_status = 0xF7) :
    ∃ new, StampStep s t
        (log_finish_comand { s with m_cmd_rem_bytes := 0, m_cmd_buf := s.m_cmd_buf ++ [d] }) new ∧
      TickInv
        (log_finish_comand { s with m_cmd_rem_bytes := 0, m_cmd_buf := s.m_cmd_buf ++ [d] }) t := by
  obtain ⟨hne, _⟩ := h.buf_ne_nil hrem (by omega)
  have hk := tick_commit { s with m_cmd_rem_bytes := 0, m_cmd_buf := s.m_cmd_buf ++ [d] } t
    (by simp) h.sink ht h.file_le (Nat.le_trans h.event_le hT) h.chain h.file_eq rfl
  refine ⟨[⟨(s.m_event_tick + 2 ^ 32 - s.m_file_tick) % 2 ^ 32, s.m_event_tick,
    s.m_cmd_buf ++ [d]⟩], ?_, hk.2⟩
  exact
    { commits_eq := hk.1
      inflight := fun _ => ⟨fun c hc => by
        simp only [List.head?_cons, Option.some.injEq] at hc
        subst hc
        exact ⟨rfl, by simp⟩, fun h0 => by simp at h0⟩
      later := fun _ => by simp
      fresh_msg := fun h0 => absurd h0 hne
      started := fun h1 _ => absurd (log_finish_comand_buf _) h1 }

/-- A status byte that aborts a SysEx in flight: the SysEx is committed under
its own stamp, what the byte starts is stamped with the byte's tick. -/
theorem tick_step_abort (s : Session) (T t d : Nat) (h : TickInv s T) (hT : T ≤ t)
    (ht : t < 2 ^ 32) (hrem : s.m_cmd_rem_bytes ≠ 0)
    (hc : s.m_cur_status = 0xF0 ∨ s.m_cur_status = 0xF7) (hd : d &&& 0x80 ≠ 0) :
    ∃ new, StampStep s t
        (status_byte (log_finish_comand { s with m_cmd_rem_bytes := 0 }) t d) new ∧
      TickInv (status_byte (log_finish_comand { s with m_cmd_rem_bytes := 0 }) t d) t := by
  obtain ⟨hne, _⟩ := h.buf_ne_nil hrem (by omega)
  have hk := tick_commit { s with m_cmd_rem_bytes := 0 } t hne h.sink ht h.file_le
    (Nat.le_trans h.event_le hT) h.chain h.file_eq rfl
  have hi := hk.2
  obtain ⟨hi2, new, hcm, hall, hst⟩ := tick_status
    (log_finish_comand { s with m_cmd_rem_bytes := 0 }) t d hi.sink ht
    (log_finish_comand_buf _) hd hi.file_le hi.event_le hi.chain hi.file_eq
  refine ⟨⟨(s.m_event_tick + 2 ^ 32 - s.m_file_tick) % 2 ^ 32, s.m_event_tick,
    s.m_cmd_buf⟩ :: new, ?_, hi2⟩
  exact
    { commits_eq := by rw [hcm, hk.1]; simp
      inflight := fun _ => ⟨fun c hc => by
        simp only [List.head?_cons, Option.some.injEq] at hc
        subst hc
        exact ⟨rfl, by simp⟩, fun h0 => by simp at h0⟩
      later := fun _ => by simpa using hall
      fresh_msg := fun h0 => absurd h0 hne
      started := fun h1 _ => hst h1 }

/-- A byte arriving when no message is in flight: all that it commits or
starts is stamped with its tick. -/
theorem StampStep.of_fresh (s s' : Session) (t : Nat) (new : List Commit)
    (hbuf : s.m_cmd_buf = []) (hc : s'.commits = s.commits ++ new)
    (hall : ∀ c ∈ new, c.tick = t) (hst : s'.m_cmd_buf ≠ [] → s'.m_event_tick = t) :
    StampStep s t s' new :=
  { commits_eq := hc
    inflight := fun h => absurd hbuf h
    later := fun h => absurd hbuf h
    fresh_msg := fun _ => hall
    started := fun h1 _ => hst h1 }

/-- A byte at a message boundary without bit 7, under the status `m_last_status`. -/
theorem tick_step_running (s : Session) (T t d : Nat) (h : TickInv s T) (hT : T ≤ t)
    (ht : t < 2 ^ 32) (hbuf : s.m_cmd_buf = []) (hd : d &&& 0x80 = 0) :
    (s.m_last_status = 0xFF →
      ∃ new, StampStep s t (device_reset_event (new_command s t d)) new ∧
        TickInv (device_reset_event (new_command s t d)) t) ∧
    (s.m_last_status ≥ 0xF1 ∧ s.m_last_status ≠ 0xF7 →
      ∃ new, StampStep s t (new_command s t d) new ∧ TickInv (new_command s t d) t) ∧
    (¬ (s.m_last_status ≥ 0xF1 ∧ s.m_last_status ≠ 0xF7) →
      ∃ new, StampStep s t (push_byte (new_command s t d) d) new ∧
        TickInv (push_byte (new_command s t d) d) t) := by
  have hmod : t % 2 ^ 32 = t := Nat.mod_eq_of_lt ht
  have het : (new_command s t d).m_event_tick = t := hmod
  have hft : (new_command s t d).m_file_tick = s.m_file_tick := rfl
  have hcur : (new_command s t d).m_cur_status = s.m_last_status := by simp [new_command, hd]
  have hle : (new_command s t d).m_file_tick ≤ (new_command s t d).m_event_tick := by
    rw [het, hft]; exact Nat.le_trans h.file_le (Nat.le_trans h.event_le hT)
  have hev : (new_command s t d).m_event_tick ≤ t := by rw [het]
  refine ⟨fun hff => ?_, fun hdis => ?_, fun hdis => ?_⟩
  · have hr : (new_command s t d).m_cmd_rem_bytes = 0 := by
      simp only [new_command, hd, if_true, hff]
      decide
    have hk := tick_reset (new_command s t d) t h.sink ht hbuf hle hev h.chain h.file_eq hr
    refine ⟨_, StampStep.of_fresh s _ t _ hbuf hk.2.1 ?_ (fun hne => absurd hk.2.2 hne), hk.1⟩
    intro c hc
    rw [List.mem_singleton.mp hc]
    exact het
  · refine ⟨[], StampStep.of_fresh s _ t [] hbuf (by simp [new_command]) (by simp)
      (fun hne => absurd hbuf hne), ?_⟩
    exact
      { sink := h.sink, bound := ht, file_le := hle, event_le := hev
        chain := h.chain, file_eq := h.file_eq
        shape := by
          by_cases h0 : (new_command s t d).m_cmd_rem_bytes = 0
          · exact Or.inl ⟨h0, hbuf⟩
          · exact Or.inr (Or.inr ⟨h0, hbuf, by rw [hcur]; exact hdis.1, by rw [hcur]; exact hdis.2⟩) }
  · obtain ⟨hi, hp | hp⟩ := tick_push (new_command s t d) d t h.sink ht hle hev h.chain h.file_eq
      (by rw [hcur]; omega)
    · refine ⟨[], StampStep.of_fresh s _ t [] hbuf (by simpa using hp.1) (by simp)
        (fun _ => hp.2.1.trans het), hi⟩
    · refine ⟨_, StampStep.of_fresh s _ t _ hbuf hp.1 ?_ (fun hne => absurd hp.2 hne), hi⟩
      intro c hc
      rw [List.mem_singleton.mp hc]
      exact het

/-- One byte: from a state in which the invariant `TickInv` holds for the
ticks sampled so far, a byte arriving at a tick `t` that is not earlier and
below 2^32 is processed with the stamps treated as `StampStep` says, and the
invariant holds again. -/
theorem tick_step (s : Session) (T t d : Nat) (h : TickInv s T) (hT : T ≤ t)
    (ht : t < 2 ^ 32) :
    ∃ new, StampStep s t (log_proc_byte s t d) new ∧ TickInv (log_proc_byte s t d) t := by
  rw [log_proc_byte_eq s t d h.sink]
  unfold log_proc_byte_tree
  split_ifs with hrem hx hd hd7 hc hd hl hlf hl1
  · exact tick_step_push s T t d h hT ht hrem (by omega)
  · exact tick_step_term s T t d h hT ht hrem hx
  · exact tick_step_abort s T t d h hT ht hrem hx hd
  · exact ⟨[], tick_skip s T t h hT ht hx hc⟩
  · exact tick_step_push s T t d h hT ht hrem (by omega)
  · exact ⟨[], tick_unknown s T t h hT ht (by simpa using hrem)⟩
  · have hbuf := h.buf_nil (by simpa using hrem)
    rw [log_finish_comand_nil s hbuf]
    exact (tick_step_running s T t d h hT ht hbuf hd).1 hlf
  · have hbuf := h.buf_nil (by simpa using hrem)
    rw [log_finish_comand_nil s hbuf]
    exact (tick_step_running s T t d h hT ht hbuf hd).2.1 hl1
  · have hbuf := h.buf_nil (by simpa using hrem)
    rw [log_finish_comand_nil s hbuf]
    exact (tick_step_running s T t d h hT ht hbuf hd).2.2 hl1
  · have hbuf := h.buf_nil (by simpa using hrem)
    rw [log_finish_comand_nil s hbuf]
    obtain ⟨hi, new, hcm, hall, hst⟩ := tick_status s t d h.sink ht hbuf hd h.file_le
      (Nat.le_trans h.event_le hT) h.chain h.file_eq
    exact ⟨new, StampStep.of_fresh s _ t new hbuf hcm hall hst, hi⟩

theorem TickInv.at_start : TickInv (log_start fresh true) 0 := by
  rw [log_start_open]
  exact
    { sink := rfl, bound := by norm_num, file_le := Nat.le_refl _, event_le := Nat.le_refl _
      chain := trivial, file_eq := rfl, shape := Or.inl ⟨rfl, rfl⟩ }

theorem tick_feed (input : List (Nat × Nat)) (s : Session) (T : Nat) (h : TickInv s T)
    (hp : List.Pairwise (· ≤ ·) (input.map Prod.fst)) (hT : ∀ x ∈ input, T ≤ x.1)
    (hlt : ∀ x ∈ input, x.1 < 2 ^ 32) :
    ∃ U, TickInv (feed s input) U ∧ ∀ t, (∀ x ∈ input, x.1 ≤ t) → T ≤ t → U ≤ t := by
  induction input generalizing s T with
  | nil => exact ⟨T, h, fun t _ ht => ht⟩
  | cons x xs ih =>
    simp only [List.map_cons, List.pairwise_cons, List.mem_map, forall_exists_index, and_imp,
      forall_apply_eq_imp_iff₂] at hp
    obtain ⟨new, _, hi⟩ := tick_step s T x.1 x.2 h (hT x (by simp)) (hlt x (by simp))
    obtain ⟨U, hU, hUle⟩ := ih (log_proc_byte s x.1 x.2) x.1 hi hp.2
      (fun y hy => hp.1 y hy) (fun y hy => hlt y (by simp [hy]))
    exact ⟨U, hU, fun t ht _ => hUle t (fun y hy => ht y (by simp [hy])) (ht x (by simp))⟩


/-- While a message stays in flight, with nothing committed, the later bytes
leave `m_event_tick` as it is. -/
theorem inflight_keeps_stamp (mid : List (Nat × Nat)) (s : Session) (T : Nat)
    (h : TickInv s T)
    (hp : List.Pairwise (· ≤ ·) (mid.map Prod.fst)) (hT : ∀ x ∈ mid, T ≤ x.1)
    (hlt : ∀ x ∈ mid, x.1 < 2 ^ 32)
    (hfl : ∀ k, k ≤ mid.length →
      (feed s (mid.take k)).m_cmd_buf ≠ [] ∧ (feed s (mid.take k)).commits = s.commits) :
    (feed s mid).m_event_tick = s.m_event_tick := by
  induction mid generalizing s T with
  | nil => rfl
  | cons x xs ih =>
    simp only [List.map_cons, List.pairwise_cons, List.mem_map, forall_exists_index, and_imp,
      forall_apply_eq_imp_iff₂] at hp
    have h0 := hfl 0 (Nat.zero_le _)
    have h1 := hfl 1 (by simp)
    simp only [List.take_zero, feed_nil, List.take_succ_cons, feed_cons] at h0 h1
    obtain ⟨new, hst, hi⟩ := tick_step s T x.1 x.2 h (hT x (by simp)) (hlt x (by simp))
    have hnew : new = [] := by
      have := hst.commits_eq
      rw [h1.2] at this
      simpa using this
    have hev := ((hst.inflight h0.1).2 hnew).1
    rw [feed_cons, ih (log_proc_byte s x.1 x.2) x.1 hi hp.2 (fun y hy => hp.1 y hy)
      (fun y hy => hlt y (by simp [hy])) ?_, hev]
    intro k hk
    have := hfl (k + 1) (by simp; omega)
    simp only [List.take_succ_cons, feed_cons] at this
    exact ⟨this.1, this.2.trans h1.2.symm⟩

/-- What `log_end` leaves of the decoder fields when no buffer is pending. -/
theorem log_end_idle (s : Session) (ho : s.sinkOpen = true) (hbuf : s.m_cmd_buf = []) :
    (log_end s).m_event_tick = s.m_event_tick ∧
    (log_end s).m_file_tick = s.m_event_tick ∧
    (log_end s).commits = s.commits ++
      [{ delta := (s.m_event_tick + 2 ^ 32 - s.m_file_tick) % 2 ^ 32, tick := s.m_event_tick,
         msg := [0xFF, 0x2F, 0x00] }] ∧
    (log_end s).m_cmd_rem_bytes = s.m_cmd_rem_bytes ∧
    (log_end s).m_cur_status = s.m_cur_status ∧
    (log_end s).m_cmd_buf = [] := by
  simp only [log_end, ho, Bool.not_true, Bool.false_eq_true, if_false]
  rw [log_finish_comand_nil s hbuf, log_finish_comand_ne_nil _ (by simp)]
  simp [log_write_be32, Session.fput, hbuf]

/-- A log started after a log that was closed between messages, or while the
data bytes of a discarded system message were skipped, starts as the first
one does. -/
theorem TickInv.next_log {s : Session} {T : Nat} (h : TickInv s T)
    (hb : s.m_cmd_rem_bytes = 0 ∨ (0xF1 ≤ s.m_cur_status ∧ s.m_cur_status ≠ 0xF7)) :
    TickInv (log_start (log_end s) true) T := by
  have hbuf : s.m_cmd_buf = [] := by
    rcases h.shape with h1 | h1 | h1
    · exact h1.2
    · rcases hb with hb | hb
      · exact absurd hb h1.1
      · omega
    · exact h1.2.1
  obtain ⟨e1, e2, e3, e4, e5, e6⟩ := log_end_idle s h.sink hbuf
  have hc := deltas_ok_commit s.commits s.m_event_tick s.m_file_tick [0xFF, 0x2F, 0x00] h.chain
    h.file_eq h.file_le (Nat.lt_of_le_of_lt h.event_le h.bound)
  rw [log_start_open]
  exact
    { sink := rfl
      bound := h.bound
      file_le := by show (log_end s).m_file_tick ≤ (log_end s).m_event_tick; rw [e1, e2]
      event_le := by show (log_end s).m_event_tick ≤ T; rw [e1]; exact h.event_le
      chain := by show deltas_ok 0 (log_end s).commits; rw [e3]; exact hc.1
      file_eq := by
        show (log_end s).m_file_tick = last_stamp 0 (log_end s).commits
        rw [e2, e3]; exact hc.2
      shape := by
        show ((log_end s).m_cmd_rem_bytes = 0 ∧ (log_end s).m_cmd_buf = []) ∨
          ((log_end s).m_cmd_rem_bytes ≠ 0 ∧ (log_end s).m_cmd_buf ≠ [] ∧
            ((log_end s).m_cur_status < 0xF1 ∨ (log_end s).m_cur_status = 0xF7)) ∨
          ((log_end s).m_cmd_rem_bytes ≠ 0 ∧ (log_end s).m_cmd_buf = [] ∧
            0xF1 ≤ (log_end s).m_cur_status ∧ (log_end s).m_cur_status ≠ 0xF7)
        rw [e4, e5, e6]
        rcases h.shape with h1 | h1 | h1
        · exact Or.inl ⟨h1.1, rfl⟩
        · exact absurd hbuf h1.2.1
        · exact Or.inr (Or.inr ⟨h1.1, rfl, h1.2.2⟩) }

theorem parse_track_succ (fuel r : Nat) (e : Bool) (l : List Nat) (h : l ≠ []) :
    parse_track (fuel + 1) r e l =
      match read_varlen l with
      | none => false
      | some (_, rest) =>
        match parse_event r rest with
        | none => false
        | some (r', e', rest2) => parse_track fuel r' e' rest2 := by
  cases l with
  | nil => exact absurd rfl h
  | cons b bs => rfl

theorem varlen_bytes_ne_nil (v : Nat) : varlen_bytes v ≠ [] := by
  rw [varlen_bytes_eq]; simp

theorem ReadsThrough.nil (r : Nat) : ReadsThrough r r [] :=
  fun fuel e rest h => ⟨fuel, e, by simpa using h, rfl⟩

theorem ReadsThrough.append {r r' r'' : Nat} {o1 o2 : List Nat}
    (h1 : ReadsThrough r r' o1) (h2 : ReadsThrough r' r'' o2) :
    ReadsThrough r r'' (o1 ++ o2) := by
  intro fuel e rest h
  obtain ⟨f1, e1, hf1, hp1⟩ := h1 fuel e (o2 ++ rest) (by simpa [List.append_assoc] using h)
  obtain ⟨f2, e2, hf2, hp2⟩ := h2 f1 e1 rest hf1
  exact ⟨f2, e2, hf2, by rw [List.append_assoc, hp1, hp2]⟩

theorem parse_event_voice (r st : Nat) (d rest : List Nat) (h1 : 0x80 ≤ st) (h2 : st < 0xF0)
    (hn : d.length = voice_size st) (hd : ∀ b ∈ d, b < 0x80) :
    parse_event r (st :: d ++ rest) = some (st, false, rest) := by
  have hff : st ≠ 0xFF := by omega
  have hx : ¬ (st = 0xF0 ∨ st = 0xF7) := by omega
  have hall : (List.take (voice_size st) (d ++ rest)).all (· < 0x80) = true := by
    rw [← hn, List.take_left]
    simpa using hd
  simp only [parse_event, List.cons_append, hff, hx, h1, h2, and_self, if_true, if_false,
    hall, List.length_append, and_true]
  rw [if_pos (by omega), ← hn, List.drop_left]

theorem cmd_size_eq_voice_size (st : Nat) (h1 : 0x80 ≤ st) (h2 : st < 0xF0) :
    MIDI_CMD_SIZE.getD ((st >>> 4) &&& 0x07) 0 = voice_size st := by
  have key : ∀ x : Fin 256, 0x80 ≤ x.val → x.val < 0xF0 →
      MIDI_CMD_SIZE.getD ((x.val >>> 4) &&& 0x07) 0 = voice_size x.val := by decide
  exact key ⟨st, by omega⟩ h1 h2

theorem voice_size_cases (st : Nat) : voice_size st = 1 ∨ voice_size st = 2 := by
  unfold voice_size
  split_ifs <;> simp

theorem varlen_bytes_zero : varlen_bytes 0 = [0] := by decide

/-- What `log_end` has appended when it reaches its `seekp`: the pending
buffer, if any, and End of Track. -/
theorem log_end_unpatched_file (s : Session) (B : List Nat)
    (hf : s.m_log_file = some (LogFile.atEnd B)) :
    ∃ d1 d2, d1 < 2 ^ 32 ∧ d2 < 2 ^ 32 ∧
      (log_end_unpatched s).m_log_file = some (LogFile.atEnd
        (B ++ (if s.m_cmd_buf = [] then [] else event_bytes d1 s.m_cmd_buf)
          ++ (varlen_bytes d2 ++ [0xFF, 0x2F, 0x00]))) := by
  have heot : ∀ dl, event_bytes dl [0xFF, 0x2F, 0x00] = varlen_bytes dl ++ [0xFF, 0x2F, 0x00] :=
    fun dl => event_bytes_plain dl _ (by simp)
  unfold log_end_unpatched
  by_cases hb : s.m_cmd_buf = []
  · refine ⟨0, (s.m_event_tick + 2 ^ 32 - s.m_file_tick) % 2 ^ 32, by norm_num,
      Nat.mod_lt _ (by norm_num), ?_⟩
    simp only [log_finish_comand_nil s hb, hb, if_true, List.append_nil, List.nil_append]
    rw [log_finish_comand_atEnd { s with m_cmd_buf := [0xFF, 0x2F, 0x00] } B hf (by simp), heot]
  · refine ⟨(s.m_event_tick + 2 ^ 32 - s.m_file_tick) % 2 ^ 32,
      (s.m_event_tick + 2 ^ 32 - s.m_event_tick) % 2 ^ 32, Nat.mod_lt _ (by norm_num),
      Nat.mod_lt _ (by norm_num), ?_⟩
    rw [log_finish_comand_atEnd s B hf hb]
    simp only [if_neg hb, List.nil_append]
    rw [log_finish_comand_atEnd _ _ rfl (by simp), heot]

/-! ## Opening and closing the log -/

theorem log_end_sinkOpen (s : Session) : (log_end s).sinkOpen = false := by
  unfold Midiout.log_end
  split_ifs with h
  · simpa using h
  · simp only [Session.sinkOpen]
    generalize (log_write_be32 _ _).m_log_file = o
    cases o <;> simp [LogFile.close]

theorem log_end_closed (s : Session) (ho : s.sinkOpen = false) : log_end s = s := by
  simp [log_end, ho]

theorem log_start_failed (s : Session) (stale : List Nat) :
    log_start s false stale =
      { s with m_log_file := some { is_open := false, bytes := stale, pos := 0 } } := by
  simp [log_start, Session.sinkOpen]

/-- While the sink is open the stream is at the end of a file that starts with
the header, and the track data starts at offset 22. -/
theorem orderly_open (s : Session) (h : Orderly s) (ho : s.sinkOpen = true) :
    ∃ out, s.m_log_file = some (LogFile.atEnd (smf_header ++ out)) ∧
      s.m_mid_track_start_pos = 22 := by
  induction h with
  | fresh => simp [fresh, Session.sinkOpen] at ho
  | start s opened stale hst _ _ =>
    cases opened with
    | true =>
      rw [log_start_stale s stale hst]
      exact ⟨[], by rw [log_start_open]; simp, by rw [log_start_open]⟩
    | false => rw [log_start_failed] at ho; simp [Session.sinkOpen] at ho
  | byte s tick data _ _ ih =>
    by_cases hs : s.sinkOpen = true
    · obtain ⟨out, hf, hst⟩ := ih hs
      obtain ⟨h1, h2⟩ := Appends.of_log_proc_byte s tick data
      obtain ⟨o2, hf2⟩ := h2 _ hf
      exact ⟨out ++ o2, by rw [hf2, List.append_assoc], by rw [h1, hst]⟩
    · rw [log_proc_byte_closed s tick data (by simpa using hs)] at ho
      exact absurd ho hs
  | finish s _ _ => rw [log_end_sinkOpen] at ho; exact absurd ho (by decide)

theorem fileBytes_atEnd (s : Session) (B : List Nat)
    (hf : s.m_log_file = some (LogFile.atEnd B)) : s.fileBytes = B := by
  simp [Session.fileBytes, hf, LogFile.atEnd]

/-- Function `log_end` up to its `seekp`, on a stream at the end of its file:
End of Track is committed after the pending buffer. -/
theorem log_end_unpatched_eq (s : Session) (B : List Nat)
    (hf : s.m_log_file = some (LogFile.atEnd B)) :
    log_end_unpatched s =
      { log_finish_comand s with
        m_log_file := some (LogFile.atEnd ((log_finish_comand s).fileBytes ++
          (varlen_bytes ((s.m_event_tick + 2 ^ 32 - (log_finish_comand s).m_file_tick) % 2 ^ 32)
            ++ [0xFF, 0x2F, 0x00])))
        m_file_tick := s.m_event_tick
        m_cmd_buf := []
        commits := (log_finish_comand s).commits ++
          [{ delta := (s.m_event_tick + 2 ^ 32 - (log_finish_comand s).m_file_tick) % 2 ^ 32,
             tick := s.m_event_tick, msg := [0xFF, 0x2F, 0x00] }] } := by
  obtain ⟨out, hf2⟩ := (Appends.of_finish s).2 B hf
  unfold log_end_unpatched
  rw [log_finish_comand_atEnd
    { log_finish_comand s with
      m_cmd_buf := (log_finish_comand s).m_cmd_buf ++ [0xFF, 0x2F, 0x00] } (B ++ out) hf2 (by simp)]
  simp only [log_finish_comand_buf, List.nil_append, log_finish_comand_event_tick,
    fileBytes_atEnd _ _ hf2]
  rw [event_bytes_plain _ _ (by simp)]

theorem log_finish_comand_file_tick (s : Session) :
    (log_finish_comand s).m_file_tick = if s.m_cmd_buf = [] then s.m_file_tick else s.m_event_tick := by
  rw [log_finish_comand_eq]; split_ifs <;> rfl

theorem patched_drop (B : List Nat) (a b c d : Nat) (hB : 22 ≤ B.length) :
    (B.take 18 ++ [a, b, c, d] ++ B.drop 22).drop 22 = B.drop 22 := by
  rw [List.drop_append_of_le_length (by simp; omega)]
  have : (B.take 18 ++ [a, b, c, d]).length = 22 := by simp; omega
  rw [List.drop_of_length_le (by omega), List.nil_append]

theorem patched_take (B : List Nat) (a b c d : Nat) (hB : 22 ≤ B.length) :
    (B.take 18 ++ [a, b, c, d] ++ B.drop 22).take 18 = B.take 18 := by
  rw [List.append_assoc, List.take_append_of_le_length (by simp; omega)]
  rw [List.take_take]; simp

theorem patched_length (B : List Nat) (a b c d : Nat) (hB : 22 ≤ B.length) :
    (B.take 18 ++ [a, b, c, d] ++ B.drop 22).length = B.length := by
  simp; omega

/-- The finished file: what `log_end` leaves when the stream was at the end of
a file of at least 22 bytes and the track data starts at offset 22. -/
theorem log_end_eq (s : Session) (B : List Nat) (ho : s.sinkOpen = true)
    (hf : s.m_log_file = some (LogFile.atEnd B)) (hs : s.m_mid_track_start_pos = 22)
    (hB : 22 ≤ B.length) :
    ∃ a b c d, log_end s =
      { log_end_unpatched s with
        m_log_file := some
          { is_open := false
            bytes := (log_end_unpatched s).fileBytes.take 18 ++ [a, b, c, d] ++
              (log_end_unpatched s).fileBytes.drop 22
            pos := 22 } } ∧ 22 ≤ (log_end_unpatched s).fileBytes.length := by
  obtain ⟨out, hu⟩ := (Appends.of_log_end_unpatched s).2 B hf
  rw [log_end_patch s (B ++ out) ho hu hs (by simp; omega), fileBytes_atEnd _ _ hu]
  exact ⟨_, _, _, _, rfl, by simp; omega⟩

theorem Orderly.reachable {s : Session} (h : Orderly s) : Reachable s := by
  induction h with
  | fresh => exact Reachable.fresh
  | start s opened stale _ _ ih => exact Reachable.start s opened stale ih
  | byte s tick data hd _ ih => exact Reachable.byte s tick data hd ih
  | finish s _ ih => exact Reachable.finish s ih

/-- C11, amended (close finalisation): in every state with the sink open that
is reached when the stream destroyed by `log_start` never leaves more than the
22 bytes of a header in the file (`Orderly`: the stream is absent or closed, or
it has written its header and no event), `log_end` commits the pending command buffer exactly as `log_finish_comand`
does and then commits End of Track through the same path: the history grows
by one more commit, of FF 2F 00 under the event tick, whose delta-time is 0
when a pending message was flushed (and the usual difference when none was);
the track data of the finished file is the track data after the flush
followed by that delta-time and FF 2F 00, so the last three bytes of the file
are FF 2F 00; the first 18 bytes are untouched; the buffer is empty and the
sink is closed on return. -/
theorem log_end_finalisation (s : Session) (hr : Orderly s) (ho : s.sinkOpen = true) :
    ∃ delta,
      (s.m_cmd_buf ≠ [] → delta = 0) ∧
      (s.m_cmd_buf = [] → delta = (s.m_event_tick + 2 ^ 32 - s.m_file_tick) % 2 ^ 32) ∧
      (log_end s).commits = (log_finish_comand s).commits ++
        [{ delta := delta, tick := s.m_event_tick, msg := [0xFF, 0x2F, 0x00] }] ∧
      (log_end s).fileBytes.drop 22 =
        (log_finish_comand s).fileBytes.drop 22 ++ (varlen_bytes delta ++ [0xFF, 0x2F, 0x00]) ∧
      (log_end s).fileBytes.take 18 = s.fileBytes.take 18 ∧
      (log_end s).fileBytes.length =
        (log_finish_comand s).fileBytes.length + (varlen_bytes delta).length + 3 ∧
      (log_end s).fileBytes.drop ((log_end s).fileBytes.length - 3) = [0xFF, 0x2F, 0x00] ∧
      (log_end s).m_cmd_buf = [] ∧ (log_end s).m_file_tick = s.m_event_tick ∧
      (log_end s).sinkOpen = false := by
  obtain ⟨out, hf, hst⟩ := orderly_open s hr ho
  obtain ⟨o2, hf2⟩ := (Appends.of_finish s).2 _ hf
  have hlen : 22 ≤ (smf_header ++ out).length := by simp [smf_header]
  obtain ⟨a, b, c, d, he, hB⟩ := log_end_eq s _ ho hf hst hlen
  have hF : (log_finish_comand s).fileBytes = smf_header ++ out ++ o2 := fileBytes_atEnd _ _ hf2
  have hU := log_end_unpatched_eq s _ hf
  have hUb : (log_end_unpatched s).fileBytes = (log_finish_comand s).fileBytes ++
      (varlen_bytes ((s.m_event_tick + 2 ^ 32 - (log_finish_comand s).m_file_tick) % 2 ^ 32)
        ++ [0xFF, 0x2F, 0x00]) := by
    rw [hU]; rfl
  have hEb : (log_end s).fileBytes = (log_end_unpatched s).fileBytes.take 18 ++ [a, b, c, d] ++
      (log_end_unpatched s).fileBytes.drop 22 := by
    rw [he]; rfl
  have hF22 : 22 ≤ (log_finish_comand s).fileBytes.length := by rw [hF]; simp [smf_header]
  refine ⟨(s.m_event_tick + 2 ^ 32 - (log_finish_comand s).m_file_tick) % 2 ^ 32,
    ?_, ?_, ?_, ?_, ?_, ?_, ?_, ?_, ?_, log_end_sinkOpen s⟩
  · intro hne
    rw [log_finish_comand_file_tick, if_neg hne]
    rw [show s.m_event_tick + 2 ^ 32 - s.m_event_tick = 2 ^ 32 by omega]
    norm_num
  · intro hnil
    rw [log_finish_comand_file_tick, if_pos hnil]
  · rw [he, hU]
  · rw [hEb, patched_drop _ a b c d hB, hUb, List.drop_append_of_le_length hF22]
  · rw [hEb, patched_take _ a b c d hB, hUb, List.take_append_of_le_length (by omega), hF,
      fileBytes_atEnd _ _ hf, List.append_assoc, List.take_append_of_le_length (by simp [smf_header]),
      List.take_append_of_le_length (by simp [smf_header])]
  · rw [hEb, patched_length _ a b c d hB, hUb]; simp; omega
  · have hsplit : (log_end s).fileBytes =
        ((log_end_unpatched s).fileBytes.take 18 ++ [a, b, c, d] ++
          ((log_finish_comand s).fileBytes.drop 22 ++
            varlen_bytes ((s.m_event_tick + 2 ^ 32 - (log_finish_comand s).m_file_tick) % 2 ^ 32)))
          ++ [0xFF, 0x2F, 0x00] := by
      rw [hEb]
      nth_rewrite 2 [hUb]
      rw [List.drop_append_of_le_length hF22]
      simp only [List.append_assoc]
    rw [hsplit]
    exact List.drop_left' (by simp only [List.length_append, List.length_cons, List.length_nil]; omega)
  · rw [he, hU]
  · rw [he, hU]

/-- Witness for C11: 90 3C is pending when the log is closed; it is flushed
under its tick 5 and End of Track follows with delta-time 0. -/
theorem log_end_finalisation_witness :
    (log_end (feed (log_start fresh true) [(5, 0x90), (6, 0x3C)])).fileBytes
      = [0x4D, 0x54, 0x68, 0x64, 0x00, 0x00, 0x00, 0x06, 0x00, 0x00, 0x00, 0x01, 0x3D, 0x09,
         0x4D, 0x54, 0x72, 0x6B, 0x00, 0x00, 0x00, 0x07,
         0x05, 0x90, 0x3C, 0x00, 0xFF, 0x2F, 0x00] ∧
    (log_end (feed (log_start fresh true) [(5, 0x90), (6, 0x3C)])).commits
      = (log_finish_comand (feed (log_start fresh true) [(5, 0x90), (6, 0x3C)])).commits ++
          [{ delta := 0, tick := 5, msg := [0xFF, 0x2F, 0x00] }] ∧
    (log_end (feed (log_start fresh true) [(5, 0x90), (6, 0x3C)])).sinkOpen = false := by
  obtain ⟨delta, h0, _, hc, _, _, _, _, _, _, hclosed⟩ :=
    log_end_finalisation (feed (log_start fresh true) [(5, 0x90), (6, 0x3C)])
      (Orderly.byte _ 6 0x3C (by decide)
        (Orderly.byte _ 5 0x90 (by decide) (Orderly.start fresh true [] (by decide) Orderly.fresh)))
      (by decide)
  refine ⟨by decide, ?_, hclosed⟩
  rw [hc, h0 (by decide)]
  rfl

/-- C12, amended (header is bit-exact): after a successful `log_start`, when
the stream it destroys leaves at most the 22 bytes of a header in the file
(`stale`: the stream is absent or closed, or it has written its header and no
event), the file is exactly the 22 bytes "MThd", 00 00 00 06, 00 00, 00 01,
3D 09 (15625 = 31250 / 2), "MTrk", 00 00 00 00, the sink is open and
`m_mid_track_start_pos` is 22; whatever bytes are logged afterwards, the first
18 bytes are the same while logging and in the finished file. -/
theorem header_bit_exact (s0 : Session) (stale : List Nat) (input : List (Nat × Nat))
    (hst : stale.length ≤ 22) :
    (log_start s0 true stale).fileBytes =
      [0x4D, 0x54, 0x68, 0x64, 0x00, 0x00, 0x00, 0x06, 0x00, 0x00, 0x00, 0x01, 0x3D, 0x09,
       0x4D, 0x54, 0x72, 0x6B, 0x00, 0x00, 0x00, 0x00] ∧
    (log_start s0 true stale).m_mid_track_start_pos = 22 ∧
    (log_start s0 true stale).sinkOpen = true ∧
    LOG_RESOLUTION / 2 = 15625 ∧ 0x3D * 256 + 0x09 = LOG_RESOLUTION / 2 ∧
    (feed (log_start s0 true stale) input).fileBytes.take 18 =
      [0x4D, 0x54, 0x68, 0x64, 0x00, 0x00, 0x00, 0x06, 0x00, 0x00, 0x00, 0x01, 0x3D, 0x09,
       0x4D, 0x54, 0x72, 0x6B] ∧
    (log_end (feed (log_start s0 true stale) input)).fileBytes.take 18 =
      [0x4D, 0x54, 0x68, 0x64, 0x00, 0x00, 0x00, 0x06, 0x00, 0x00, 0x00, 0x01, 0x3D, 0x09,
       0x4D, 0x54, 0x72, 0x6B] := by
  rw [log_start_stale s0 stale hst]
  have hst : (log_start s0 true).m_mid_track_start_pos = 22 := by rw [log_start_open]
  have h0 : (log_start s0 true).m_log_file = some (LogFile.atEnd smf_header) := by
    rw [log_start_open]
  obtain ⟨hs1, hA⟩ := Appends.of_feed input (log_start s0 true)
  obtain ⟨out, hf⟩ := hA _ h0
  have ho : (feed (log_start s0 true) input).sinkOpen = true := sinkOpen_atEnd _ _ hf
  obtain ⟨o2, hu⟩ := (Appends.of_log_end_unpatched _).2 _ hf
  obtain ⟨a, b, c, d, he, hB⟩ := log_end_eq _ _ ho hf (by rw [hs1, hst]) (by simp [smf_header])
  refine ⟨by rw [fileBytes_atEnd _ _ h0]; rfl, hst, sinkOpen_atEnd _ _ h0, by decide, by decide,
    ?_, ?_⟩
  · rw [fileBytes_atEnd _ _ hf, List.take_append_of_le_length (by simp [smf_header])]
    rfl
  · have hEb : (log_end (feed (log_start s0 true) input)).fileBytes =
        (log_end_unpatched (feed (log_start s0 true) input)).fileBytes.take 18 ++ [a, b, c, d] ++
          (log_end_unpatched (feed (log_start s0 true) input)).fileBytes.drop 22 := by
      rw [he]; rfl
    rw [hEb, patched_take _ a b c d hB, fileBytes_atEnd _ _ hu, List.append_assoc,
      List.take_append_of_le_length (by simp [smf_header])]
    rfl

/-- Witness for C12: a log started while a log that holds only its header is
open, and the bytes 90 3C 40. -/
theorem header_bit_exact_witness :
    (log_start (log_start fresh true) true smf_header).fileBytes =
      [0x4D, 0x54, 0x68, 0x64, 0x00, 0x00, 0x00, 0x06, 0x00, 0x00, 0x00, 0x01, 0x3D, 0x09,
       0x4D, 0x54, 0x72, 0x6B, 0x00, 0x00, 0x00, 0x00] ∧
    (log_end (feed (log_start (log_start fresh true) true smf_header)
      [(0, 0x90), (1, 0x3C), (2, 0x40)])).fileBytes.take 18 =
      [0x4D, 0x54, 0x68, 0x64, 0x00, 0x00, 0x00, 0x06, 0x00, 0x00, 0x00, 0x01, 0x3D, 0x09,
       0x4D, 0x54, 0x72, 0x6B] :=
  ⟨(header_bit_exact (log_start fresh true) smf_header [(0, 0x90), (1, 0x3C), (2, 0x40)]
      (by decide)).1,
   (header_bit_exact (log_start fresh true) smf_header [(0, 0x90), (1, 0x3C), (2, 0x40)]
      (by decide)).2.2.2.2.2.2⟩

/-- Counterexample to C12 as stated: `log_start` is called while a log holding
the notes 90 3C 40 and 91 3E 50 is still open, and the stream destroyed by the
assignment flushes its 30 bytes into the file; after the new header is written
the file has 30 bytes, not 22. -/
theorem header_stale_counterexample :
    (feed (log_start fresh true)
      [(0, 0x90), (0, 0x3C), (0, 0x40), (7, 0x91), (7, 0x3E), (7, 0x50)]).sinkOpen = true ∧
    (log_start (feed (log_start fresh true)
        [(0, 0x90), (0, 0x3C), (0, 0x40), (7, 0x91), (7, 0x3E), (7, 0x50)]) true
      (feed (log_start fresh true)
        [(0, 0x90), (0, 0x3C), (0, 0x40), (7, 0x91), (7, 0x3E), (7, 0x50)]).fileBytes).fileBytes
    = [0x4D, 0x54, 0x68, 0x64, 0x00, 0x00, 0x00, 0x06, 0x00, 0x00, 0x00, 0x01, 0x3D, 0x09,
       0x4D, 0x54, 0x72, 0x6B, 0x00, 0x00, 0x00, 0x00,
       0x00, 0x90, 0x3C, 0x40, 0x07, 0x91, 0x3E, 0x50] := by
  decide

/-- Counterexample to C11 as stated: `log_start` is called while a log holding
the notes 90 3C 40 and 91 3E 50 is still open, and the stream destroyed by the
assignment flushes its 30 bytes into the file.  The sink is open; `log_end`
writes End of Track at offset 22 and the finished file ends in the stale bytes
07 91 3E 50, not in FF 2F 00. -/
theorem log_end_stale_counterexample :
    (log_start (feed (log_start fresh true)
        [(0, 0x90), (0, 0x3C), (0, 0x40), (7, 0x91), (7, 0x3E), (7, 0x50)]) true
      (feed (log_start fresh true)
        [(0, 0x90), (0, 0x3C), (0, 0x40), (7, 0x91), (7, 0x3E), (7, 0x50)]).fileBytes).sinkOpen
      = true ∧
    (log_end (log_start (feed (log_start fresh true)
        [(0, 0x90), (0, 0x3C), (0, 0x40), (7, 0x91), (7, 0x3E), (7, 0x50)]) true
      (feed (log_start fresh true)
        [(0, 0x90), (0, 0x3C), (0, 0x40), (7, 0x91), (7, 0x3E), (7, 0x50)]).fileBytes)).fileBytes
    = [0x4D, 0x54, 0x68, 0x64, 0x00, 0x00, 0x00, 0x06, 0x00, 0x00, 0x00, 0x01, 0x3D, 0x09,
       0x4D, 0x54, 0x72, 0x6B, 0x00, 0x00, 0x00, 0x04,
       0x00, 0xFF, 0x2F, 0x00, 0x07, 0x91, 0x3E, 0x50] ∧
    ((log_end (log_start (feed (log_start fresh true)
        [(0, 0x90), (0, 0x3C), (0, 0x40), (7, 0x91), (7, 0x3E), (7, 0x50)]) true
      (feed (log_start fresh true)
        [(0, 0x90), (0, 0x3C), (0, 0x40), (7, 0x91), (7, 0x3E), (7, 0x50)]).fileBytes)).fileBytes.drop
        27) = [0x91, 0x3E, 0x50] := by
  decide

/-- Counterexample to C6 as stated: `log_start` is called while a log holding
the notes 90 3C 40 and 91 3E 50 is still open, and the stream destroyed by the
assignment flushes its 30 bytes into the file.  No byte is fed; after `log_end`
the file has 30 bytes, 8 of them after offset 22, and the length field reads
4. -/
theorem track_length_stale_counterexample :
    (log_end (feed (log_start (feed (log_start fresh true)
        [(0, 0x90), (0, 0x3C), (0, 0x40), (7, 0x91), (7, 0x3E), (7, 0x50)]) true
      (feed (log_start fresh true)
        [(0, 0x90), (0, 0x3C), (0, 0x40), (7, 0x91), (7, 0x3E), (7, 0x50)]).fileBytes)
      [])).fileBytes.length = 30 ∧
    be_decode (((log_end (feed (log_start (feed (log_start fresh true)
        [(0, 0x90), (0, 0x3C), (0, 0x40), (7, 0x91), (7, 0x3E), (7, 0x50)]) true
      (feed (log_start fresh true)
        [(0, 0x90), (0, 0x3C), (0, 0x40), (7, 0x91), (7, 0x3E), (7, 0x50)]).fileBytes)
      [])).fileBytes.drop 18).take 4) = 4 := by
  decide

/-- C13 (idempotent close): for every state, a second `log_end` changes
nothing: the state after two calls is the state after one, so the file bytes,
the decoder fields and the history of commits are the same; no second End of
Track is appended and the length field is not written again. -/
theorem log_end_idempotent (s : Session) :
    log_end (log_end s) = log_end s ∧
    (log_end (log_end s)).fileBytes = (log_end s).fileBytes ∧
    (log_end (log_end s)).commits = (log_end s).commits ∧
    (log_end s).sinkOpen = false := by
  have h := log_end_closed (log_end s) (log_end_sinkOpen s)
  exact ⟨h, by rw [h], by rw [h], log_end_sinkOpen s⟩

theorem feed_closed (input : List (Nat × Nat)) (s : Session) (ho : s.sinkOpen = false) :
    feed s input = s := by
  induction input with
  | nil => rfl
  | cons x xs ih => rw [feed_cons, log_proc_byte_closed s x.1 x.2 ho, ih]

/-- C14 (sink unavailable): whenever the sink is not open, `log_proc_byte`
returns the state it was given, for every byte and every sequence of bytes:
the file, `m_cmd_buf`, `m_cmd_rem_bytes`, `m_cur_status`, `m_last_status`,
`m_event_tick` and `m_file_tick` are unchanged.  The sink is not open on the
fresh device (never opened), after a `log_start` that could not open the
file, and after `log_end`. -/
theorem sink_unavailable (s s0 : Session) (tick data : Nat) (input : List (Nat × Nat))
    (ho : s.sinkOpen = false) :
    log_proc_byte s tick data = s ∧ feed s input = s ∧
    fresh.sinkOpen = false ∧ (log_start s0 false).sinkOpen = false ∧
    (log_end s0).sinkOpen = false ∧
    feed fresh input = fresh ∧ feed (log_start s0 false) input = log_start s0 false ∧
    feed (log_end s0) input = log_end s0 := by
  have h1 : fresh.sinkOpen = false := rfl
  have h2 : (log_start s0 false).sinkOpen = false := by rw [log_start_failed]; rfl
  exact ⟨log_proc_byte_closed s tick data ho, feed_closed input s ho, h1, h2, log_end_sinkOpen s0,
    feed_closed input _ h1, feed_closed input _ h2, feed_closed input _ (log_end_sinkOpen s0)⟩

/-- Witness for C14: after a log was closed, the bytes 90 3C 40 change nothing. -/
theorem sink_unavailable_witness :
    feed (log_end (log_start fresh true)) [(0, 0x90), (1, 0x3C), (2, 0x40)] =
      log_end (log_start fresh true) :=
  (sink_unavailable (log_end (log_start fresh true)) fresh 0 0
    [(0, 0x90), (1, 0x3C), (2, 0x40)] (by decide)).2.1

/-! ## Invariants of the decoder -/

theorem land_0x80_ge (d : Nat) (h : d &&& 0x80 ≠ 0) (h2 : d < 256) : 0x80 ≤ d := by
  by_contra hlt
  exact h ((land_0x80_eq_zero d h2).mpr (by omega))

@[simp] theorem device_reset_event_buf (s : Session) : (device_reset_event s).m_cmd_buf = [] := by
  simp [device_reset_event, log_write_varlen, Session.fwrite]

@[simp] theorem device_reset_event_last (s : Session) :
    (device_reset_event s).m_last_status = s.m_last_status := by
  simp [device_reset_event, log_write_varlen, Session.fwrite]

@[simp] theorem device_reset_event_rem (s : Session) :
    (device_reset_event s).m_cmd_rem_bytes = s.m_cmd_rem_bytes := by
  simp [device_reset_event, log_write_varlen, Session.fwrite]

@[simp] theorem device_reset_event_cur (s : Session) :
    (device_reset_event s).m_cur_status = s.m_cur_status := by
  simp [device_reset_event, log_write_varlen, Session.fwrite]

theorem new_command_last (s : Session) (tick data : Nat) (h2 : data < 256)
    (h : s.m_last_status = 0 ∨ (0x80 ≤ s.m_last_status ∧ s.m_last_status < 0xF0)) :
    (new_command s tick data).m_last_status = 0 ∨
      (0x80 ≤ (new_command s tick data).m_last_status ∧
        (new_command s tick data).m_last_status < 0xF0) := by
  simp only [new_command]
  split_ifs with hc
  · exact Or.inr ⟨land_0x80_ge data hc.1 h2, hc.2⟩
  · exact h

theorem DecoderInv.of_buf_nil (s : Session)
    (h : s.m_last_status = 0 ∨ (0x80 ≤ s.m_last_status ∧ s.m_last_status < 0xF0))
    (hb : s.m_cmd_buf = []) : DecoderInv s :=
  ⟨h, fun hne => absurd hb hne⟩

theorem DecoderInv.after_push (s : Session) (data : Nat)
    (h : s.m_last_status = 0 ∨ (0x80 ≤ s.m_last_status ∧ s.m_last_status < 0xF0))
    (hc : s.m_cur_status < 0xF1 ∨ s.m_cur_status = 0xF7) : DecoderInv (push_byte s data) := by
  unfold push_byte
  split_ifs with hcap
  · exact DecoderInv.of_buf_nil _ (by simpa using h) (log_finish_comand_buf _)
  · exact ⟨h, fun _ => ⟨fun h0 => hcap (Or.inr h0), hc⟩⟩

theorem xsize_sysex (d : Nat) (h : d = 0xF0 ∨ d = 0xF7) :
    MIDI_CMD_XSIZE.getD (d &&& 0x0F) 0 ≠ 0 := by
  rcases h with h | h <;> rw [h] <;> decide

theorem DecoderInv.after_status (s : Session) (tick data : Nat) (h2 : data < 256)
    (hd : data &&& 0x80 ≠ 0)
    (h : s.m_last_status = 0 ∨ (0x80 ≤ s.m_last_status ∧ s.m_last_status < 0xF0))
    (hb : s.m_cmd_buf = []) : DecoderInv (status_byte s tick data) := by
  have hl := new_command_last s tick data h2 h
  unfold status_byte
  split_ifs with h1 h3
  · exact DecoderInv.of_buf_nil _ (by simpa using hl) (device_reset_event_buf _)
  · exact DecoderInv.of_buf_nil _ hl hb
  · refine ⟨hl, fun _ => ⟨?_, ?_⟩⟩
    · show (new_command s tick data).m_cmd_rem_bytes ≠ 0
      simp only [new_command, if_neg hd]
      split_ifs with h240
      · exact cmd_size_ne_zero _
      · exact xsize_sysex data (by omega)
    · show (new_command s tick data).m_cur_status < 0xF1 ∨ _
      simp only [new_command, if_neg hd]
      omega

theorem DecoderInv.after_byte (s : Session) (tick data : Nat) (h2 : data < 256)
    (h : DecoderInv s) : DecoderInv (log_proc_byte s tick data) := by
  by_cases ho : s.sinkOpen = true
  · rw [log_proc_byte_eq s tick data ho]
    unfold log_proc_byte_tree
    split_ifs with hrem hx hd hd7 hc hd hl hlf hl1
    · exact DecoderInv.after_push s data h.1 (by omega)
    · exact DecoderInv.of_buf_nil _ (by simpa using h.1) (log_finish_comand_buf _)
    · exact DecoderInv.after_status _ tick data h2 hd (by simpa using h.1)
        (log_finish_comand_buf _)
    · refine DecoderInv.of_buf_nil _ h.1 ?_
      by_contra hne
      have := (h.2 hne).2
      omega
    · exact DecoderInv.after_push s data h.1 (by omega)
    · exact DecoderInv.of_buf_nil _ (by simpa using h.1) (log_finish_comand_buf _)
    · exact DecoderInv.of_buf_nil _
        (by simpa using new_command_last (log_finish_comand s) tick data h2 (by simpa using h.1))
        (device_reset_event_buf _)
    · exact DecoderInv.of_buf_nil _
        (new_command_last (log_finish_comand s) tick data h2 (by simpa using h.1))
        (log_finish_comand_buf _)
    · refine DecoderInv.after_push _ data
        (new_command_last (log_finish_comand s) tick data h2 (by simpa using h.1)) ?_
      show (new_command (log_finish_comand s) tick data).m_cur_status < 0xF1 ∨ _
      simp only [new_command, if_pos hd, log_finish_comand_last]
      omega
    · exact DecoderInv.after_status _ tick data h2 hd (by simpa using h.1)
        (log_finish_comand_buf _)
  · rw [log_proc_byte_closed s tick data (by simpa using ho)]
    exact h

theorem log_start_fields (s : Session) (opened : Bool) (stale : List Nat) :
    (log_start s opened stale).m_last_status = s.m_last_status ∧
    (log_start s opened stale).m_cur_status = s.m_cur_status ∧
    (log_start s opened stale).m_cmd_buf = s.m_cmd_buf ∧
    (log_start s opened stale).m_cmd_rem_bytes = s.m_cmd_rem_bytes ∧
    (log_start s opened stale).commits = s.commits := by
  cases opened with
  | true =>
    simp [log_start, Session.sinkOpen, Session.fwrite, Session.fput, log_write_be32,
      log_write_be16]
  | false => rw [log_start_failed]; exact ⟨rfl, rfl, rfl, rfl, rfl⟩

theorem log_end_fields (s : Session) :
    (log_end s).m_last_status = s.m_last_status ∧
    (log_end s).m_cur_status = s.m_cur_status ∧
    (log_end s).m_cmd_rem_bytes = s.m_cmd_rem_bytes ∧
    (s.m_cmd_buf = [] ∨ s.sinkOpen = true → (log_end s).m_cmd_buf = []) := by
  by_cases ho : s.sinkOpen = true
  · simp [log_end, ho, log_write_be32, Session.fput]
  · rw [log_end_closed s (by simpa using ho)]
    exact ⟨rfl, rfl, rfl, fun h => h.resolve_right ho⟩

theorem DecoderInv.holds (s : Session) (h : Reachable s) : DecoderInv s := by
  induction h with
  | fresh => exact ⟨Or.inl rfl, fun hne => absurd rfl hne⟩
  | start s opened stale _ ih =>
    obtain ⟨h1, h2, h3, h4, _⟩ := log_start_fields s opened stale
    unfold DecoderInv
    rw [h1, h2, h3, h4]
    exact ih
  | byte s tick data hd _ ih => exact ih.after_byte s tick data hd
  | finish s _ ih =>
    obtain ⟨h1, h2, h3, h4⟩ := log_end_fields s
    by_cases ho : s.sinkOpen = true
    · exact DecoderInv.of_buf_nil _ (by rw [h1]; exact ih.1) (h4 (Or.inr ho))
    · rw [log_end_closed s (by simpa using ho)]
      exact ih

theorem SkipInv.of_rem_zero (s : Session) (h : s.m_cmd_rem_bytes = 0) : SkipInv s :=
  fun _ hne => absurd h hne

theorem SkipInv.of_buf_ne_nil (s : Session) (h : s.m_cmd_buf ≠ []) : SkipInv s :=
  fun hb => absurd hb h

theorem SkipInv.keep_push (s : Session) (data : Nat) : SkipInv (push_byte s data) := by
  unfold push_byte
  split_ifs
  · exact SkipInv.of_rem_zero _ (by simp)
  · exact SkipInv.of_buf_ne_nil _ (by simp)

theorem xsize_skip (d : Nat) (h2 : d < 256) (h1 : d ≥ 0xF1)
    (hne : MIDI_CMD_XSIZE.getD (d &&& 0x0F) 0 ≠ 0) (h7 : d ≠ 0xF7) :
    (d = 0xF1 ∨ d = 0xF2 ∨ d = 0xF3 ∨ d = 0xF9) ∧ MIDI_CMD_XSIZE.getD (d &&& 0x0F) 0 ≤ 2 := by
  have key : ∀ x : Fin 256, x.val ≥ 0xF1 → MIDI_CMD_XSIZE.getD (x.val &&& 0x0F) 0 ≠ 0 →
      x.val ≠ 0xF7 →
      (x.val = 0xF1 ∨ x.val = 0xF2 ∨ x.val = 0xF3 ∨ x.val = 0xF9) ∧
        MIDI_CMD_XSIZE.getD (x.val &&& 0x0F) 0 ≤ 2 := by decide
  exact key ⟨d, h2⟩ h1 hne h7

theorem SkipInv.keep_status (s : Session) (tick data : Nat) (h2 : data < 256)
    (hd : data &&& 0x80 ≠ 0) : SkipInv (status_byte s tick data) := by
  unfold status_byte
  split_ifs with h1 h3
  · refine SkipInv.of_rem_zero _ ?_
    rw [device_reset_event_rem, h1]
    exact new_command_reset_rem s tick
  · intro _ hne
    have hcur : (new_command s tick data).m_cur_status = data := by
      simp only [new_command, if_neg hd]
    have hrem : (new_command s tick data).m_cmd_rem_bytes = MIDI_CMD_XSIZE.getD (data &&& 0x0F) 0 := by
      simp only [new_command, if_neg hd]
      rw [if_neg (by omega)]
    rw [hcur, hrem]
    rw [hrem] at hne
    exact xsize_skip data h2 h3.1 hne h3.2
  · exact SkipInv.of_buf_ne_nil _ (by simp)

theorem SkipInv.keep_byte (s : Session) (tick data : Nat) (h2 : data < 256)
    (hi : DecoderInv s) (h : SkipInv s) : SkipInv (log_proc_byte s tick data) := by
  by_cases ho : s.sinkOpen = true
  · rw [log_proc_byte_eq s tick data ho]
    unfold log_proc_byte_tree
    have hl := hi.1
    split_ifs with hrem hx hd hd7 hc hd hl0 hlf hl1
    · exact SkipInv.keep_push s data
    · exact SkipInv.of_rem_zero _ (by simp)
    · exact SkipInv.keep_status _ tick data h2 hd
    · intro hb hne
      have hb' : s.m_cmd_buf = [] := hb
      have hne' : s.m_cmd_rem_bytes - 1 ≠ 0 := hne
      obtain ⟨h3, h4⟩ := h hb' (by omega)
      exact ⟨h3, by show s.m_cmd_rem_bytes - 1 ≤ 2; omega⟩
    · exact SkipInv.keep_push s data
    · exact SkipInv.of_rem_zero _ (by simpa using hrem)
    · exfalso; omega
    · exfalso; omega
    · exact SkipInv.keep_push _ data
    · exact SkipInv.keep_status _ tick data h2 hd
  · rw [log_proc_byte_closed s tick data (by simpa using ho)]
    exact h

theorem decoder_feed (input : List (Nat × Nat)) (s : Session)
    (hin : ∀ x ∈ input, x.2 < 256) (hi : DecoderInv s) (h : SkipInv s) :
    DecoderInv (feed s input) ∧ SkipInv (feed s input) := by
  induction input generalizing s with
  | nil => exact ⟨hi, h⟩
  | cons x xs ih =>
    rw [feed_cons]
    have hx := hin x (by simp)
    exact ih _ (fun y hy => hin y (by simp [hy])) (hi.after_byte s x.1 x.2 hx)
      (h.keep_byte s x.1 x.2 hx hi)

theorem tree_skip (s : Session) (tick data : Nat) (hrem : s.m_cmd_rem_bytes ≠ 0)
    (hx : ¬ (s.m_cur_status = 0xF0 ∨ s.m_cur_status = 0xF7)) (hc : s.m_cur_status ≥ 0xF1) :
    log_proc_byte_tree s tick data = { s with m_cmd_rem_bytes := s.m_cmd_rem_bytes - 1 } := by
  unfold log_proc_byte_tree
  rw [if_pos hrem, if_neg hx, if_pos hc]

/-- The data bytes of a discarded system message are skipped: as many bytes as
`m_cmd_rem_bytes` counts, whatever they are, only count it down. -/
theorem feed_skip (ds : List (Nat × Nat)) (s : Session) (ho : s.sinkOpen = true)
    (hx : ¬ (s.m_cur_status = 0xF0 ∨ s.m_cur_status = 0xF7)) (hc : s.m_cur_status ≥ 0xF1)
    (hlen : ds.length = s.m_cmd_rem_bytes) :
    feed s ds = { s with m_cmd_rem_bytes := 0 } := by
  induction ds generalizing s with
  | nil =>
    obtain ⟨lf, et, ft, last, cur, buf, rem, start, cs⟩ := s
    simp only [List.length_nil] at hlen
    subst hlen
    rfl
  | cons x xs ih =>
    have hrem : s.m_cmd_rem_bytes ≠ 0 := by rw [← hlen]; simp
    rw [feed_cons, log_proc_byte_eq s x.1 x.2 ho, tree_skip s x.1 x.2 hrem hx hc]
    rw [ih { s with m_cmd_rem_bytes := s.m_cmd_rem_bytes - 1 } ho hx hc
      (by show xs.length = s.m_cmd_rem_bytes - 1; rw [← hlen]; simp)]

theorem xsize_unsupported (b : Nat) (h1 : 0xF1 ≤ b) (h2 : b ≤ 0xFE) (h7 : b ≠ 0xF7) :
    b &&& 0x80 ≠ 0 ∧
    MIDI_CMD_XSIZE.getD (b &&& 0x0F) 0 =
      (if b = 0xF2 then 2 else if b = 0xF1 ∨ b = 0xF3 ∨ b = 0xF9 then 1 else 0) := by
  have key : ∀ x : Fin 256, 0xF1 ≤ x.val → x.val ≤ 0xFE → x.val ≠ 0xF7 →
      x.val &&& 0x80 ≠ 0 ∧
      MIDI_CMD_XSIZE.getD (x.val &&& 0x0F) 0 =
        (if x.val = 0xF2 then 2 else if x.val = 0xF1 ∨ x.val = 0xF3 ∨ x.val = 0xF9 then 1
          else 0) := by decide
  exact key ⟨b, by omega⟩ h1 h2 h7

/-- C15, amended (unsupported system messages): in every reachable state with
the sink open and `m_cmd_rem_bytes = 0`, a status byte F1..FE other than F7
and F9 writes nothing, commits nothing, leaves the command buffer empty and
`m_last_status` unchanged; it sets `m_cur_status` to the byte, stamps
`m_event_tick`, and sets `m_cmd_rem_bytes` to its entry of `MIDI_CMD_XSIZE`,
the number of data bytes of the message: 2 for F2, 1 for F1 and F3, 0 for the
others.  That many following bytes, whatever they are, are skipped without
being decoded or written, and after them the decoder is at a message
boundary. -/
theorem unsupported_system_discarded (s : Session) (hr : Reachable s) (ho : s.sinkOpen = true)
    (hrem : s.m_cmd_rem_bytes = 0) (tick b : Nat) (h1 : 0xF1 ≤ b) (h2 : b ≤ 0xFE)
    (h7 : b ≠ 0xF7) (h9 : b ≠ 0xF9) (skipped : List (Nat × Nat))
    (hlen : skipped.length = MIDI_CMD_XSIZE.getD (b &&& 0x0F) 0) :
    s.m_cmd_buf = [] ∧
    log_proc_byte s tick b =
      { s with m_cur_status := b, m_cmd_rem_bytes := MIDI_CMD_XSIZE.getD (b &&& 0x0F) 0,
               m_event_tick := tick % 2 ^ 32 } ∧
    MIDI_CMD_XSIZE.getD (b &&& 0x0F) 0 =
      (if b = 0xF2 then 2 else if b = 0xF1 ∨ b = 0xF3 then 1 else 0) ∧
    feed (log_proc_byte s tick b) skipped =
      { s with m_cur_status := b, m_cmd_rem_bytes := 0, m_event_tick := tick % 2 ^ 32 } := by
  obtain ⟨hbit, htab⟩ := xsize_unsupported b h1 h2 h7
  simp only [h9, or_false] at htab
  have hbuf : s.m_cmd_buf = [] := by
    by_contra hne
    exact ((DecoderInv.holds s hr).2 hne).1 hrem
  have hstep : log_proc_byte s tick b =
      { s with m_cur_status := b, m_cmd_rem_bytes := MIDI_CMD_XSIZE.getD (b &&& 0x0F) 0,
               m_event_tick := tick % 2 ^ 32 } := by
    rw [log_proc_byte_eq s tick b ho]
    unfold log_proc_byte_tree
    rw [if_neg (by simpa using hrem), if_neg hbit, log_finish_comand_nil s hbuf]
    unfold status_byte
    rw [if_neg (by omega), if_pos ⟨by omega, h7⟩]
    simp only [new_command, if_neg hbit]
    rw [if_neg (by omega), if_neg (by omega)]
  refine ⟨hbuf, hstep, htab, ?_⟩
  rw [hstep]
  exact feed_skip skipped _ ho (by show ¬ (b = 0xF0 ∨ b = 0xF7); omega) (by show b ≥ 0xF1; omega)
    hlen

/-- Witness for C15: F2 right after `log_start`, then the bytes 90 and FF: both
are skipped, nothing is written. -/
theorem unsupported_system_discarded_witness :
    feed (log_proc_byte (log_start fresh true) 7 0xF2) [(8, 0x90), (9, 0xFF)] =
      { log_start fresh true with m_cur_status := 0xF2, m_cmd_rem_bytes := 0, m_event_tick := 7 } :=
  (unsupported_system_discarded (log_start fresh true) (Reachable.start fresh true [] Reachable.fresh)
    (by decide) (by decide) 7 0xF2 (by decide) (by decide) (by decide) (by decide)
    [(8, 0x90), (9, 0xFF)] (by decide)).2.2.2

/-- Counterexample to C15 as stated: after F1 at a message boundary
`m_cmd_rem_bytes` is 1, not 0, and the next byte, 90, is not decoded as the
start of a message: it is dropped and no running status is recorded. -/
theorem unsupported_system_rem_counterexample :
    (log_start fresh true).m_cmd_rem_bytes = 0 ∧
    (log_proc_byte (log_start fresh true) 0 0xF1).m_cmd_rem_bytes = 1 ∧
    (feed (log_start fresh true) [(0, 0xF1), (1, 0x90)]).m_cmd_buf = [] ∧
    (feed (log_start fresh true) [(0, 0xF1), (1, 0x90)]).m_last_status = 0 ∧
    (feed (log_start fresh true) [(0, 0x90)]).m_cmd_buf = [0x90] := by
  decide

theorem DecoderInv.initially : DecoderInv (log_start fresh true) ∧ SkipInv (log_start fresh true) := by
  rw [log_start_open]
  exact ⟨⟨Or.inl rfl, fun hne => absurd rfl hne⟩, fun _ hne => absurd rfl hne⟩

/-- C17, amended (decoder-state invariant): in every state reached from the
fresh device by calls of `log_start`, `log_proc_byte` and `log_end`,
`m_cmd_rem_bytes = 0` implies that the command buffer is empty.  The converse
holds while a log is written, in every state between `log_start` on the fresh
device and `log_end`, except while the data bytes of a discarded system message
are skipped: an empty buffer with `m_cmd_rem_bytes ≠ 0` occurs there only with
`m_cur_status` F1, F2, F3 or F9 and `m_cmd_rem_bytes` 1 or 2. -/
theorem decoder_state_invariant (s : Session) (hr : Reachable s) (input : List (Nat × Nat))
    (hin : ∀ x ∈ input, x.2 < 256) :
    (s.m_cmd_rem_bytes = 0 → s.m_cmd_buf = []) ∧
    ((feed (log_start fresh true) input).m_cmd_buf = [] →
      (feed (log_start fresh true) input).m_cmd_rem_bytes = 0 ∨
      (((feed (log_start fresh true) input).m_cur_status = 0xF1 ∨
        (feed (log_start fresh true) input).m_cur_status = 0xF2 ∨
        (feed (log_start fresh true) input).m_cur_status = 0xF3 ∨
        (feed (log_start fresh true) input).m_cur_status = 0xF9) ∧
       (feed (log_start fresh true) input).m_cmd_rem_bytes ≤ 2)) := by
  constructor
  · intro h0
    by_contra hne
    exact ((DecoderInv.holds s hr).2 hne).1 h0
  · intro hb
    obtain ⟨_, hsk⟩ := decoder_feed input (log_start fresh true) hin DecoderInv.initially.1
      DecoderInv.initially.2
    by_cases h0 : (feed (log_start fresh true) input).m_cmd_rem_bytes = 0
    · exact Or.inl h0
    · exact Or.inr (hsk hb h0)

/-- Witness for C17: after 90 3C the buffer is not empty and a byte is waited
for; after F2 90 the buffer is empty and one more byte is skipped. -/
theorem decoder_state_invariant_witness :
    ((feed (log_start fresh true) [(0, 0x90), (1, 0x3C)]).m_cmd_rem_bytes = 0 →
      (feed (log_start fresh true) [(0, 0x90), (1, 0x3C)]).m_cmd_buf = []) ∧
    (feed (log_start fresh true) [(0, 0x90), (1, 0x3C)]).m_cmd_rem_bytes = 1 ∧
    (feed (log_start fresh true) [(0, 0xF2), (1, 0x90)]).m_cmd_buf = [] ∧
    (feed (log_start fresh true) [(0, 0xF2), (1, 0x90)]).m_cmd_rem_bytes = 1 :=
  ⟨(decoder_state_invariant (feed (log_start fresh true) [(0, 0x90), (1, 0x3C)])
      (Reachable.byte _ 1 0x3C (by decide)
        (Reachable.byte _ 0 0x90 (by decide) (Reachable.start fresh true [] Reachable.fresh)))
      [(0, 0xF2), (1, 0x90)] (by decide)).1,
   by decide, by decide, by decide⟩

/-- Counterexample to C17 as stated: F1 right after `log_start` on the fresh
device gives a reachable state with an empty command buffer and
`m_cmd_rem_bytes = 1`; so does closing the log in the middle of a message,
where `log_end` flushes the buffer and leaves `m_cmd_rem_bytes` as it is. -/
theorem decoder_state_iff_counterexample :
    Reachable (log_proc_byte (log_start fresh true) 0 0xF1) ∧
    (log_proc_byte (log_start fresh true) 0 0xF1).m_cmd_buf = [] ∧
    (log_proc_byte (log_start fresh true) 0 0xF1).m_cmd_rem_bytes = 1 ∧
    ¬ ((log_proc_byte (log_start fresh true) 0 0xF1).m_cmd_rem_bytes = 0 ↔
        (log_proc_byte (log_start fresh true) 0 0xF1).m_cmd_buf = []) ∧
    Reachable (log_end (log_proc_byte (log_start fresh true) 0 0x90)) ∧
    (log_end (log_proc_byte (log_start fresh true) 0 0x90)).m_cmd_buf = [] ∧
    (log_end (log_proc_byte (log_start fresh true) 0 0x90)).m_cmd_rem_bytes = 2 :=
  ⟨Reachable.byte _ 0 0xF1 (by decide) (Reachable.start fresh true [] Reachable.fresh),
   by decide, by decide, by decide,
   Reachable.finish _
     (Reachable.byte _ 0 0x90 (by decide) (Reachable.start fresh true [] Reachable.fresh)),
   by decide, by decide⟩

/-- C19, amended (system command-size table): `MIDI_CMD_XSIZE`, indexed by the
low nibble of a status byte F0..FF other than F9, gives the marker FFFFFFFF
for F0 and F7, 2 for F2, 1 for F1 and F3, and 0 for F4, F5, F6, F8 and
FA..FF; and that entry is the value `log_proc_byte` stores in
`m_cmd_rem_bytes` when the byte arrives at a message boundary while the sink
is open. -/
theorem cmd_xsize_table (b : Nat) (h1 : 0xF0 ≤ b) (h2 : b ≤ 0xFF) (h9 : b ≠ 0xF9)
    (s : Session) (tick : Nat) (ho : s.sinkOpen = true) (hrem : s.m_cmd_rem_bytes = 0) :
    MIDI_CMD_XSIZE.length = 16 ∧
    MIDI_CMD_XSIZE.getD (b &&& 0x0F) 0 =
      (if b = 0xF0 ∨ b = 0xF7 then 0xFFFFFFFF
       else if b = 0xF2 then 2
       else if b = 0xF1 ∨ b = 0xF3 then 1
       else 0) ∧
    (log_proc_byte s tick b).m_cmd_rem_bytes = MIDI_CMD_XSIZE.getD (b &&& 0x0F) 0 := by
  have key : ∀ x : Fin 256, 0xF0 ≤ x.val → x.val &&& 0x80 ≠ 0 ∧
      MIDI_CMD_XSIZE.getD (x.val &&& 0x0F) 0 =
        (if x.val = 0xF0 ∨ x.val = 0xF7 then 0xFFFFFFFF
         else if x.val = 0xF2 then 2
         else if x.val = 0xF1 ∨ x.val = 0xF3 ∨ x.val = 0xF9 then 1
         else 0) := by decide
  obtain ⟨hbit, htab⟩ := key ⟨b, by omega⟩ h1
  simp only [h9, or_false] at htab
  refine ⟨rfl, htab, ?_⟩
  have hnc : ∀ x : Session, (new_command x tick b).m_cmd_rem_bytes =
      MIDI_CMD_XSIZE.getD (b &&& 0x0F) 0 := by
    intro x
    simp only [new_command, if_neg hbit]
    rw [if_neg (by omega)]
  rw [log_proc_byte_eq s tick b ho]
  unfold log_proc_byte_tree
  rw [if_neg (by simpa using hrem), if_neg hbit]
  unfold status_byte
  split_ifs
  · rw [device_reset_event_rem, hnc]
  · rw [hnc]
  · exact hnc _

/-- Witness for C19: the entry of F2 is 2, and F2 at a boundary leaves
`m_cmd_rem_bytes = 2`. -/
theorem cmd_xsize_table_witness :
    MIDI_CMD_XSIZE.getD (0xF2 &&& 0x0F) 0 = 2 ∧
    (log_proc_byte (log_start fresh true) 0 0xF2).m_cmd_rem_bytes = 2 := by
  obtain ⟨_, h1, h2⟩ := cmd_xsize_table 0xF2 (by decide) (by decide) (by decide)
    (log_start fresh true) 0 (by decide) (by decide)
  exact ⟨by rw [h1]; decide, by rw [h2, h1]; decide⟩

/-- Counterexample to C19 as stated: the entries of F4 and F5 are 0, not the
marker FFFFFFFF, and the entry of F7 is the marker, not 0. -/
theorem cmd_xsize_table_counterexample :
    MIDI_CMD_XSIZE.getD (0xF4 &&& 0x0F) 0 = 0 ∧ MIDI_CMD_XSIZE.getD (0xF5 &&& 0x0F) 0 = 0 ∧
    MIDI_CMD_XSIZE.getD (0xF7 &&& 0x0F) 0 = 0xFFFFFFFF ∧
    ¬ (MIDI_CMD_XSIZE.getD (0xF0 &&& 0x0F) 0 = 0xFFFFFFFF ∧
       MIDI_CMD_XSIZE.getD (0xF2 &&& 0x0F) 0 = 2 ∧
       MIDI_CMD_XSIZE.getD (0xF3 &&& 0x0F) 0 = 1 ∧
       MIDI_CMD_XSIZE.getD (0xF6 &&& 0x0F) 0 = 0 ∧
       MIDI_CMD_XSIZE.getD (0xF7 &&& 0x0F) 0 = 0 ∧
       (∀ b : Fin 256, 0xF8 ≤ b.val → MIDI_CMD_XSIZE.getD (b.val &&& 0x0F) 0 = 0) ∧
       MIDI_CMD_XSIZE.getD (0xF4 &&& 0x0F) 0 = 0xFFFFFFFF ∧
       MIDI_CMD_XSIZE.getD (0xF5 &&& 0x0F) 0 = 0xFFFFFFFF) := by
  decide

/-! ## Re-dispatch -/

theorem new_command_running_rem (s : Session) (tick data : Nat) (hd : data &&& 0x80 = 0)
    (hc1 : ¬ (s.m_last_status ≥ 0xF1 ∧ s.m_last_status ≠ 0xF7)) :
    (new_command s tick data).m_cmd_rem_bytes ≠ 0 := by
  simp only [new_command, hd, if_true]
  split_ifs with h240
  · exact cmd_size_ne_zero _
  · exact xsize_sysex _ (by omega)

/-- A pass through the body of `log_proc_byte` that ends by calling
`log_proc_byte(data)` again is one of two: a data byte at a message boundary
taken under the running status, the call then entering the collecting branch;
or a status byte other than F7 inside a SysEx, the call then entering the
boundary branch.  In both the second pass returns. -/
theorem body_redispatch (s : Session) (tick data : Nat)
    (h : (log_proc_byte_body s tick data).2 = true) :
    ((s.m_cmd_rem_bytes = 0 ∧ data &&& 0x80 = 0 ∧
        (log_proc_byte_body s tick data).1 = new_command (log_finish_comand s) tick data ∧
        (log_proc_byte_body s tick data).1.m_cmd_rem_bytes ≠ 0) ∨
     (s.m_cmd_rem_bytes ≠ 0 ∧ data &&& 0x80 ≠ 0 ∧
        (s.m_cur_status = 0xF0 ∨ s.m_cur_status = 0xF7) ∧
        (log_proc_byte_body s tick data).1 = log_finish_comand { s with m_cmd_rem_bytes := 0 } ∧
        (log_proc_byte_body s tick data).1.m_cmd_rem_bytes = 0)) ∧
    (log_proc_byte_body (log_proc_byte_body s tick data).1 tick data).2 = false := by
  by_cases ho : s.sinkOpen = true
  · by_cases hrem : s.m_cmd_rem_bytes = 0
    · by_cases hd : data &&& 0x80 = 0
      · by_cases hl : s.m_last_status = 0
        · rw [body_unknown s tick data ho hrem hd hl] at h; exact absurd h (by simp)
        · by_cases hlf : s.m_last_status = 0xFF
          · rw [body_reset s tick data ho hrem (by simp [hl]) (by simp [hd, hlf])] at h
            exact absurd h (by simp)
          · by_cases hl1 : s.m_last_status ≥ 0xF1 ∧ s.m_last_status ≠ 0xF7
            · rw [body_discard s tick data ho hrem (by simp [hl]) (by simp [hd, hlf])
                (by simp [hd, hl1.1]) (by simp [hd, hl1.2])] at h
              exact absurd h (by simp)
            · have hb := body_running s tick data ho hrem hd hl hlf hl1
              have hr : (new_command (log_finish_comand s) tick data).m_cmd_rem_bytes ≠ 0 :=
                new_command_running_rem _ tick data hd (by simpa using hl1)
              have hcur : (new_command (log_finish_comand s) tick data).m_cur_status
                  = s.m_last_status := by simp [new_command, hd]
              have ho2 : (new_command (log_finish_comand s) tick data).sinkOpen = true := by
                show (log_finish_comand s).sinkOpen = true
                rw [log_finish_comand_sinkOpen]; exact ho
              rw [hb]
              refine ⟨Or.inl ⟨hrem, hd, rfl, hr⟩, ?_⟩
              rw [body_push _ tick data ho2 hr (by
                rw [hcur]
                by_cases hx : s.m_last_status = 0xF0 ∨ s.m_last_status = 0xF7
                · exact Or.inr ⟨hx, hd⟩
                · exact Or.inl ⟨hx, by omega⟩)]
      · rw [body_status s tick data ho hrem hd] at h; exact absurd h (by simp)
    · by_cases hx : s.m_cur_status = 0xF0 ∨ s.m_cur_status = 0xF7
      · by_cases hd : data &&& 0x80 = 0
        · rw [body_push s tick data ho hrem (Or.inr ⟨hx, hd⟩)] at h; exact absurd h (by simp)
        · by_cases hd7 : data = 0xF7
          · rw [body_term s tick data ho hrem hx hd7] at h; exact absurd h (by simp)
          · rw [body_abort s tick data ho hrem hx hd hd7]
            refine ⟨Or.inr ⟨hrem, hd, hx, rfl, by simp⟩, ?_⟩
            rw [body_status _ tick data (by rw [log_finish_comand_sinkOpen]; exact ho)
              (by simp) hd]
      · by_cases hc : s.m_cur_status ≥ 0xF1
        · rw [body_skip s tick data ho hrem hx hc] at h; exact absurd h (by simp)
        · rw [body_push s tick data ho hrem (Or.inl ⟨hx, by omega⟩)] at h
          exact absurd h (by simp)
  · rw [body_closed s tick data (by simpa using ho)] at h; exact absurd h (by simp)

theorem log_proc_byte_fuel_ge (n : Nat) (s : Session) (tick data : Nat) (hn : 2 ≤ n) :
    log_proc_byte_fuel n s tick data = some (log_proc_byte s tick data) := by
  induction n with
  | zero => omega
  | succ n ih =>
    by_cases h2 : n + 1 = 2
    · rw [h2]; exact log_proc_byte_fuel_two s tick data
    · exact log_proc_byte_fuel_succ n s tick data _ (ih (by omega))

/-- C20 (bounded re-dispatch): for every state and every byte, `log_proc_byte`
terminates: with fuel for two passes through its body, or more, it returns.
When the first pass does not end by calling `log_proc_byte(data)` again, its
result is the result; when it does, the second pass never does, and its
result is the result.  A re-dispatch from the boundary branch (running-status
data byte) enters the collecting branch, a re-dispatch from the collecting
branch (status byte cutting a SysEx off) enters the boundary branch. -/
theorem bounded_redispatch (s : Session) (tick data : Nat) :
    (∀ n, 2 ≤ n → log_proc_byte_fuel n s tick data = some (log_proc_byte s tick data)) ∧
    ((log_proc_byte_body s tick data).2 = false →
      log_proc_byte_fuel 1 s tick data = some (log_proc_byte s tick data) ∧
      log_proc_byte s tick data = (log_proc_byte_body s tick data).1) ∧
    ((log_proc_byte_body s tick data).2 = true →
      log_proc_byte_fuel 1 s tick data = none ∧
      (log_proc_byte_body (log_proc_byte_body s tick data).1 tick data).2 = false ∧
      log_proc_byte s tick data =
        (log_proc_byte_body (log_proc_byte_body s tick data).1 tick data).1 ∧
      (s.m_cmd_rem_bytes = 0 →
        data &&& 0x80 = 0 ∧ (log_proc_byte_body s tick data).1.m_cmd_rem_bytes ≠ 0) ∧
      (s.m_cmd_rem_bytes ≠ 0 →
        data &&& 0x80 ≠ 0 ∧ (s.m_cur_status = 0xF0 ∨ s.m_cur_status = 0xF7) ∧
        (log_proc_byte_body s tick data).1.m_cmd_rem_bytes = 0)) := by
  refine ⟨fun n hn => log_proc_byte_fuel_ge n s tick data hn, ?_, ?_⟩
  · intro h
    have h1 : log_proc_byte s tick data = (log_proc_byte_body s tick data).1 := by
      simp [log_proc_byte, log_proc_byte_fuel, h]
    exact ⟨by simp [log_proc_byte_fuel, h, h1], h1⟩
  · intro h
    obtain ⟨hk, h2⟩ := body_redispatch s tick data h
    have h1 : log_proc_byte s tick data =
        (log_proc_byte_body (log_proc_byte_body s tick data).1 tick data).1 := by
      simp [log_proc_byte, log_proc_byte_fuel, h, h2]
    refine ⟨by simp [log_proc_byte_fuel, h], h2, h1, ?_, ?_⟩
    · intro h0
      rcases hk with ⟨_, hd, _, hr⟩ | ⟨hne, _⟩
      · exact ⟨hd, hr⟩
      · exact absurd h0 hne
    · intro hne
      rcases hk with ⟨h0, _⟩ | ⟨_, hd, hx, _, hr⟩
      · exact absurd h0 hne
      · exact ⟨hd, hx, hr⟩

/-- Witness for C20: a data byte under running status, and a status byte that
cuts a SysEx off, each take exactly two passes. -/
theorem bounded_redispatch_witness :
    (log_proc_byte_body (feed (log_start fresh true) [(0, 0x90), (1, 0x3C), (2, 0x40)]) 3 0x3E).2
      = true ∧
    (log_proc_byte_body (feed (log_start fresh true) [(0, 0xF0), (1, 0x43)]) 2 0x90).2 = true ∧
    log_proc_byte_fuel 1 (feed (log_start fresh true) [(0, 0xF0), (1, 0x43)]) 2 0x90 = none ∧
    log_proc_byte_fuel 2 (feed (log_start fresh true) [(0, 0xF0), (1, 0x43)]) 2 0x90 =
      some (log_proc_byte (feed (log_start fresh true) [(0, 0xF0), (1, 0x43)]) 2 0x90) :=
  ⟨by decide, by decide,
   ((bounded_redispatch (feed (log_start fresh true) [(0, 0xF0), (1, 0x43)]) 2 0x90).2.2
      (by decide)).1,
   (bounded_redispatch (feed (log_start fresh true) [(0, 0xF0), (1, 0x43)]) 2 0x90).1 2
      (Nat.le_refl 2)⟩

/-! ## Commits per byte -/

theorem push_byte_commits (s : Session) (data : Nat) :
    ∃ new, (push_byte s data).commits = s.commits ++ new ∧ new.length ≤ 1 := by
  unfold push_byte
  split_ifs
  · rw [log_finish_comand_commits]
    split_ifs
    · exact ⟨[], by simp, by simp⟩
    · exact ⟨_, rfl, by simp⟩
  · exact ⟨[], by simp, by simp⟩

theorem device_reset_event_commits (s : Session) :
    (device_reset_event s).commits = s.commits ++
      [{ delta := (s.m_event_tick + 2 ^ 32 - s.m_file_tick) % 2 ^ 32, tick := s.m_event_tick,
         msg := s.m_cmd_buf ++ [0xFF, 0x06] }] := by
  simp [device_reset_event, log_write_varlen, Session.fwrite, log_finish_comand_commits]

theorem status_byte_commits (s : Session) (tick data : Nat) :
    (status_byte s tick data).commits = s.commits ++
      (if data = 0xFF then
        [{ delta := (tick % 2 ^ 32 + 2 ^ 32 - s.m_file_tick) % 2 ^ 32, tick := tick % 2 ^ 32,
           msg := s.m_cmd_buf ++ [0xFF, 0x06] }]
       else []) := by
  unfold status_byte
  split_ifs with h1 h2
  · rw [device_reset_event_commits]; rfl
  · simp [new_command]
  · simp [new_command]

theorem commits_at_most_one (P : Prop) (exp new : List Commit) (h : new.length ≤ 1) (hP : ¬ P) :
    new.length ≤ 2 ∧ (new.length = 2 ↔ P) ∧ (new.length = 2 → new = exp) :=
  ⟨by omega, ⟨fun h2 => by omega, fun hp => absurd hp hP⟩, fun h2 => by omega⟩

/-- C18, amended (commits per byte): in every reachable state and for every
byte, one call of `log_proc_byte` makes at most two commits, and it makes two
exactly when the sink is open and the byte FF cuts off a SysEx whose buffer is
not empty: the first commit is the SysEx collected so far, under the tick of
its first byte, the second is the meta event FF 06 of the device reset, under
the tick of this byte.  In every other case at most one commit is made. -/
theorem commits_per_byte (s : Session) (hr : Reachable s) (tick data : Nat) :
    ∃ new, (log_proc_byte s tick data).commits = s.commits ++ new ∧ new.length ≤ 2 ∧
      (new.length = 2 ↔
        (s.sinkOpen = true ∧ data = 0xFF ∧ s.m_cmd_rem_bytes ≠ 0 ∧
          (s.m_cur_status = 0xF0 ∨ s.m_cur_status = 0xF7) ∧ s.m_cmd_buf ≠ [])) ∧
      (new.length = 2 → new =
        [{ delta := (s.m_event_tick + 2 ^ 32 - s.m_file_tick) % 2 ^ 32, tick := s.m_event_tick,
           msg := s.m_cmd_buf },
         { delta := (tick % 2 ^ 32 + 2 ^ 32 - s.m_event_tick) % 2 ^ 32, tick := tick % 2 ^ 32,
           msg := [0xFF, 0x06] }]) := by
  have hinv := DecoderInv.holds s hr
  have hFF : (0xFF : Nat) &&& 0x80 ≠ 0 := by decide
  by_cases ho : s.sinkOpen = true
  · have hboundary : s.m_cmd_rem_bytes = 0 → log_finish_comand s = s := fun h0 =>
      log_finish_comand_nil s (by
        by_contra hne
        exact (hinv.2 hne).1 h0)
    rw [log_proc_byte_eq s tick data ho]
    unfold log_proc_byte_tree
    split_ifs with hrem hx hd hd7 hc hd hl hlf hl1
    · obtain ⟨new, he, hle⟩ := push_byte_commits s data
      exact ⟨new, he, commits_at_most_one _ _ new hle
        (fun hp => hFF (by rw [← hp.2.1]; exact hd))⟩
    · refine ⟨_, by rw [log_finish_comand_commits, if_neg (by simp)],
        commits_at_most_one _ _ _ (by simp) (fun hp => ?_)⟩
      rw [hp.2.1] at hd7
      exact absurd hd7 (by decide)
    · rw [status_byte_commits, log_finish_comand_commits]
      simp only [log_finish_comand_buf, List.nil_append]
      by_cases hb : s.m_cmd_buf = []
      · rw [if_pos hb]
        refine ⟨_, rfl, commits_at_most_one _ _ _ (by split_ifs <;> simp) (fun hp => hp.2.2.2.2 hb)⟩
      · rw [if_neg hb, List.append_assoc]
        by_cases hff : data = 0xFF
        · rw [if_pos hff]
          refine ⟨_, rfl, by simp, ⟨fun _ => ⟨ho, hff, hrem, hx, hb⟩, fun _ => by simp⟩, fun _ => ?_⟩
          simp [log_finish_comand_file_tick, hb]
        · rw [if_neg hff]
          exact ⟨_, rfl, commits_at_most_one _ _ _ (by simp) (fun hp => hff hp.2.1)⟩
    · exact ⟨[], by simp, commits_at_most_one _ _ _ (by simp) (fun hp => hx hp.2.2.2.1)⟩
    · obtain ⟨new, he, hle⟩ := push_byte_commits s data
      exact ⟨new, he, commits_at_most_one _ _ new hle (fun hp => hx hp.2.2.2.1)⟩
    · rw [hboundary (by simpa using hrem)]
      exact ⟨[], by simp, commits_at_most_one _ _ _ (by simp) (fun hp => hrem hp.2.2.1)⟩
    · exfalso
      have := hinv.1
      omega
    · exfalso
      have := hinv.1
      omega
    · rw [hboundary (by simpa using hrem)]
      obtain ⟨new, he, hle⟩ := push_byte_commits (new_command s tick data) data
      exact ⟨new, he, commits_at_most_one _ _ new hle (fun hp => hrem hp.2.2.1)⟩
    · rw [hboundary (by simpa using hrem), status_byte_commits]
      exact ⟨_, rfl, commits_at_most_one _ _ _ (by split_ifs <;> simp) (fun hp => hrem hp.2.2.1)⟩
  · rw [log_proc_byte_closed s tick data (by simpa using ho)]
    exact ⟨[], by simp, commits_at_most_one _ _ _ (by simp) (fun hp => ho hp.1)⟩

/-- Witness for C18: a note-on completed by its second data byte is one commit. -/
theorem commits_per_byte_witness :
    (feed (log_start fresh true) [(0, 0x90), (1, 0x3C)]).commits = [] ∧
    ∃ new, (log_proc_byte (feed (log_start fresh true) [(0, 0x90), (1, 0x3C)]) 2 0x40).commits =
      [] ++ new ∧ new.length ≤ 2 :=
  ⟨by decide,
   by
    obtain ⟨new, he, hle, _⟩ := commits_per_byte (feed (log_start fresh true) [(0, 0x90), (1, 0x3C)])
      (Reachable.byte _ 1 0x3C (by decide)
        (Reachable.byte _ 0 0x90 (by decide) (Reachable.start fresh true [] Reachable.fresh)))
      2 0x40
    exact ⟨new, he, hle⟩⟩

/-- Counterexample to C18 as stated: after F0 43, in a reachable state with no
commit made so far, the single byte FF makes two commits, the SysEx cut off
and the device reset, and appends both events to the file. -/
theorem two_commits_counterexample :
    Reachable (feed (log_start fresh true) [(0, 0xF0), (1, 0x43)]) ∧
    (feed (log_start fresh true) [(0, 0xF0), (1, 0x43)]).commits = [] ∧
    (log_proc_byte (feed (log_start fresh true) [(0, 0xF0), (1, 0x43)]) 2 0xFF).commits =
      [{ delta := 0, tick := 0, msg := [0xF0, 0x43] },
       { delta := 2, tick := 2, msg := [0xFF, 0x06] }] ∧
    (feed (log_start fresh true) [(0, 0xF0), (1, 0x43)]).fileBytes.drop 22 = [] ∧
    (log_proc_byte (feed (log_start fresh true) [(0, 0xF0), (1, 0x43)]) 2 0xFF).fileBytes.drop 22 =
      [0x00, 0xF0, 0x01, 0x43,
       0x02, 0xFF, 0x06, 0x0C, 0x44, 0x65, 0x76, 0x69, 0x63, 0x65, 0x20, 0x52, 0x65, 0x73, 0x65,
       0x74] :=
  ⟨Reachable.byte _ 1 0x43 (by decide)
    (Reachable.byte _ 0 0xF0 (by decide) (Reachable.start fresh true [] Reachable.fresh)),
   by decide, by decide, by decide, by decide⟩

/-! ## Well-formed messages pass through -/

theorem pass_voice (s : Session) (B : List Nat) (t st : Nat) (d : List (Nat × Nat))
    (hf : s.m_log_file = some (LogFile.atEnd B)) (hrem : s.m_cmd_rem_bytes = 0)
    (hbuf : s.m_cmd_buf = []) (h1 : 0x80 ≤ st) (h2 : st < 0xF0)
    (hn : d.length = MIDI_CMD_SIZE.getD ((st >>> 4) &&& 0x07) 0) (hd : ∀ x ∈ d, x.2 < 0x80) :
    feed s ((t, st) :: d) =
      { s with
        m_log_file := some (LogFile.atEnd (B ++
          (varlen_bytes ((t % 2 ^ 32 + 2 ^ 32 - s.m_file_tick) % 2 ^ 32) ++ st :: d.map Prod.snd)))
        m_event_tick := t % 2 ^ 32
        m_file_tick := t % 2 ^ 32
        m_last_status := st
        m_cur_status := st
        m_cmd_rem_bytes := 0
        m_cmd_buf := []
        commits := s.commits ++
          [{ delta := (t % 2 ^ 32 + 2 ^ 32 - s.m_file_tick) % 2 ^ 32, tick := t % 2 ^ 32,
             msg := st :: d.map Prod.snd }] } := by
  obtain ⟨lf, et, ft, last, cur, buf, rem, start, cs⟩ := s
  simp only at hf hrem hbuf
  subst hf hrem hbuf
  have hsz := cmd_size_eq_voice_size st h1 h2
  rw [hsz] at hn
  rw [feed_cons, step_status _ B t st rfl rfl rfl h1 (by omega)]
  simp only [h2, if_true, hsz]
  rcases voice_size_cases st with hv | hv
  · rw [hv] at hn ⊢
    obtain ⟨⟨ta, a⟩, rfl⟩ := List.length_eq_one.mp hn
    simp only [feed_cons, feed_nil]
    rw [step_push_commit _ B ta a rfl (by simp) (Or.inl rfl) (by have := hd (ta, a) (by simp); omega)
      (Or.inl h2)]
    rw [event_bytes_plain _ _ (by simp; omega)]
    rfl
  · rw [hv] at hn ⊢
    obtain ⟨⟨ta, a⟩, ⟨tb, b⟩, rfl⟩ := List.length_eq_two.mp hn
    simp only [feed_cons, feed_nil]
    rw [step_push _ ta a (by simp [Session.sinkOpen, LogFile.atEnd]) (by simp) (by simp)
      (by have := hd (ta, a) (by simp); omega) (Or.inl h2)]
    simp only []
    rw [step_push_commit _ B tb b rfl (by simp) (Or.inl rfl)
      (by have := hd (tb, b) (by simp); omega) (Or.inl h2)]
    rw [event_bytes_plain _ _ (by simp; omega)]
    rfl

theorem pass_running (s : Session) (B : List Nat) (d : List (Nat × Nat))
    (hf : s.m_log_file = some (LogFile.atEnd B)) (hrem : s.m_cmd_rem_bytes = 0)
    (hbuf : s.m_cmd_buf = []) (h1 : 0x80 ≤ s.m_last_status) (h2 : s.m_last_status < 0xF0)
    (hn : d.length = MIDI_CMD_SIZE.getD ((s.m_last_status >>> 4) &&& 0x07) 0)
    (hd : ∀ x ∈ d, x.2 < 0x80) :
    feed s d =
      { s with
        m_log_file := some (LogFile.atEnd (B ++
          (varlen_bytes (((d.headD (0, 0)).1 % 2 ^ 32 + 2 ^ 32 - s.m_file_tick) % 2 ^ 32)
            ++ d.map Prod.snd)))
        m_event_tick := (d.headD (0, 0)).1 % 2 ^ 32
        m_file_tick := (d.headD (0, 0)).1 % 2 ^ 32
        m_cur_status := s.m_last_status
        m_cmd_rem_bytes := 0
        m_cmd_buf := []
        commits := s.commits ++
          [{ delta := ((d.headD (0, 0)).1 % 2 ^ 32 + 2 ^ 32 - s.m_file_tick) % 2 ^ 32,
             tick := (d.headD (0, 0)).1 % 2 ^ 32, msg := d.map Prod.snd }] } := by
  obtain ⟨lf, et, ft, last, cur, buf, rem, start, cs⟩ := s
  simp only at hf hrem hbuf h1 h2 hn
  subst hf hrem hbuf
  have hsz := cmd_size_eq_voice_size last h1 h2
  rw [hsz] at hn
  rcases voice_size_cases last with hv | hv
  · rw [hv] at hn
    obtain ⟨⟨ta, a⟩, rfl⟩ := List.length_eq_one.mp hn
    have ha : a < 0x80 := hd (ta, a) (by simp)
    simp only [feed_cons, feed_nil]
    rw [step_running _ B ta a rfl rfl rfl ha h1 h2]
    simp only [hsz, hv]
    rw [push_byte_commit _ B a rfl (Or.inl rfl)]
    rw [event_bytes_plain _ _ (by simp; omega)]
    rfl
  · rw [hv] at hn
    obtain ⟨⟨ta, a⟩, ⟨tb, b⟩, rfl⟩ := List.length_eq_two.mp hn
    have ha : a < 0x80 := hd (ta, a) (by simp)
    have hb : b < 0x80 := hd (tb, b) (by simp)
    simp only [feed_cons, feed_nil]
    rw [step_running _ B ta a rfl rfl rfl ha h1 h2]
    simp only [hsz, hv]
    rw [push_byte_more _ a (by simp) (by simp)]
    simp only []
    rw [step_push_commit _ B tb b rfl (by simp) (Or.inl rfl) (by omega) (Or.inl h2)]
    rw [event_bytes_plain _ _ (by simp; omega)]
    rfl

theorem pass_sysex (s : Session) (B : List Nat) (t te : Nat) (p : List (Nat × Nat))
    (hf : s.m_log_file = some (LogFile.atEnd B)) (hrem : s.m_cmd_rem_bytes = 0)
    (hbuf : s.m_cmd_buf = []) (hp : ∀ x ∈ p, x.2 < 0x80) (hlen : p.length ≤ 8190) :
    feed s ((t, 0xF0) :: p ++ [(te, 0xF7)]) =
      { s with
        m_log_file := some (LogFile.atEnd (B ++
          (varlen_bytes ((t % 2 ^ 32 + 2 ^ 32 - s.m_file_tick) % 2 ^ 32) ++
            0xF0 :: (varlen_bytes (p.length + 1) ++ (p.map Prod.snd ++ [0xF7])))))
        m_event_tick := t % 2 ^ 32
        m_file_tick := t % 2 ^ 32
        m_cur_status := 0xF0
        m_cmd_rem_bytes := 0
        m_cmd_buf := []
        commits := s.commits ++
          [{ delta := (t % 2 ^ 32 + 2 ^ 32 - s.m_file_tick) % 2 ^ 32, tick := t % 2 ^ 32,
             msg := 0xF0 :: (p.map Prod.snd ++ [0xF7]) }] } := by
  obtain ⟨lf, et, ft, last, cur, buf, rem, start, cs⟩ := s
  simp only at hf hrem hbuf
  subst hf hrem hbuf
  rw [feed_append, feed_sysex_open _ B t p rfl rfl rfl hp (by omega)]
  simp only [feed_cons, feed_nil]
  rw [step_term _ B te rfl (by simp; omega) (Or.inl rfl)]
  simp only [List.cons_append]
  rw [event_bytes_sysex _ _ _ (Or.inl rfl)]
  have hmod : (p.map Prod.snd ++ [0xF7]).length % 2 ^ 32 = p.length + 1 := by
    rw [Nat.mod_eq_of_lt (by simp; omega)]
    simp
  rw [hmod]

/-- Feeding well-formed messages from a message boundary. -/
theorem feed_passes_through (ms : List Msg) (s : Session) (B : List Nat)
    (hf : s.m_log_file = some (LogFile.atEnd B)) (hrem : s.m_cmd_rem_bytes = 0)
    (hbuf : s.m_cmd_buf = []) (hl : s.m_last_status = 0 ∨ 0x80 ≤ s.m_last_status ∧ s.m_last_status < 0xF0)
    (hwf : passes_through s.m_last_status ms) :
    (feed s (Msg.stream ms)).m_log_file = some (LogFile.atEnd (B ++ track_of s.m_file_tick ms)) ∧
    (feed s (Msg.stream ms)).m_cmd_rem_bytes = 0 ∧
    (feed s (Msg.stream ms)).m_cmd_buf = [] ∧
    (feed s (Msg.stream ms)).commits.map Commit.msg =
      s.commits.map Commit.msg ++ ms.map Msg.wire := by
  induction ms generalizing s B with
  | nil => simp [Msg.stream, feed_nil, track_of, hf, hrem, hbuf]
  | cons m ms ih =>
    cases m with
    | voice t st d =>
      obtain ⟨h1, h2, hn, hd, hrest⟩ := hwf
      have e := pass_voice s B t st d hf hrem hbuf h1 h2 hn hd
      have a1 : (feed s ((t, st) :: d)).m_log_file = some (LogFile.atEnd (B ++
          (varlen_bytes ((t % 2 ^ 32 + 2 ^ 32 - s.m_file_tick) % 2 ^ 32) ++
            st :: d.map Prod.snd))) := by rw [e]
      have a2 : (feed s ((t, st) :: d)).m_cmd_rem_bytes = 0 := by rw [e]
      have a3 : (feed s ((t, st) :: d)).m_cmd_buf = [] := by rw [e]
      have a4 : (feed s ((t, st) :: d)).m_last_status = st := by rw [e]
      have a5 : (feed s ((t, st) :: d)).m_file_tick = t % 2 ^ 32 := by rw [e]
      have a6 : (feed s ((t, st) :: d)).commits = s.commits ++
          [{ delta := (t % 2 ^ 32 + 2 ^ 32 - s.m_file_tick) % 2 ^ 32, tick := t % 2 ^ 32,
             msg := st :: d.map Prod.snd }] := by rw [e]
      obtain ⟨i1, i2, i3, i4⟩ := ih (feed s ((t, st) :: d)) _ a1 a2 a3
        (Or.inr (by rw [a4]; exact ⟨h1, h2⟩)) (by rw [a4]; exact hrest)
      rw [a5] at i1
      rw [a6] at i4
      rw [show Msg.stream (Msg.voice t st d :: ms) = ((t, st) :: d) ++ Msg.stream ms from rfl,
        feed_append]
      refine ⟨?_, i2, i3, ?_⟩
      · rw [i1]; simp [track_of, Msg.tick, Msg.written, Msg.wire, Msg.bytes]
      · rw [i4]; simp [Msg.wire, Msg.bytes]
    | running d =>
      obtain ⟨h0, hn, hd, hrest⟩ := hwf
      have h12 : 0x80 ≤ s.m_last_status ∧ s.m_last_status < 0xF0 := hl.resolve_left h0
      have e := pass_running s B d hf hrem hbuf h12.1 h12.2 hn hd
      have a1 : (feed s d).m_log_file = some (LogFile.atEnd (B ++
          (varlen_bytes (((d.headD (0, 0)).1 % 2 ^ 32 + 2 ^ 32 - s.m_file_tick) % 2 ^ 32)
            ++ d.map Prod.snd))) := by rw [e]
      have a2 : (feed s d).m_cmd_rem_bytes = 0 := by rw [e]
      have a3 : (feed s d).m_cmd_buf = [] := by rw [e]
      have a4 : (feed s d).m_last_status = s.m_last_status := by rw [e]
      have a5 : (feed s d).m_file_tick = (d.headD (0, 0)).1 % 2 ^ 32 := by rw [e]
      have a6 : (feed s d).commits = s.commits ++
          [{ delta := ((d.headD (0, 0)).1 % 2 ^ 32 + 2 ^ 32 - s.m_file_tick) % 2 ^ 32,
             tick := (d.headD (0, 0)).1 % 2 ^ 32, msg := d.map Prod.snd }] := by rw [e]
      obtain ⟨i1, i2, i3, i4⟩ := ih (feed s d) _ a1 a2 a3
        (by rw [a4]; exact hl) (by rw [a4]; exact hrest)
      rw [a5] at i1
      rw [a6] at i4
      rw [show Msg.stream (Msg.running d :: ms) = d ++ Msg.stream ms from rfl, feed_append]
      refine ⟨?_, i2, i3, ?_⟩
      · rw [i1]; simp [track_of, Msg.tick, Msg.written, Msg.wire, Msg.bytes]
      · rw [i4]; simp [Msg.wire, Msg.bytes]
    | sysex t p te =>
      obtain ⟨hlen, hp, hrest⟩ := hwf
      have hlen2 : p.length ≤ 8190 := by
        simp [Msg.bytes] at hlen; omega
      have e := pass_sysex s B t te p hf hrem hbuf hp hlen2
      have a1 : (feed s ((t, 0xF0) :: p ++ [(te, 0xF7)])).m_log_file = some (LogFile.atEnd (B ++
          (varlen_bytes ((t % 2 ^ 32 + 2 ^ 32 - s.m_file_tick) % 2 ^ 32) ++
            0xF0 :: (varlen_bytes (p.length + 1) ++ (p.map Prod.snd ++ [0xF7]))))) := by rw [e]
      have a2 : (feed s ((t, 0xF0) :: p ++ [(te, 0xF7)])).m_cmd_rem_bytes = 0 := by rw [e]
      have a3 : (feed s ((t, 0xF0) :: p ++ [(te, 0xF7)])).m_cmd_buf = [] := by rw [e]
      have a4 : (feed s ((t, 0xF0) :: p ++ [(te, 0xF7)])).m_last_status = s.m_last_status := by
        rw [e]
      have a5 : (feed s ((t, 0xF0) :: p ++ [(te, 0xF7)])).m_file_tick = t % 2 ^ 32 := by rw [e]
      have a6 : (feed s ((t, 0xF0) :: p ++ [(te, 0xF7)])).commits = s.commits ++
          [{ delta := (t % 2 ^ 32 + 2 ^ 32 - s.m_file_tick) % 2 ^ 32, tick := t % 2 ^ 32,
             msg := 0xF0 :: (p.map Prod.snd ++ [0xF7]) }] := by rw [e]
      obtain ⟨i1, i2, i3, i4⟩ := ih (feed s ((t, 0xF0) :: p ++ [(te, 0xF7)])) _ a1 a2 a3
        (by rw [a4]; exact hl) (by rw [a4]; exact hrest)
      rw [a5] at i1
      rw [a6] at i4
      rw [show Msg.stream (Msg.sysex t p te :: ms) =
        ((t, 0xF0) :: p ++ [(te, 0xF7)]) ++ Msg.stream ms from rfl, feed_append]
      refine ⟨?_, i2, i3, ?_⟩
      · rw [i1]; simp [track_of, Msg.tick, Msg.written, Msg.wire, Msg.bytes]
      · rw [i4]; simp [Msg.wire, Msg.bytes]
    | reset t => exact absurd hwf (by simp [passes_through])

/-- C16 (well-formed streams pass through unchanged): for every sequence of
well-formed messages (`passes_through`: explicit channel-voice messages,
running-status messages under the last explicit channel-voice status, which a
SysEx leaves in effect, and complete SysEx of at most 8192 bytes), fed byte by
byte on a freshly opened session, the file is the header followed by exactly
`track_of`: for each message in order its delta-time and its own bytes, with
the length inserted after the F0 of a SysEx; the messages committed are the
messages received, one commit each, in order, byte for byte; and the decoder
ends at a message boundary with an empty command buffer. -/
theorem well_formed_pass_through (ms : List Msg) (hwf : passes_through 0 ms) :
    (feed (log_start fresh true) (Msg.stream ms)).fileBytes = smf_header ++ track_of 0 ms ∧
    (feed (log_start fresh true) (Msg.stream ms)).fileBytes.drop 22 = track_of 0 ms ∧
    (feed (log_start fresh true) (Msg.stream ms)).commits.map Commit.msg = ms.map Msg.wire ∧
    (feed (log_start fresh true) (Msg.stream ms)).m_cmd_rem_bytes = 0 ∧
    (feed (log_start fresh true) (Msg.stream ms)).m_cmd_buf = [] ∧
    (feed (log_start fresh true) (Msg.stream ms)).sinkOpen = true := by
  have h0 : (log_start fresh true).m_log_file = some (LogFile.atEnd smf_header) := by
    rw [log_start_open]
  obtain ⟨i1, i2, i3, i4⟩ := feed_passes_through ms (log_start fresh true) smf_header h0
    (by rw [log_start_open]; rfl) (by rw [log_start_open]; rfl)
    (Or.inl (by rw [log_start_open]; rfl)) (by rw [log_start_open]; exact hwf)
  have hft : (log_start fresh true).m_file_tick = 0 := by rw [log_start_open]; rfl
  have hcs : (log_start fresh true).commits = [] := by rw [log_start_open]; rfl
  rw [hft] at i1
  rw [hcs] at i4
  have hb := fileBytes_atEnd _ _ i1
  refine ⟨hb, ?_, by simpa using i4, i2, i3, sinkOpen_atEnd _ _ i1⟩
  rw [hb]
  exact List.drop_left' rfl

/-- Witness for C16: a note-on at tick 3, a running-status note at tick 5, a
SysEx at tick 200 and another running-status note at tick 201. -/
theorem well_formed_pass_through_witness :
    (feed (log_start fresh true)
      [(3, 0x90), (3, 0x3C), (4, 0x40), (5, 0x3E), (6, 0x40),
       (200, 0xF0), (200, 0x43), (200, 0xF7), (201, 0x40), (202, 0x00)]).fileBytes.drop 22 =
      [0x03, 0x90, 0x3C, 0x40,
       0x02, 0x3E, 0x40,
       0x81, 0x43, 0xF0, 0x02, 0x43, 0xF7,
       0x01, 0x40, 0x00] := by
  have h := (well_formed_pass_through
    [.voice 3 0x90 [(3, 0x3C), (4, 0x40)], .running [(5, 0x3E), (6, 0x40)],
     .sysex 200 [(200, 0x43)] 200, .running [(201, 0x40), (202, 0x00)]]
    (by simp [passes_through, Msg.bytes]; decide)).2.1
  rw [show Msg.stream [.voice 3 0x90 [(3, 0x3C), (4, 0x40)], .running [(5, 0x3E), (6, 0x40)],
     .sysex 200 [(200, 0x43)] 200, .running [(201, 0x40), (202, 0x00)]] =
      [(3, 0x90), (3, 0x3C), (4, 0x40), (5, 0x3E), (6, 0x40),
       (200, 0xF0), (200, 0x43), (200, 0xF7), (201, 0x40), (202, 0x00)] from rfl] at h
  rw [h]
  decide

/-! ## The written file read back: commits as events -/

theorem read_varlen_aux_high (p w n acc : Nat) (tail : List Nat) (h : w < 128 ^ p)
    (hn : (varlen_high p w).length ≤ n) :
    read_varlen_aux n acc (varlen_high p w ++ tail)
      = read_varlen_aux (n - (varlen_high p w).length)
          (acc * 128 ^ (varlen_high p w).length + w) tail := by
  induction p generalizing w tail acc n with
  | zero =>
    have : w = 0 := by simpa using h
    simp [varlen_high, this]
  | succ p ih =>
    unfold varlen_high at hn ⊢
    by_cases hw : w > 0
    · simp only [hw, if_true, shiftRight7, or_0x80_land_0x7F, List.append_assoc,
        List.singleton_append, List.length_append, List.length_singleton] at hn ⊢
      rw [ih (w / 128) n _ _ (div128_lt w p h) (by omega)]
      have hge : ¬ (128 + w % 128 < 0x80) := by omega
      obtain ⟨k, hk⟩ : ∃ k, n - (varlen_high p (w / 128)).length = k + 1 :=
        ⟨n - (varlen_high p (w / 128)).length - 1, by omega⟩
      rw [hk, read_varlen_aux, if_neg hge]
      have hk2 : n - ((varlen_high p (w / 128)).length + 1) = k := by omega
      rw [hk2]
      congr 1
      rw [pow_succ, ← Nat.mul_assoc]
      generalize acc * 128 ^ (varlen_high p (w / 128)).length = M
      omega
    · have : w = 0 := by omega
      simp [this]

/-- What `log_write_varlen` writes for a value below 2^28 is read back as that
value: it has at most four bytes. -/
theorem read_varlen_bytes (v : Nat) (rest : List Nat) (hv : v < 2 ^ 28) :
    read_varlen (varlen_bytes v ++ rest) = some (v, rest) := by
  have hlen : (varlen_high 7 (v / 128)).length ≤ 3 :=
    varlen_high_length 7 3 (v / 128) (by omega)
  rw [varlen_bytes_eq, shiftRight7, land_0x7F, read_varlen, List.append_assoc,
    read_varlen_aux_high 7 (v / 128) 4 0 _ (by omega) (by omega)]
  obtain ⟨k, hk⟩ : ∃ k, 4 - (varlen_high 7 (v / 128)).length = k + 1 :=
    ⟨4 - (varlen_high 7 (v / 128)).length - 1, by omega⟩
  rw [hk]
  simp only [List.singleton_append, read_varlen_aux, Nat.zero_mul, Nat.zero_add]
  rw [if_pos (by omega)]
  congr 2
  omega

/-- One (delta-time, event) pair read by `parse_track`, when `parse_event`
reads the event. -/
theorem ReadsThrough.pair (r r' delta : Nat) (ev : List Nat) (hd : delta < 2 ^ 28)
    (hev : ∀ rest, ∃ e', parse_event r (ev ++ rest) = some (r', e', rest)) :
    ReadsThrough r r' (varlen_bytes delta ++ ev) := by
  intro fuel e rest h
  have hne : varlen_bytes delta ++ ev ++ rest ≠ [] := by
    simp [varlen_bytes_ne_nil]
  have hlen : 1 ≤ (varlen_bytes delta).length := by
    have := varlen_bytes_ne_nil delta
    cases hv : varlen_bytes delta with
    | nil => exact absurd hv this
    | cons a l => simp
  cases fuel with
  | zero =>
    simp only [List.length_append] at h
    omega
  | succ fuel =>
    obtain ⟨e', he'⟩ := hev rest
    refine ⟨fuel, e', by simp only [List.length_append] at h; omega, ?_⟩
    rw [parse_track_succ _ _ _ _ hne, List.append_assoc, read_varlen_bytes delta _ hd]
    simp only [he']

theorem parse_event_running (r : Nat) (d rest : List Nat) (hr : r ≠ 0) (hne : d ≠ [])
    (hn : d.length = voice_size r) (hd : ∀ b ∈ d, b < 0x80) :
    parse_event r (d ++ rest) = some (r, false, rest) := by
  cases d with
  | nil => exact absurd rfl hne
  | cons b d' =>
    have hb : b < 0x80 := hd b (by simp)
    have hff : b ≠ 0xFF := by omega
    have hx : ¬ (b = 0xF0 ∨ b = 0xF7) := by omega
    have hv : ¬ (0x80 ≤ b ∧ b < 0xF0) := by omega
    have hall : (List.take (voice_size r) (b :: (d' ++ rest))).all (· < 0x80) = true := by
      rw [← hn, ← List.cons_append, List.take_left]
      simpa using hd
    simp only [parse_event, List.cons_append, hff, hx, hv, hb, hr, ne_eq, not_false_eq_true,
      and_self, if_true, if_false, hall, and_true]
    rw [if_pos (by simp only [List.length_cons, List.length_append] at hn ⊢; omega), ← hn,
      ← List.cons_append, List.drop_left]

theorem parse_event_sysex (r b : Nat) (body rest : List Nat) (hb : b = 0xF0 ∨ b = 0xF7)
    (hlen : body.length < 2 ^ 28) :
    parse_event r (b :: (varlen_bytes body.length ++ body) ++ rest) = some (0, false, rest) := by
  have hff : b ≠ 0xFF := by omega
  simp only [parse_event, List.cons_append, hff, hb, if_true, if_false, List.append_assoc,
    read_varlen_bytes body.length _ hlen]
  rw [if_pos (by simp), List.drop_left]

theorem parse_event_meta (r ty : Nat) (body rest : List Nat) (hlen : body.length < 2 ^ 28) :
    parse_event r (0xFF :: ty :: (varlen_bytes body.length ++ body) ++ rest)
      = some (0, decide (ty = 0x2F ∧ body.length = 0), rest) := by
  simp only [parse_event, List.cons_append, if_true, List.append_assoc,
    read_varlen_bytes body.length _ hlen]
  rw [if_pos (by simp), List.drop_left]

/-- The End-of-Track pair closes a track. -/
theorem parse_track_eot (fuel r delta : Nat) (e : Bool) (hd : delta < 2 ^ 28)
    (hfuel : 1 ≤ fuel) :
    parse_track fuel r e (varlen_bytes delta ++ [0xFF, 0x2F, 0x00]) = true := by
  obtain ⟨n, rfl⟩ : ∃ n, fuel = n + 1 := ⟨fuel - 1, by omega⟩
  rw [parse_track_succ _ _ _ _ (by simp), read_varlen_bytes delta _ hd]
  have h := parse_event_meta r 0x2F [] [] (by simp)
  simp only [List.length_nil, varlen_bytes_zero, List.append_nil, List.singleton_append,
    List.cons_append, List.nil_append] at h
  simp only [h]
  cases n <;> rfl

theorem devResetStr_length : devResetStr.length = 12 := rfl

/-- A commit that is a complete event is read through by `parse_track`. -/
theorem ReadsThrough.of_event_ok (r r' : Nat) (c : Commit) (h : event_ok r c = some r')
    (hlen : c.msg.length ≤ 0x2000) : ReadsThrough r r' c.written := by
  obtain ⟨delta, tick, msg⟩ := c
  simp only at hlen
  unfold event_ok at h
  simp only at h
  split_ifs at h with hdl
  have hd : delta < 2 ^ 28 := by omega
  cases msg with
  | nil => simp at h
  | cons b d =>
    simp only at h
    split_ifs at h with hff hm hx hv hvn hrun hrn
    · -- meta events
      subst hff
      cases h
      rcases hm with hm | hm
      · subst hm
        have hw : Commit.written { delta := delta, tick := tick, msg := [0xFF, 0x06] } =
            varlen_bytes delta ++
              (0xFF :: 0x06 :: (varlen_bytes devResetStr.length ++ devResetStr)) := by
          simp [Commit.written, event_bytes]
        rw [hw]
        exact ReadsThrough.pair r 0 delta _ hd fun rest =>
          ⟨_, parse_event_meta r 0x06 devResetStr rest (by decide)⟩
      · subst hm
        have hw : Commit.written { delta := delta, tick := tick, msg := [0xFF, 0x2F, 0x00] } =
            varlen_bytes delta ++ (0xFF :: 0x2F :: (varlen_bytes ([] : List Nat).length ++ [])) := by
          simp [Commit.written, event_bytes, varlen_bytes_zero]
        rw [hw]
        exact ReadsThrough.pair r 0 delta _ hd fun rest =>
          ⟨_, parse_event_meta r 0x2F [] rest (by decide)⟩
    · -- SysEx
      cases h
      have hw : Commit.written { delta := delta, tick := tick, msg := b :: d } =
          varlen_bytes delta ++ (b :: (varlen_bytes d.length ++ d)) := by
        have hne : ¬ (b :: d = [0xFF, 0x06]) := by
          intro he
          simp only [List.cons.injEq] at he
          exact hff he.1
        have hmod : d.length % 2 ^ 32 = d.length := by
          apply Nat.mod_eq_of_lt
          simp only [List.length_cons] at hlen
          omega
        simp only [Commit.written, if_neg hne, List.append_nil, event_bytes_sysex _ _ _ hx, hmod]
      rw [hw]
      exact ReadsThrough.pair r 0 delta _ hd fun rest =>
        ⟨_, parse_event_sysex r b d rest hx (by simp only [List.length_cons] at hlen; omega)⟩
    · -- channel-voice message with its status byte
      have hr' : b = r' := by injection h
      subst hr'
      have hw : Commit.written { delta := delta, tick := tick, msg := b :: d } =
          varlen_bytes delta ++ (b :: d) := by
        have hne : ¬ (b :: d = [0xFF, 0x06]) := by
          intro he
          simp only [List.cons.injEq] at he
          exact hff he.1
        simp only [Commit.written, if_neg hne, List.append_nil]
        exact event_bytes_plain delta (b :: d) (by simpa using hx)
      rw [hw]
      exact ReadsThrough.pair r b delta _ hd fun rest =>
        ⟨_, parse_event_voice r b d rest hv.1 hv.2 hvn.1 (by simpa using hvn.2)⟩
    · -- channel-voice message under running status
      have hr' : r = r' := by injection h
      subst hr'
      have hw : Commit.written { delta := delta, tick := tick, msg := b :: d } =
          varlen_bytes delta ++ (b :: d) := by
        have hne : ¬ (b :: d = [0xFF, 0x06]) := by
          intro he
          simp only [List.cons.injEq] at he
          exact hff he.1
        simp only [Commit.written, if_neg hne, List.append_nil]
        exact event_bytes_plain delta (b :: d) (by simpa using hx)
      rw [hw]
      exact ReadsThrough.pair r r delta _ hd fun rest =>
        ⟨_, parse_event_running r (b :: d) rest hrun.2 (by simp) hrn.1
          (by simpa using hrn.2)⟩

theorem track_data_append (xs ys : List Commit) :
    track_data (xs ++ ys) = track_data xs ++ track_data ys := by
  induction xs with
  | nil => rfl
  | cons c cs ih => simp [track_data, ih]

/-- Track data of complete events that ends with the End-of-Track commit
parses completely. -/
theorem parse_track_events (mid : List Commit) (last : Commit) (r fuel : Nat) (e : Bool)
    (hlast : last.msg = [0xFF, 0x2F, 0x00])
    (hok : events_ok r (mid ++ [last]) = true)
    (hlen : ∀ c ∈ mid, c.msg.length ≤ 0x2000)
    (hfuel : (track_data (mid ++ [last])).length ≤ fuel) :
    parse_track fuel r e (track_data (mid ++ [last])) = true := by
  induction mid generalizing r fuel e with
  | nil =>
    obtain ⟨delta, tick, msg⟩ := last
    simp only at hlast
    subst hlast
    have hd : delta < 2 ^ 28 := by
      simp only [List.nil_append, events_ok, event_ok] at hok
      by_contra hge
      rw [if_pos (by omega)] at hok
      exact absurd hok (by simp)
    have hw : track_data ([] ++ [({ delta := delta, tick := tick, msg := [0xFF, 0x2F, 0x00] } : Commit)])
        = varlen_bytes delta ++ [0xFF, 0x2F, 0x00] := by
      simp [track_data, Commit.written, event_bytes]
    rw [hw] at hfuel ⊢
    exact parse_track_eot fuel r delta e hd (by
      have := varlen_bytes_ne_nil delta
      simp only [List.length_append] at hfuel
      simp at hfuel
      omega)
  | cons c mid ih =>
    have hok' : (match event_ok r c with
        | none => false
        | some r' => events_ok r' (mid ++ [last])) = true := hok
    cases hc : event_ok r c with
    | none => rw [hc] at hok'; exact absurd hok' (by simp)
    | some r1 =>
      rw [hc] at hok'
      have hok : events_ok r1 (mid ++ [last]) = true := hok'
      have hrt := ReadsThrough.of_event_ok r r1 c hc (hlen c (by simp))
      have htd : track_data (c :: mid ++ [last]) = c.written ++ track_data (mid ++ [last]) := rfl
      rw [htd] at hfuel ⊢
      obtain ⟨fuel', e', hf', hp⟩ := hrt fuel e (track_data (mid ++ [last])) hfuel
      rw [hp]
      exact ih r1 fuel' e' hok (fun c hc => hlen c (by simp [hc])) hf'

/-! ## The file as the track data of the commits -/

theorem Writes.none_made (s : Session) : Writes s s :=
  ⟨rfl, fun bytes h => ⟨[], by simp, by simpa [track_data] using h⟩⟩

theorem Writes.chain {s t u : Session} (h1 : Writes s t) (h2 : Writes t u) : Writes s u := by
  refine ⟨h2.1.trans h1.1, fun bytes hb => ?_⟩
  obtain ⟨n1, c1, f1⟩ := h1.2 bytes hb
  obtain ⟨n2, c2, f2⟩ := h2.2 _ f1
  exact ⟨n1 ++ n2, by rw [c2, c1, List.append_assoc],
    by rw [f2, track_data_append, List.append_assoc]⟩

theorem Writes.of_same (s t : Session) (hf : t.m_log_file = s.m_log_file)
    (hc : t.commits = s.commits) (hs : t.m_mid_track_start_pos = s.m_mid_track_start_pos) :
    Writes s t :=
  ⟨hs, fun bytes hb => ⟨[], by simp [hc], by simpa [track_data, hf] using hb⟩⟩

theorem Writes.of_commit (s : Session) (h : s.m_cmd_buf ≠ [0xFF, 0x06]) :
    Writes s (log_finish_comand s) := by
  by_cases hb : s.m_cmd_buf = []
  · rw [log_finish_comand_nil s hb]; exact Writes.none_made s
  · refine ⟨log_finish_comand_start s, fun bytes hf => ?_⟩
    rw [log_finish_comand_atEnd s bytes hf hb]
    exact ⟨_, rfl, by simp [track_data, Commit.written, h]⟩

theorem Writes.of_reset (s : Session) (hb : s.m_cmd_buf = []) :
    Writes s (device_reset_event s) := by
  refine ⟨by simp [device_reset_event, log_write_varlen, Session.fwrite], fun bytes hf => ?_⟩
  rw [device_reset_event_atEnd s bytes hf hb]
  refine ⟨_, rfl, ?_⟩
  have he : ∀ dl, event_bytes dl [0xFF, 0x06] = varlen_bytes dl ++ [0xFF, 0x06] :=
    fun dl => event_bytes_plain dl _ (by simp)
  simp [track_data, Commit.written, he, devResetStr_length]

theorem HeadInv.snoc_ne {s : Session} (h : HeadInv s) (d : Nat) :
    s.m_cmd_buf ++ [d] ≠ [0xFF, 0x06] := by
  unfold HeadInv at h
  cases hb : s.m_cmd_buf with
  | nil => simp
  | cons b rest =>
    rw [hb] at h
    intro he
    simp only [List.cons_append, List.cons.injEq] at he
    exact h (by simp [he.1])

theorem HeadInv.buf_ne {s : Session} (h : HeadInv s) : s.m_cmd_buf ≠ [0xFF, 0x06] := by
  unfold HeadInv at h
  intro he
  rw [he] at h
  exact h rfl

theorem Writes.of_push (s : Session) (d : Nat) (h : HeadInv s) : Writes s (push_byte s d) := by
  unfold push_byte
  split_ifs
  · exact (Writes.of_same s { s with m_cmd_rem_bytes := 0, m_cmd_buf := s.m_cmd_buf ++ [d] }
      rfl rfl rfl).chain (Writes.of_commit _ (h.snoc_ne d))
  · exact Writes.of_same s _ rfl rfl rfl

theorem Writes.of_status (s : Session) (tick d : Nat) (hb : s.m_cmd_buf = []) :
    Writes s (status_byte s tick d) := by
  unfold status_byte
  split_ifs
  · exact (Writes.of_same s (new_command s tick d) rfl rfl rfl).chain
      (Writes.of_reset _ hb)
  · exact Writes.of_same s _ rfl rfl rfl
  · exact Writes.of_same s _ rfl rfl rfl

theorem HeadInv.of_nil {s : Session} (h : s.m_cmd_buf = []) : HeadInv s := by
  unfold HeadInv; rw [h]; simp

theorem Writes.of_byte (s : Session) (tick d : Nat) (h : HeadInv s) :
    Writes s (log_proc_byte s tick d) := by
  by_cases ho : s.sinkOpen = true
  · have hF : Writes s (log_finish_comand s) := Writes.of_commit s h.buf_ne
    have hN : Writes s (new_command (log_finish_comand s) tick d) :=
      hF.chain (Writes.of_same _ _ rfl rfl rfl)
    rw [log_proc_byte_eq s tick d ho]
    unfold log_proc_byte_tree
    split_ifs with hrem hx hd hd7 hc hd hl hlf hl1
    · exact Writes.of_push s d h
    · exact (Writes.of_same s { s with m_cmd_rem_bytes := 0, m_cmd_buf := s.m_cmd_buf ++ [d] }
        rfl rfl rfl).chain (Writes.of_commit _ (h.snoc_ne d))
    · exact ((Writes.of_same s { s with m_cmd_rem_bytes := 0 } rfl rfl rfl).chain
        (Writes.of_commit _ h.buf_ne)).chain
        (Writes.of_status _ tick d (log_finish_comand_buf _))
    · exact Writes.of_same s _ rfl rfl rfl
    · exact Writes.of_push s d h
    · exact hF
    · exact hN.chain (Writes.of_reset _ (log_finish_comand_buf _))
    · exact hN
    · exact hN.chain (Writes.of_push _ d (HeadInv.of_nil (log_finish_comand_buf _)))
    · exact hF.chain (Writes.of_status _ tick d (log_finish_comand_buf _))
  · rw [log_proc_byte_closed s tick d (by simpa using ho)]
    exact Writes.none_made s

theorem HeadInv.keeps_push (s : Session) (d : Nat) (h : HeadInv s)
    (hd : s.m_cmd_buf = [] → d ≠ 0xFF) : HeadInv (push_byte s d) := by
  unfold push_byte
  split_ifs
  · exact HeadInv.of_nil (log_finish_comand_buf _)
  · unfold HeadInv at h ⊢
    show (s.m_cmd_buf ++ [d]).head? ≠ some 0xFF
    cases hb : s.m_cmd_buf with
    | nil =>
      have := hd hb
      simpa using this
    | cons b rest =>
      rw [hb] at h
      simpa using h

theorem HeadInv.keeps_status (s : Session) (tick d : Nat) (hb : s.m_cmd_buf = []) :
    HeadInv (status_byte s tick d) := by
  unfold status_byte
  split_ifs with h1 h2
  · exact HeadInv.of_nil (device_reset_event_buf _)
  · exact HeadInv.of_nil hb
  · unfold HeadInv
    show (s.m_cmd_buf ++ [d]).head? ≠ some 0xFF
    rw [hb]
    simpa using h1

theorem land_0x80_ne_ff (d : Nat) (h : d &&& 0x80 = 0) : d ≠ 0xFF := by
  intro he
  rw [he] at h
  exact absurd h (by decide)

theorem HeadInv.keeps_byte (s : Session) (tick d : Nat) (hk : SkipInv s) (h : HeadInv s) :
    HeadInv (log_proc_byte s tick d) := by
  by_cases ho : s.sinkOpen = true
  · rw [log_proc_byte_eq s tick d ho]
    unfold log_proc_byte_tree
    split_ifs with hrem hx hd hd7 hc hd hl hlf hl1
    · exact h.keeps_push s d fun _ => land_0x80_ne_ff d hd
    · exact HeadInv.of_nil (log_finish_comand_buf _)
    · exact HeadInv.keeps_status _ tick d (log_finish_comand_buf _)
    · exact h
    · refine h.keeps_push s d fun hb => ?_
      have := (hk hb hrem).1
      omega
    · exact HeadInv.of_nil (log_finish_comand_buf _)
    · exact HeadInv.of_nil (device_reset_event_buf _)
    · exact HeadInv.of_nil (log_finish_comand_buf _)
    · exact HeadInv.keeps_push _ d (HeadInv.of_nil (log_finish_comand_buf _))
        fun _ => land_0x80_ne_ff d hd
    · exact HeadInv.keeps_status _ tick d (log_finish_comand_buf _)
  · rw [log_proc_byte_closed s tick d (by simpa using ho)]
    exact h

/-- From a state in which the decoder is not in the middle of a message, the
log stream gets exactly the track data of the commits made. -/
theorem Writes.of_bytes (input : List (Nat × Nat)) (s : Session)
    (hin : ∀ x ∈ input, x.2 < 256) (hi : DecoderInv s) (hk : SkipInv s) (hh : HeadInv s) :
    Writes s (feed s input) ∧ HeadInv (feed s input) := by
  induction input generalizing s with
  | nil => exact ⟨Writes.none_made s, hh⟩
  | cons x xs ih =>
    rw [feed_cons]
    have hx := hin x (by simp)
    obtain ⟨w, hh'⟩ := ih (log_proc_byte s x.1 x.2) (fun y hy => hin y (by simp [hy]))
      (hi.after_byte s x.1 x.2 hx) (hk.keep_byte s x.1 x.2 hx hi) (hh.keeps_byte s x.1 x.2 hk)
    exact ⟨(Writes.of_byte s x.1 x.2 hh).chain w, hh'⟩

/-- What `log_end` has written when it reaches its `seekp`: the track data of
the pending buffer, if any, and of End of Track, which is the last commit. -/
theorem Writes.of_log_end (s : Session) (h : HeadInv s) :
    Writes s (log_end_unpatched s) ∧
    ∃ last, last.msg = [0xFF, 0x2F, 0x00] ∧
      (log_end_unpatched s).commits = (log_finish_comand s).commits ++ [last] := by
  unfold log_end_unpatched
  refine ⟨((Writes.of_commit s h.buf_ne).chain
    (Writes.of_same _ { log_finish_comand s with
      m_cmd_buf := (log_finish_comand s).m_cmd_buf ++ [0xFF, 0x2F, 0x00] } rfl rfl rfl)).chain
    (Writes.of_commit _ (by simp)), ?_⟩
  rw [log_finish_comand_commits, if_neg (by simp)]
  refine ⟨_, ?_, rfl⟩
  show (log_finish_comand s).m_cmd_buf ++ [0xFF, 0x2F, 0x00] = _
  rw [log_finish_comand_buf]
  rfl

theorem Reachable.after_feed (input : List (Nat × Nat)) (s : Session) (h : Reachable s)
    (hin : ∀ x ∈ input, x.2 < 256) : Reachable (feed s input) := by
  induction input generalizing s with
  | nil => exact h
  | cons x xs ih =>
    rw [feed_cons]
    exact ih _ (Reachable.byte s x.1 x.2 (hin x (by simp)) h) (fun y hy => hin y (by simp [hy]))

/-- The checks of `smf_ok` on a file made of the first 18 bytes of the header,
a length field and track data. -/
theorem smf_ok_patched (X : List Nat) (a b c d : Nat) :
    smf_ok ((smf_header ++ X).take 18 ++ [a, b, c, d] ++ (smf_header ++ X).drop 22)
      = (decide (be_decode [a, b, c, d] = X.length) &&
          parse_track (X.length + 22) 0 false X) := by
  simp [smf_ok, smf_header]

end Midiout
